import Mathlib

/-!
Shallow embedding of `merkle_tree.go` (package `merkletree`,
repo tommytim0515/go-merkletree) together with proofs about the
specification claims.

Modelling conventions:
* `[]byte` becomes `Bytes := List Nat`; a Go `nil` slice is `[]`.
* Fallible calls (`Serialize`, hash functions) return `Except String Bytes`,
  the `String` being the Go `error` message.
* Go mutation becomes explicit state passing: slice writes are `List.set`
  (the Go code never writes out of range, so `List.set`'s out-of-range
  no-op is never exercised on the executed paths).
* `uint32` arithmetic on `Proof.Path` is `Nat` arithmetic reduced `% 2^32`
  exactly where the Go program overflows.
* Go `for` loops become structural recursions.  Loops of the shape
  `for i := s; i < bound; i += d` carry an explicit iteration budget
  (`fuel`), always instantiated by callers with a value that is provably
  at least the number of iterations of the Go loop, so that the guard
  `i < bound`, not the fuel, terminates the loop.
* The worker pool (`gool.Pool.Map`) executes every submitted task and
  returns the per-task results in submission order; since every task is a
  deterministic function of its argument record and all tasks write
  disjoint slots, the pool is modelled by running the handlers
  sequentially in submission order and collecting their results.
* `runtime.NumCPU()` is passed to `New` as an explicit argument `numCPU`.
-/

namespace merkletree

/-- Byte strings: a Go `[]byte`. -/
abbrev Bytes := List Nat

/-- `DataBlock` interface: a single fallible `Serialize` operation. -/
structure DataBlock where
  serialize : Except String Bytes
deriving Repr

/-- `TypeHashFunc`: signature of the hash functions. -/
abbrev TypeHashFunc := Bytes → Except String Bytes

/-- Type of the (unexported) concatenation functions. -/
abbrev TypeConcatFunc := Bytes → Bytes → Bytes

/-- `ModeProofGen`: proof generation configuration mode (`iota` = 0). -/
def ModeProofGen : Nat := 0
/-- `ModeTreeBuild`: tree building configuration mode. -/
def ModeTreeBuild : Nat := 1
/-- `ModeProofGenAndTreeBuild`: proof generation and tree building mode. -/
def ModeProofGenAndTreeBuild : Nat := 2

def ErrInvalidNumOfDataBlocks : String := "the number of data blocks must be greater than 1"
def ErrInvalidConfigMode : String := "invalid configuration mode"
def ErrProofIsNil : String := "proof is nil"
def ErrDataBlockIsNil : String := "data block is nil"
def ErrProofInvalidModeTreeNotBuilt : String := "merkle tree is not in built, could not generate proof by this method"
def ErrProofInvalidDataBlock : String := "data block is not a member of the merkle tree"

/-- Modelled from the spec: `DefaultHashFunc` lives in `default_hash.go`,
which is not under `src/`.  The spec only says "a default implementation
is provided" (one fixed, deterministic, total digest), so it is modelled
as an arbitrary fixed injective encoding. -/
def DefaultHashFunc : TypeHashFunc := fun b => .ok (0 :: b)

/-- Modelled from the spec: `DefaultHashFuncParallel` (also from
`default_hash.go`, not under `src/`) is the concurrency-safe variant of
the default digest; per the spec there is one default digest, so it
computes the same function. -/
def DefaultHashFuncParallel : TypeHashFunc := DefaultHashFunc

/-- `Config`: the Merkle-tree configuration record.  Nilable Go function
fields (`concatFunc`, `HashFunc`) become `Option`s; `NumRoutines` is a Go
`int`, so it is an `Int` (`New` treats any value `≤ 0` as unset). -/
structure Config where
  concatFunc : Option TypeConcatFunc := none
  HashFunc : Option TypeHashFunc := none
  NumRoutines : Int := 0
  Mode : Nat := 0
  RunInParallel : Bool := false
  SortSiblingPairs : Bool := false
  DisableLeafHashing : Bool := false

/-- `Proof`: Merkle proof; `Path` is a `uint32`, modelled as a `Nat`
kept `< 2^32` by reducing every update `% 2^32`. -/
structure Proof where
  Siblings : List Bytes := []
  Path : Nat := 0
deriving Repr, DecidableEq

/-- `MerkleTree`: the tree structure.  The embedded `Config` is the
`config` field; `leafMap` is the assoc list of insertions (lookup takes
the last insertion, matching Go map overwrite semantics). -/
structure MerkleTree where
  config : Config
  leafMap : List (Bytes × Nat) := []
  nodes : List (List Bytes) := []
  Root : Bytes := []
  Leaves : List Bytes := []
  Proofs : List Proof := []
  Depth : Nat := 0
  NumLeaves : Nat := 0

/-- `concatHash`: plain concatenation of two byte strings. -/
def concatHash (b1 b2 : Bytes) : Bytes := b1 ++ b2

/-- `bytes.Compare`: lexicographic three-way comparison. -/
def bytesCompare : Bytes → Bytes → Ordering
  | [], [] => .eq
  | [], _ :: _ => .lt
  | _ :: _, [] => .gt
  | a :: as, b :: bs =>
    if a < b then .lt else if b < a then .gt else bytesCompare as bs

/-- `concatSortHash`: concatenation after sorting the pair. -/
def concatSortHash (b1 b2 : Bytes) : Bytes :=
  if bytesCompare b1 b2 = .lt then concatHash b1 b2 else concatHash b2 b1

/-- Resolved hash function of a tree (`m.HashFunc` is non-nil on every
tree produced by `New`; the default covers the `none` case). -/
def MerkleTree.hashF (m : MerkleTree) : TypeHashFunc :=
  m.config.HashFunc.getD DefaultHashFunc

/-- Resolved concatenation function of a tree. -/
def MerkleTree.concatF (m : MerkleTree) : TypeConcatFunc :=
  m.config.concatFunc.getD concatHash

/-- `fixOdd`: balance an odd-length level by duplicating its last node;
writes into slot `prevLen` if the backing slice is long enough,
otherwise appends. -/
def fixOdd (buf : List Bytes) (prevLen : Nat) : List Bytes × Nat :=
  if prevLen % 2 = 0 then (buf, prevLen)
  else
    let appendNode := buf.getD (prevLen - 1) []
    if buf.length < prevLen + 1 then (buf ++ [appendNode], prevLen + 1)
    else (buf.set prevLen appendNode, prevLen + 1)

/-- `leafFromBlock`: serialize a block and digest it (or copy it verbatim
when leaf hashing is disabled). -/
def leafFromBlock (block : DataBlock) (config : Config) : Except String Bytes := do
  let blockBytes ← block.serialize
  if config.DisableLeafHashing then
    pure blockBytes
  else
    (config.HashFunc.getD DefaultHashFunc) blockBytes

/-- `leafGen`: sequential leaf generation, aborting at the first error. -/
def leafGen (blocks : List DataBlock) (config : Config) : Except String (List Bytes) :=
  match blocks with
  | [] => .ok []
  | b :: rest => do
    let leaf ← leafFromBlock b config
    let leaves ← leafGen rest config
    pure (leaf :: leaves)

/-- `initProofs`: one empty proof per leaf. -/
def initProofs (numLeaves : Nat) : List Proof :=
  List.replicate numLeaves { Siblings := [], Path := 0 }

/-- The in-place update loop body of `updatePairProofs`: apply `f` to the
proofs with index in `[s, e)` (both bounds already clipped by the caller
via `min`). -/
def updRange (ps : List Proof) (k s e : Nat) (f : Proof → Proof) : List Proof :=
  match ps with
  | [] => []
  | p :: rest => (if s ≤ k ∧ k < e then f p else p) :: updRange rest (k + 1) s e f

/-- `updatePairProofs`: record, for the pair at buffer position `idx`
covering `batch` leaves per side, the right sibling (and the path bit) for
the left-half leaves and the left sibling for the right-half leaves. -/
def updatePairProofs (proofs : List Proof) (buf : List Bytes) (idx batch step : Nat) :
    List Proof :=
  let start := idx * batch
  let e := min (start + batch) proofs.length
  let proofs := updRange proofs 0 start e (fun p =>
    { Siblings := p.Siblings ++ [buf.getD (idx + 1) []],
      Path := (p.Path + (1 <<< step) % 2 ^ 32) % 2 ^ 32 })
  let start := start + batch
  let e := min (start + batch) proofs.length
  updRange proofs 0 start e (fun p =>
    { p with Siblings := p.Siblings ++ [buf.getD idx []] })

/-- The loop of `updateProofs`: `for i := 0; i < bufLen; i += 2`.
`fuel` is an iteration budget, always instantiated `≥ bufLen`. -/
def updateProofsFrom (proofs : List Proof) (buf : List Bytes) (bufLen batch step i : Nat) :
    Nat → List Proof
  | 0 => proofs
  | fuel + 1 =>
    if i < bufLen then
      updateProofsFrom (updatePairProofs proofs buf i batch step) buf bufLen batch step
        (i + 2) fuel
    else proofs

/-- `updateProofs`: record one proof layer for every leaf from the level
buffer `buf` (first `bufLen` entries), at level `step`. -/
def updateProofs (proofs : List Proof) (buf : List Bytes) (bufLen step : Nat) : List Proof :=
  updateProofsFrom proofs buf bufLen (1 <<< step) step 0 (bufLen + 1)

/-- The in-place pair-hashing loop of sequential `proofGen`:
`for idx := 0; idx < prevLen; idx += 2 { buf[idx>>1] = hash(concat(buf[idx], buf[idx+1])) }`.
Returns the buffer together with the first error, if any. -/
def hashPairsFrom (hf : TypeHashFunc) (cf : TypeConcatFunc) (prevLen : Nat)
    (buf : List Bytes) (idx : Nat) : Nat → List Bytes × Option String
  | 0 => (buf, none)
  | fuel + 1 =>
    if idx < prevLen then
      match hf (cf (buf.getD idx []) (buf.getD (idx + 1) [])) with
      | .error e => (buf, some e)
      | .ok v => hashPairsFrom hf cf prevLen (buf.set (idx / 2) v) (idx + 2) fuel
    else (buf, none)

/-- The level loop of sequential `proofGen`
(`for step := 1; step < m.Depth; step++`), with the remaining number of
iterations as the recursion measure.  State: proofs, rolling buffer,
`prevLen`, `step`. -/
def proofGenLoop (hf : TypeHashFunc) (cf : TypeConcatFunc)
    (proofs : List Proof) (buf : List Bytes) (prevLen step : Nat) :
    Nat → List Proof × List Bytes × Nat × Option String
  | 0 => (proofs, buf, prevLen, none)
  | remaining + 1 =>
    match hashPairsFrom hf cf prevLen buf 0 (prevLen + 1) with
    | (buf, some e) => (proofs, buf, prevLen, some e)
    | (buf, none) =>
      let prevLen := prevLen / 2
      let (buf, prevLen) := fixOdd buf prevLen
      let proofs := updateProofs proofs buf prevLen step
      proofGenLoop hf cf proofs buf prevLen (step + 1) remaining

/-- Sequential part of `proofGen` (after `initProofs` and the initial
`fixOdd`): record level 0, ascend `Depth - 1` levels, then hash the two
remaining nodes into the root.  Returns the updated tree and the error. -/
def proofGenSeq (m : MerkleTree) (buf : List Bytes) (prevLen : Nat) :
    MerkleTree × Option String :=
  let proofs := updateProofs m.Proofs buf m.NumLeaves 0
  match proofGenLoop m.hashF m.concatF proofs buf prevLen 1 (m.Depth - 1) with
  | (proofs, _, _, some e) => ({ m with Proofs := proofs }, some e)
  | (proofs, buf, _, none) =>
    match m.hashF (m.concatF (buf.getD 0 []) (buf.getD 1 [])) with
    | .error e => ({ m with Proofs := proofs }, some e)
    | .ok root => ({ m with Proofs := proofs, Root := root }, none)

/-- `bits.Len`: number of bits needed to represent `n` (0 for 0), i.e.
`Nat.size`, written with an explicit fuel so that it is structurally
recursive (kernel-reducible); `bitsLen_eq_size` below identifies it. -/
def bitsLenAux : Nat → Nat → Nat
  | 0, _ => 0
  | fuel + 1, n => if n = 0 then 0 else bitsLenAux fuel (n / 2) + 1

/-- `bits.Len n` with fuel `n`. -/
def bitsLen (n : Nat) : Nat := bitsLenAux n n

/-- The pairwise-hash task at source index `i` of a level: what every
level-ascending loop of the Go file computes for the pair `(i, i+1)`. -/
def levelHashFn (hf : TypeHashFunc) (cf : TypeConcatFunc) (src : List Bytes) :
    Nat → Except String Bytes :=
  fun i => hf (cf (src.getD i []) (src.getD (i + 1) []))

/-- A strided filling loop `for i := s; i < bound; i += stride`, writing
`dst[slot i] = f i` and stopping at the first error: the body of
`leafGenHandler`, `proofGenHandler`, `treeBuildHandler` and of the
sequential level loop of `treeBuild`. -/
def workerFill (f : Nat → Except String Bytes) (slot : Nat → Nat) (stride bound : Nat)
    (dst : List Bytes) (i : Nat) : Nat → List Bytes × Option String
  | 0 => (dst, none)
  | fuel + 1 =>
    if i < bound then
      match f i with
      | .error e => (dst, some e)
      | .ok v => workerFill f slot stride bound (dst.set (slot i) v) (i + stride) fuel
    else (dst, none)

/-- `gool.Pool.Map` over filling handlers: run every worker (start
offsets `starts`) in submission order, collecting each worker's error. -/
def runWorkers (f : Nat → Except String Bytes) (slot : Nat → Nat) (stride bound : Nat)
    (dst : List Bytes) : List Nat → List Bytes × List (Option String)
  | [] => (dst, [])
  | s :: rest =>
    let (dst1, e) := workerFill f slot stride bound dst s (bound + 1)
    let (dst2, es) := runWorkers f slot stride bound dst1 rest
    (dst2, e :: es)

/-- `for _, err = range errList { if err != nil { return } }`: the first
non-nil error of a worker batch. -/
def firstErr : List (Option String) → Option String
  | [] => none
  | some e :: _ => some e
  | none :: rest => firstErr rest

/-- `leafGenParallel`: strided leaf generation; worker `w` fills slots
`w, w + R, w + 2R, ...` (`R` = routines clamped to the number of leaves);
the first non-nil worker error is returned. -/
def leafGenParallel (blocks : List DataBlock) (cfg : Config) (S : Nat) :
    Except String (List Bytes) :=
  let lenLeaves := blocks.length
  let R := min S lenLeaves
  let (leaves, errs) :=
    runWorkers (fun i => leafFromBlock (blocks.getD i { serialize := .ok [] }) cfg)
      (fun i => i) R lenLeaves (List.replicate lenLeaves []) (List.range R)
  match firstErr errs with
  | some e => .error e
  | none => .ok leaves

/-- The strided loop of `updateProofHandler`:
`for i := start; i < bufLen; i += numRoutines << 1`. -/
def updateProofsStride (proofs : List Proof) (buf : List Bytes)
    (bufLen batch step stride i : Nat) : Nat → List Proof
  | 0 => proofs
  | fuel + 1 =>
    if i < bufLen then
      updateProofsStride (updatePairProofs proofs buf i batch step) buf bufLen batch step
        stride (i + stride) fuel
    else proofs

/-- The worker batch of `updateProofsParallel` (worker `w` starts at
`2 * w`); the handlers never fail, so no errors are collected. -/
def runProofWorkers (proofs : List Proof) (buf : List Bytes)
    (bufLen batch step stride : Nat) : List Nat → List Proof
  | [] => proofs
  | w :: rest =>
    runProofWorkers
      (updateProofsStride proofs buf bufLen batch step stride (2 * w) (bufLen + 1))
      buf bufLen batch step stride rest

/-- `updateProofsParallel`: proof recording partitioned over
`min S bufLen` workers with stride `2 * R`. -/
def updateProofsParallel (S : Nat) (proofs : List Proof) (buf : List Bytes)
    (bufLen step : Nat) : List Proof :=
  let batch := 1 <<< step
  let R := min S bufLen
  runProofWorkers proofs buf bufLen batch step (2 * R) (List.range R)

/-- The level loop of `proofGenParallel`, double-buffering between `buf`
and `buff`; `R` is the worker-count clamp carried across iterations,
`S = m.NumRoutines` is re-read by `updateProofsParallel` each level. -/
def proofGenParallelLoop (hf : TypeHashFunc) (cf : TypeConcatFunc) (S : Nat)
    (proofs : List Proof) (buf buff : List Bytes) (prevLen R step : Nat) :
    Nat → List Proof × List Bytes × Nat × Option String
  | 0 => (proofs, buf, prevLen, none)
  | remaining + 1 =>
    let R := if R > prevLen then prevLen else R
    let (buff, errs) :=
      runWorkers (levelHashFn hf cf buf) (fun i => i / 2) (2 * R) prevLen buff
        ((List.range R).map (2 * ·))
    match firstErr errs with
    | some e => (proofs, buf, prevLen, some e)
    | none =>
      let (buf, buff) := (buff, buf)
      let prevLen := prevLen / 2
      let (buf, prevLen) := fixOdd buf prevLen
      let proofs := updateProofsParallel S proofs buf prevLen step
      proofGenParallelLoop hf cf S proofs buf buff prevLen R (step + 1) remaining

/-- `proofGenParallel` (after the initial `fixOdd` done by `proofGen`):
record level 0, ascend with double buffering, hash the root. -/
def proofGenParallel (m : MerkleTree) (buf : List Bytes) (prevLen : Nat) :
    MerkleTree × Option String :=
  let buff := List.replicate (prevLen / 2) ([] : Bytes)
  let S := m.config.NumRoutines.toNat
  let proofs := updateProofsParallel S m.Proofs buf m.NumLeaves 0
  match proofGenParallelLoop m.hashF m.concatF S proofs buf buff prevLen S 1 (m.Depth - 1) with
  | (proofs, _, _, some e) => ({ m with Proofs := proofs }, some e)
  | (proofs, buf, _, none) =>
    match m.hashF (m.concatF (buf.getD 0 []) (buf.getD 1 [])) with
    | .error e => ({ m with Proofs := proofs }, some e)
    | .ok root => ({ m with Proofs := proofs, Root := root }, none)

/-- `proofGen`: proof-generation mode construction; initialises the
proofs, copies the leaves into the rolling buffer, balances it and
dispatches on `RunInParallel`. -/
def proofGen (m : MerkleTree) : MerkleTree × Option String :=
  let m := { m with Proofs := initProofs m.NumLeaves }
  let (buf, prevLen) := fixOdd m.Leaves m.NumLeaves
  if m.config.RunInParallel then proofGenParallel m buf prevLen
  else proofGenSeq m buf prevLen

/-- `leafMap` population (the background goroutine of `treeBuild`):
insertions `string(Leaves[i]) ↦ i` in index order. -/
def mapGen (leaves : List Bytes) : List (Bytes × Nat) :=
  leaves.enum.map fun p => (p.2, p.1)

/-- Go map lookup on the insertion list: the last insertion wins. -/
def mapLookup (mp : List (Bytes × Nat)) (k : Bytes) : Option Nat :=
  (mp.reverse.find? (fun p => p.1 == k)).map (·.2)

/-- The sequential level loop of `treeBuild`: build `remaining` further
levels above `level` (whose live length is `prevLen`), each into a fresh
zeroed slice, balancing each new level. -/
def treeBuildLoopSeq (hf : TypeHashFunc) (cf : TypeConcatFunc) (level : List Bytes)
    (prevLen : Nat) : Nat → List (List Bytes) × Option String
  | 0 => ([], none)
  | remaining + 1 =>
    let dst := List.replicate (prevLen / 2) ([] : Bytes)
    match workerFill (levelHashFn hf cf level) (fun i => i / 2) 2 prevLen dst 0 (prevLen + 1) with
    | (dst, some e) => ([dst], some e)
    | (dst, none) =>
      let (dst, prevLen) := fixOdd dst dst.length
      let (rest, err) := treeBuildLoopSeq hf cf dst prevLen remaining
      (dst :: rest, err)

/-- The level loop of `computeTreeNodeParallel`: like the sequential one
but each level is filled by `min S prevLen` workers with stride
`2 * S` (`S = m.NumRoutines`, unclamped in the stride). -/
def computeTreeNodeParallelLoop (hf : TypeHashFunc) (cf : TypeConcatFunc) (S : Nat)
    (level : List Bytes) (prevLen : Nat) : Nat → List (List Bytes) × Option String
  | 0 => ([], none)
  | remaining + 1 =>
    let dst := List.replicate (prevLen / 2) ([] : Bytes)
    let R := min S prevLen
    let (dst, errs) :=
      runWorkers (levelHashFn hf cf level) (fun i => i / 2) (2 * S) prevLen dst
        ((List.range R).map (2 * ·))
    match firstErr errs with
    | some e => ([dst], some e)
    | none =>
      let (dst, prevLen) := fixOdd dst dst.length
      let (rest, err) := computeTreeNodeParallelLoop hf cf S dst prevLen remaining
      (dst :: rest, err)

/-- `treeBuild`: populate `leafMap` (the concurrent task, joined before
return), balance the copied leaf level into `nodes[0]`, optionally run
the parallel node computation (whose successful results are then
recomputed — and thus overwritten level by level — by the unconditional
sequential loop, exactly as in the Go source), and hash the root from the
two nodes of the last retained level. -/
def treeBuild (m : MerkleTree) : MerkleTree × Option String :=
  let m := { m with leafMap := mapGen m.Leaves }
  let (nodes0, prevLen) := fixOdd m.Leaves m.NumLeaves
  match (if m.config.RunInParallel then
          computeTreeNodeParallelLoop m.hashF m.concatF m.config.NumRoutines.toNat nodes0
            prevLen (m.Depth - 1)
        else ([], none)) with
  | (parLevels, some e) => ({ m with nodes := nodes0 :: parLevels }, some e)
  | (_, none) =>
    match treeBuildLoopSeq m.hashF m.concatF nodes0 prevLen (m.Depth - 1) with
    | (levels, some e) => ({ m with nodes := nodes0 :: levels }, some e)
    | (levels, none) =>
      let ns := nodes0 :: levels
      let lastLevel := ns.getD (m.Depth - 1) []
      match m.hashF (m.concatF (lastLevel.getD 0 []) (lastLevel.getD 1 [])) with
      | .error e => ({ m with nodes := ns }, some e)
      | .ok root => ({ m with nodes := ns, Root := root }, none)

/-- The proof-recording loops of `ModeProofGenAndTreeBuild` in `New`:
`for i := 0; i < len(m.nodes); i++ { updateProofs[Parallel](nodes[i], len(nodes[i]), i) }`
(the two Go loops, selected by `par`). -/
def updateProofsLevels (proofs : List Proof) (levels : List (List Bytes)) (i : Nat)
    (par : Bool) (S : Nat) : List Proof :=
  match levels with
  | [] => proofs
  | L :: rest =>
    let proofs :=
      if par then updateProofsParallel S proofs L L.length i
      else updateProofs proofs L L.length i
    updateProofsLevels proofs rest (i + 1) par S

/-- The configuration-defaulting block at the head of `New`: hash
function, concatenation function and `NumRoutines` initialisation. -/
def resolveConfig (cfg : Config) (numCPU : Nat) : Config :=
  let defaultHF := if cfg.RunInParallel then DefaultHashFuncParallel else DefaultHashFunc
  let cfg := if cfg.HashFunc.isNone then { cfg with HashFunc := some defaultHF }
    else cfg
  let defaultCF := if cfg.SortSiblingPairs then concatSortHash else concatHash
  let cfg := if cfg.concatFunc.isNone then { cfg with concatFunc := some defaultCF }
    else cfg
  if cfg.RunInParallel ∧ cfg.NumRoutines ≤ 0 then
    { cfg with NumRoutines := (numCPU : Int) }
  else cfg

/-- `New`: full construction.  `numCPU` stands for `runtime.NumCPU()`.
Returns the pair of Go named return values `(m, err)` — note that the Go
function returns the partially built `m` together with the error when a
failure happens after leaf generation. -/
def New (config : Option Config) (blocks : List DataBlock) (numCPU : Nat) :
    Option MerkleTree × Option String :=
  if blocks.length ≤ 1 then (none, some ErrInvalidNumOfDataBlocks)
  else
    let cfg := resolveConfig (config.getD {}) numCPU
    let m : MerkleTree :=
      { config := cfg, NumLeaves := blocks.length, Depth := bitsLen (blocks.length - 1) }
    match (if cfg.RunInParallel then leafGenParallel blocks cfg cfg.NumRoutines.toNat
           else leafGen blocks cfg) with
    | .error e => (none, some e)
    | .ok leaves =>
      let m := { m with Leaves := leaves }
      -- `if m.Mode == 0 { m.Mode = ModeProofGen }` is the identity
      -- (`ModeProofGen` is 0), so it needs no modelling step.
      if m.config.Mode = ModeProofGen then
        let (m, err) := proofGen m
        (some m, err)
      else if m.config.Mode = ModeTreeBuild then
        let (m, err) := treeBuild m
        (some m, err)
      else if m.config.Mode = ModeProofGenAndTreeBuild then
        match treeBuild m with
        | (m, some e) => (some m, some e)
        | (m, none) =>
          let m := { m with Proofs := initProofs m.NumLeaves }
          let ps := updateProofsLevels m.Proofs m.nodes 0 m.config.RunInParallel m.config.NumRoutines.toNat
          (some { m with Proofs := ps }, none)
      else (none, some ErrInvalidConfigMode)

/-- The sibling-folding loop of `Verify`. -/
def verifyLoop (hf : TypeHashFunc) (cf : TypeConcatFunc) (result : Bytes) (path : Nat) :
    List Bytes → Except String Bytes
  | [] => .ok result
  | sib :: rest => do
    let r ← if path % 2 = 1 then hf (cf result sib) else hf (cf sib result)
    verifyLoop hf cf r (path / 2) rest

/-- `Verify` (package-level), including its observable effect on the
caller's configuration record: the second component is what the caller's
`*Config` points to after the call (Go `Verify` assigns default
`HashFunc`/`concatFunc` through the pointer when they are nil). -/
def VerifyM (dataBlock : Option DataBlock) (proof : Option Proof) (root : Bytes)
    (config : Option Config) : Except String Bool × Option Config :=
  match dataBlock with
  | none => (.error ErrDataBlockIsNil, config)
  | some db =>
    match proof with
    | none => (.error ErrProofIsNil, config)
    | some pf =>
      let cfg := config.getD {}
      let cfg := if cfg.HashFunc.isNone then { cfg with HashFunc := some DefaultHashFunc }
        else cfg
      let cfg := if cfg.concatFunc.isNone then { cfg with concatFunc := some concatHash }
        else cfg
      let post := if config.isSome then some cfg else none
      match leafFromBlock db cfg with
      | .error e => (.error e, post)
      | .ok leaf =>
        match verifyLoop (cfg.HashFunc.getD DefaultHashFunc) (cfg.concatFunc.getD concatHash)
            leaf pf.Path pf.Siblings with
        | .error e => (.error e, post)
        | .ok result => (.ok (result == root), post)

/-- `Verify`: the returned `(bool, error)` of the package function. -/
def Verify (dataBlock : Option DataBlock) (proof : Option Proof) (root : Bytes)
    (config : Option Config) : Except String Bool :=
  (VerifyM dataBlock proof root config).1

/-- Method `(*MerkleTree).Verify`: delegates to the package function with
the tree's root and configuration. -/
def MerkleTree.Verify (m : MerkleTree) (dataBlock : Option DataBlock) (proof : Option Proof) :
    Except String Bool :=
  merkletree.Verify dataBlock proof m.Root (some m.config)

/-- The level walk of `(*MerkleTree).Proof`: from leaf position `idx`,
record the sibling at every level (into the pre-sized siblings slice) and
set the path bit when the position is even; halve the position. -/
def proofLoop (nodes : List (List Bytes)) (idx path : Nat) (siblings : List Bytes) (i : Nat) :
    Nat → Nat × List Bytes
  | 0 => (path, siblings)
  | remaining + 1 =>
    if idx % 2 = 1 then
      proofLoop nodes (idx / 2) path
        (siblings.set i ((nodes.getD i []).getD (idx - 1) [])) (i + 1) remaining
    else
      proofLoop nodes (idx / 2) ((path + (1 <<< i) % 2 ^ 32) % 2 ^ 32)
        (siblings.set i ((nodes.getD i []).getD (idx + 1) [])) (i + 1) remaining

/-- Method `(*MerkleTree).Proof`: on-demand proof lookup against the
retained node matrix. -/
def MerkleTree.Proof (m : MerkleTree) (dataBlock : DataBlock) :
    Except String merkletree.Proof :=
  if m.config.Mode ≠ ModeTreeBuild ∧ m.config.Mode ≠ ModeProofGenAndTreeBuild then
    .error ErrProofInvalidModeTreeNotBuilt
  else
    match leafFromBlock dataBlock m.config with
    | .error e => .error e
    | .ok leaf =>
      match mapLookup m.leafMap leaf with
      | none => .error ErrProofInvalidDataBlock
      | some idx =>
        let (path, siblings) := proofLoop m.nodes idx 0 (List.replicate m.Depth []) 0 m.Depth
        .ok { Path := path, Siblings := siblings }

/-! ## Specification-side (pure) descriptions of the construction

These are not translations of Go code; they are the clean recursive
descriptions of the balanced levels, the per-leaf proofs and the root
that the theorems below relate the source embeddings to. -/

/-- Balance a whole level (spec side): duplicate the last node when the
length is odd. -/
def specBal (L : List Bytes) : List Bytes :=
  if L.length % 2 = 0 then L else L ++ [L.getD (L.length - 1) []]

/-- Pairwise-hash a (balanced) level into the next one, stopping at the
first error. -/
def pairHash (hf : TypeHashFunc) (cf : TypeConcatFunc) : List Bytes → Except String (List Bytes)
  | a :: b :: rest => do
    let h ← hf (cf a b)
    let r ← pairHash hf cf rest
    pure (h :: r)
  | _ => pure []

/-- The balanced level `s` of the tree over `leaves`. -/
def specLevel (hf : TypeHashFunc) (cf : TypeConcatFunc) (leaves : List Bytes) :
    Nat → Except String (List Bytes)
  | 0 => .ok (specBal leaves)
  | s + 1 => do
    let L ← specLevel hf cf leaves s
    let N ← pairHash hf cf L
    pure (specBal N)

/-- The value of level `s` (meaningful when `specLevel` succeeds). -/
def okLvl (hf : TypeHashFunc) (cf : TypeConcatFunc) (leaves : List Bytes) (s : Nat) :
    List Bytes :=
  match specLevel hf cf leaves s with
  | .ok L => L
  | .error _ => []

/-- The root: hash of the two nodes of level `depth - 1`. -/
def specRoot (hf : TypeHashFunc) (cf : TypeConcatFunc) (leaves : List Bytes) (depth : Nat) :
    Except String Bytes := do
  let L ← specLevel hf cf leaves (depth - 1)
  hf (cf (L.getD 0 []) (L.getD 1 []))

/-- Sibling position of a node position within a balanced level. -/
def sibPos (pos : Nat) : Nat := if pos % 2 = 1 then pos - 1 else pos + 1

/-- Sibling of leaf `k` at level `s`. -/
def specSib (hf : TypeHashFunc) (cf : TypeConcatFunc) (leaves : List Bytes) (s k : Nat) :
    Bytes :=
  (okLvl hf cf leaves s).getD (sibPos (k >>> s)) []

/-- The packed path of leaf `k` over levels `0 .. d - 1`: bit `s` is set
when the leaf's level-`s` ancestor is a left child (even position); the
`uint32` wrap-around of the Go counter is kept. -/
def specPath (k : Nat) : Nat → Nat
  | 0 => 0
  | s + 1 =>
    if (k >>> s) % 2 = 1 then specPath k s
    else (specPath k s + (1 <<< s) % 2 ^ 32) % 2 ^ 32

/-- The full spec proof of leaf `k` for a tree of the given depth. -/
def specProofK (hf : TypeHashFunc) (cf : TypeConcatFunc) (leaves : List Bytes)
    (depth k : Nat) : Proof :=
  { Siblings := (List.range depth).map (fun s => specSib hf cf leaves s k),
    Path := specPath k depth }

/-- Ceiling division (used for the exact width of every level). -/
def cdiv (n d : Nat) : Nat := (n + d - 1) / d

/-- Width of balanced level `s` of a tree over `n` leaves. -/
def levLen (n s : Nat) : Nat := 2 * cdiv n (2 ^ (s + 1))

/-! ## Arithmetic helper lemmas -/

lemma cdiv_le_iff {d : Nat} (hd : 0 < d) (n m : Nat) : cdiv n d ≤ m ↔ n ≤ m * d := by
  unfold cdiv
  rw [Nat.div_le_iff_le_mul_add_pred hd, Nat.mul_comm d m]
  omega

lemma le_cdiv_mul {d : Nat} (hd : 0 < d) (n : Nat) : n ≤ cdiv n d * d :=
  (cdiv_le_iff hd n (cdiv n d)).mp le_rfl

lemma cdiv_pos {d n : Nat} (hd : 0 < d) (hn : 0 < n) : 0 < cdiv n d := by
  by_contra h
  have h0 : cdiv n d ≤ 0 := by omega
  have := (cdiv_le_iff hd n 0).mp h0
  omega

lemma cdiv_cdiv {a b : Nat} (ha : 0 < a) (hb : 0 < b) (n : Nat) :
    cdiv (cdiv n a) b = cdiv n (a * b) := by
  apply Nat.le_antisymm
  · rw [cdiv_le_iff hb, cdiv_le_iff ha]
    have := le_cdiv_mul (Nat.mul_pos ha hb) n
    calc n ≤ cdiv n (a * b) * (a * b) := this
      _ = cdiv n (a * b) * b * a := by ring
  · rw [cdiv_le_iff (Nat.mul_pos ha hb)]
    have h1 : n ≤ cdiv n a * a := le_cdiv_mul ha n
    have h2 : cdiv n a ≤ cdiv (cdiv n a) b * b := le_cdiv_mul hb (cdiv n a)
    calc n ≤ cdiv n a * a := h1
      _ ≤ cdiv (cdiv n a) b * b * a := Nat.mul_le_mul_right a h2
      _ = cdiv (cdiv n a) b * (a * b) := by ring

lemma cdiv_eq_one {d n : Nat} (hd : 0 < d) (hn : 0 < n) (h : n ≤ d) : cdiv n d = 1 := by
  have h1 : cdiv n d ≤ 1 := (cdiv_le_iff hd n 1).mpr (by omega)
  have h2 := cdiv_pos hd hn (d := d)
  omega

lemma cdiv_two (n : Nat) : cdiv n 2 = (n + 1) / 2 := rfl

lemma levLen_even (n s : Nat) : levLen n s % 2 = 0 := by
  simp [levLen, Nat.mul_mod_right]

lemma levLen_pos {n : Nat} (hn : 0 < n) (s : Nat) : 2 ≤ levLen n s := by
  have := cdiv_pos (n := n) (d := 2 ^ (s + 1)) (Nat.pos_pow_of_pos _ (by omega)) hn
  simp only [levLen]; omega

lemma levLen_succ (n s : Nat) : levLen n (s + 1) = 2 * cdiv (levLen n s / 2) 2 := by
  have hpow : (0:Nat) < 2 ^ (s + 1) := Nat.pos_pow_of_pos _ (by omega)
  simp only [levLen]
  rw [Nat.mul_div_cancel_left _ (by omega : (0:Nat) < 2)]
  rw [cdiv_cdiv hpow (by omega)]
  rw [pow_succ]

lemma levLen_last {n d : Nat} (hn : 0 < n) (hd : 0 < d) (h : n ≤ 2 ^ d) :
    levLen n (d - 1) = 2 := by
  simp only [levLen]
  have : d - 1 + 1 = d := by omega
  rw [this, cdiv_eq_one (Nat.pos_pow_of_pos _ (by omega)) hn h]

lemma shiftRight_lt_levLen {n k : Nat} (hk : k < n) (s : Nat) : k >>> s < levLen n s := by
  rw [Nat.shiftRight_eq_div_pow]
  have hpow : (0:Nat) < 2 ^ s := Nat.pos_pow_of_pos _ (by omega)
  rw [Nat.div_lt_iff_lt_mul hpow]
  have h1 : n ≤ cdiv n (2 ^ (s + 1)) * 2 ^ (s + 1) :=
    le_cdiv_mul (Nat.pos_pow_of_pos _ (by omega)) n
  calc k < n := hk
    _ ≤ cdiv n (2 ^ (s + 1)) * 2 ^ (s + 1) := h1
    _ = 2 * cdiv n (2 ^ (s + 1)) * 2 ^ s := by rw [pow_succ]; ring
    _ = levLen n s * 2 ^ s := by rw [levLen]

/-! ## Basic list access lemmas (in `getD` form with default `[]`/`dfp`) -/

lemma getD_of_len_le {α : Type} {l : List α} {i : Nat} {d : α} (h : l.length ≤ i) :
    l.getD i d = d := by
  rw [List.getD_eq_getElem?_getD, List.getElem?_eq_none h]; rfl

lemma getD_set_self {α : Type} {l : List α} {i : Nat} {v d : α} (h : i < l.length) :
    (l.set i v).getD i d = v := by
  rw [List.getD_eq_getElem?_getD, List.getElem?_set_self h]; rfl

lemma getD_set_ne {α : Type} {l : List α} {i j : Nat} {v d : α} (h : i ≠ j) :
    (l.set i v).getD j d = l.getD j d := by
  rw [List.getD_eq_getElem?_getD, List.getElem?_set_ne h, ← List.getD_eq_getElem?_getD]

lemma getD_replicate {α : Type} {n i : Nat} {a d : α} (h : i < n) :
    (List.replicate n a).getD i d = a := by
  rw [List.getD_eq_getElem?_getD, List.getElem?_replicate, if_pos h]; rfl

lemma getD_append_left {α : Type} {l₁ l₂ : List α} {i : Nat} {d : α} (h : i < l₁.length) :
    (l₁ ++ l₂).getD i d = l₁.getD i d := by
  rw [List.getD_eq_getElem?_getD, List.getElem?_append, if_pos h, ← List.getD_eq_getElem?_getD]

lemma getD_append_right {α : Type} {l₁ l₂ : List α} {i : Nat} {d : α} (h : l₁.length ≤ i) :
    (l₁ ++ l₂).getD i d = l₂.getD (i - l₁.length) d := by
  rw [List.getD_eq_getElem?_getD, List.getElem?_append_right h, ← List.getD_eq_getElem?_getD]

lemma getD_take {α : Type} {l : List α} {m i : Nat} {d : α} (h : i < m) :
    (l.take m).getD i d = l.getD i d := by
  rw [List.getD_eq_getElem?_getD, List.getElem?_take, if_pos h, ← List.getD_eq_getElem?_getD]

/-- Recover a list from a pointwise `getD` description of a prefix. -/
lemma take_eq_of_getD {α : Type} (d : α) : ∀ (B A : List α),
    B.length ≤ A.length → (∀ i, i < B.length → A.getD i d = B.getD i d) →
    A.take B.length = B := by
  intro B
  induction B with
  | nil => intro A _ _; simp
  | cons b B ih =>
    intro A hlen hpt
    match A with
    | [] => simp at hlen
    | a :: A' =>
      have h0 := hpt 0 (by simp)
      simp [List.getD] at h0
      simp only [List.length_cons, List.take_succ_cons]
      rw [h0]
      congr 1
      apply ih A' (by simpa using hlen)
      intro i hi
      have := hpt (i + 1) (by simpa using hi)
      simpa [List.getD] using this
/-! ## Lemmas about `specBal`, `pairHash`, `specLevel` -/

lemma specBal_length (L : List Bytes) : (specBal L).length = 2 * cdiv L.length 2 := by
  simp only [specBal, cdiv_two]
  split
  · omega
  · simp only [List.length_append, List.length_singleton]
    omega

lemma specBal_even (L : List Bytes) : (specBal L).length % 2 = 0 := by
  rw [specBal_length]; omega

lemma specBal_getD_lt {L : List Bytes} {i : Nat} (h : i < L.length) :
    (specBal L).getD i [] = L.getD i [] := by
  simp only [specBal]
  split
  · rfl
  · exact getD_append_left h

lemma specBal_length_ge (L : List Bytes) : L.length ≤ (specBal L).length := by
  simp only [specBal]; split <;> simp

@[simp] lemma except_pure_eq {β : Type} (b : β) : (pure b : Except String β) = .ok b := rfl

lemma exceptBind_ok {α β : Type} {x : Except String α} {f : α → Except String β} {b : β} :
    (x >>= f) = .ok b ↔ ∃ a, x = .ok a ∧ f a = .ok b := by
  cases x <;> simp [bind, Except.bind]

lemma exceptBind_isOk {α β : Type} {x : Except String α} {f : α → Except String β} :
    ((x >>= f).isOk = true) ↔ ∃ a, x = .ok a ∧ (f a).isOk = true := by
  cases x <;> simp [bind, Except.bind, Except.isOk, Except.toBool]

lemma pairHash_cons (hf : TypeHashFunc) (cf : TypeConcatFunc) (a b : Bytes)
    (rest : List Bytes) :
    pairHash hf cf (a :: b :: rest) =
      hf (cf a b) >>= fun h => pairHash hf cf rest >>= fun r => pure (h :: r) := rfl

lemma pairHash_ok_length {hf : TypeHashFunc} {cf : TypeConcatFunc} :
    ∀ {L N : List Bytes}, pairHash hf cf L = .ok N → N.length = L.length / 2
  | [], N => by
    intro h
    have h' : Except.ok ([] : List Bytes) = Except.ok N := h
    cases h'; simp
  | [a], N => by
    intro h
    have h' : Except.ok ([] : List Bytes) = Except.ok N := h
    cases h'; simp
  | a :: b :: rest, N => by
    intro h
    rw [pairHash_cons, exceptBind_ok] at h
    obtain ⟨v, hh, h⟩ := h
    rw [exceptBind_ok] at h
    obtain ⟨r, hr, h⟩ := h
    rw [except_pure_eq, Except.ok.injEq] at h
    subst h
    have := pairHash_ok_length hr
    simp only [List.length_cons, this]
    omega

lemma pairHash_ok_getD {hf : TypeHashFunc} {cf : TypeConcatFunc} :
    ∀ {L N : List Bytes}, pairHash hf cf L = .ok N →
      ∀ j, 2 * j + 1 < L.length →
        hf (cf (L.getD (2 * j) []) (L.getD (2 * j + 1) [])) = .ok (N.getD j [])
  | [], N => by intro _ j hj; simp at hj
  | [a], N => by intro _ j hj; simp only [List.length_singleton] at hj; omega
  | a :: b :: rest, N => by
    intro h j hj
    rw [pairHash_cons, exceptBind_ok] at h
    obtain ⟨v, hh, h⟩ := h
    rw [exceptBind_ok] at h
    obtain ⟨r, hr, h⟩ := h
    rw [except_pure_eq, Except.ok.injEq] at h
    subst h
    match j with
    | 0 => simpa [List.getD] using hh
    | j + 1 =>
      have hj' : 2 * j + 1 < rest.length := by
        simp only [List.length_cons] at hj; omega
      have := pairHash_ok_getD hr j hj'
      have e1 : 2 * (j + 1) = 2 * j + 1 + 1 := by omega
      simpa [List.getD, e1] using this

lemma pairHash_isOk_iff {hf : TypeHashFunc} {cf : TypeConcatFunc} :
    ∀ {L : List Bytes}, ((pairHash hf cf L).isOk = true) ↔
      ∀ j, 2 * j + 1 < L.length →
        ((hf (cf (L.getD (2 * j) []) (L.getD (2 * j + 1) []))).isOk = true)
  | [] => by
    constructor
    · intro _ j hj; simp at hj
    · intro _; rfl
  | [a] => by
    constructor
    · intro _ j hj; simp only [List.length_singleton] at hj; omega
    · intro _; rfl
  | a :: b :: rest => by
    rw [pairHash_cons, exceptBind_isOk]
    constructor
    · rintro ⟨v, hh, h⟩ j hj
      rw [exceptBind_isOk] at h
      obtain ⟨r, hr, _⟩ := h
      match j with
      | 0 => simp [List.getD, hh, Except.isOk, Except.toBool]
      | j + 1 =>
        have hj' : 2 * j + 1 < rest.length := by
          simp only [List.length_cons] at hj; omega
        have hrest : (pairHash hf cf rest).isOk = true := by
          rw [hr]; rfl
        have := (pairHash_isOk_iff (L := rest)).mp hrest j hj'
        have e1 : 2 * (j + 1) = 2 * j + 1 + 1 := by omega
        simpa [List.getD, e1] using this
    · intro h
      have h00 := h 0 (by simp)
      have h0 : (hf (cf a b)).isOk = true := by simpa using h00
      cases hh : hf (cf a b) with
      | error e => rw [hh] at h0; simp [Except.isOk, Except.toBool] at h0
      | ok v =>
        refine ⟨v, rfl, ?_⟩
        rw [exceptBind_isOk]
        have hrest : (pairHash hf cf rest).isOk = true := by
          apply (pairHash_isOk_iff (L := rest)).mpr
          intro j hj
          have := h (j + 1) (by simp only [List.length_cons]; omega)
          have e1 : 2 * (j + 1) = 2 * j + 1 + 1 := by omega
          simpa [List.getD, e1] using this
        cases hr : pairHash hf cf rest with
        | error e => rw [hr] at hrest; simp [Except.isOk, Except.toBool] at hrest
        | ok r => exact ⟨r, rfl, rfl⟩

lemma specLevel_succ_eq (hf : TypeHashFunc) (cf : TypeConcatFunc) (leaves : List Bytes)
    (s : Nat) :
    specLevel hf cf leaves (s + 1) =
      specLevel hf cf leaves s >>= fun L =>
        pairHash hf cf L >>= fun N => pure (specBal N) := rfl

lemma specLevel_ok_succ {hf : TypeHashFunc} {cf : TypeConcatFunc} {leaves : List Bytes}
    {s : Nat} {L : List Bytes} (h : specLevel hf cf leaves (s + 1) = .ok L) :
    ∃ P N, specLevel hf cf leaves s = .ok P ∧ pairHash hf cf P = .ok N ∧ L = specBal N := by
  rw [specLevel_succ_eq, exceptBind_ok] at h
  obtain ⟨P, hP, h⟩ := h
  rw [exceptBind_ok] at h
  obtain ⟨N, hN, h⟩ := h
  rw [except_pure_eq, Except.ok.injEq] at h
  exact ⟨P, N, hP, hN, h.symm⟩

lemma specLevel_succ_of_ok {hf : TypeHashFunc} {cf : TypeConcatFunc} {leaves : List Bytes}
    {s : Nat} {P N : List Bytes} (hP : specLevel hf cf leaves s = .ok P)
    (hN : pairHash hf cf P = .ok N) :
    specLevel hf cf leaves (s + 1) = .ok (specBal N) := by
  rw [specLevel_succ_eq, hP]
  simp only [bind, Except.bind, hN, except_pure_eq]

lemma specLevel_length {hf : TypeHashFunc} {cf : TypeConcatFunc} {leaves : List Bytes} :
    ∀ {s : Nat} {L : List Bytes}, specLevel hf cf leaves s = .ok L →
      L.length = levLen leaves.length s := by
  intro s
  induction s with
  | zero =>
    intro L h
    simp only [specLevel, Except.ok.injEq] at h
    subst h
    rw [specBal_length]
    rfl
  | succ s ih =>
    intro L h
    obtain ⟨P, N, hP, hN, hL⟩ := specLevel_ok_succ h
    subst hL
    rw [specBal_length, pairHash_ok_length hN, ih hP, levLen_succ]

lemma specLevel_ok_of_le {hf : TypeHashFunc} {cf : TypeConcatFunc} {leaves : List Bytes} :
    ∀ {t : Nat} {L : List Bytes} (s : Nat), s ≤ t → specLevel hf cf leaves t = .ok L →
      ∃ P, specLevel hf cf leaves s = .ok P := by
  intro t
  induction t with
  | zero =>
    intro L s hs h
    have : s = 0 := by omega
    subst this
    exact ⟨L, h⟩
  | succ t ih =>
    intro L s hs h
    obtain ⟨P, N, hP, _, _⟩ := specLevel_ok_succ h
    rcases Nat.lt_or_ge s (t + 1) with hlt | hge
    · exact ih s (by omega) hP
    · have : s = t + 1 := by omega
      subst this
      exact ⟨L, h⟩

lemma okLvl_eq {hf : TypeHashFunc} {cf : TypeConcatFunc} {leaves : List Bytes} {s : Nat}
    {L : List Bytes} (h : specLevel hf cf leaves s = .ok L) :
    okLvl hf cf leaves s = L := by
  simp [okLvl, h]

/-- The parent-hash step: the hash at even position `pos` of level `s`
is node `pos / 2` of level `s + 1`. -/
lemma level_parent_step {hf : TypeHashFunc} {cf : TypeConcatFunc} {leaves : List Bytes}
    {s : Nat} {P N : List Bytes} (hP : specLevel hf cf leaves s = .ok P)
    (hN : pairHash hf cf P = .ok N) {pos : Nat} (hpos : pos < P.length)
    (heven : pos % 2 = 0) :
    hf (cf (P.getD pos []) (P.getD (pos + 1) [])) =
      .ok ((okLvl hf cf leaves (s + 1)).getD (pos / 2) []) := by
  have hLen : P.length = levLen leaves.length s := specLevel_length hP
  have hNlen : N.length = P.length / 2 := pairHash_ok_length hN
  have hEven : P.length % 2 = 0 := by rw [hLen]; exact levLen_even _ _
  have hdiv : pos / 2 < N.length := by rw [hNlen]; omega
  have h2 : 2 * (pos / 2) = pos := by omega
  have := pairHash_ok_getD hN (pos / 2) (by omega)
  rw [h2] at this
  rw [okLvl_eq (specLevel_succ_of_ok hP hN), specBal_getD_lt hdiv]
  exact this
lemma okLvl_length {hf : TypeHashFunc} {cf : TypeConcatFunc} {leaves : List Bytes} {s : Nat}
    {L : List Bytes} (h : specLevel hf cf leaves s = .ok L) :
    (okLvl hf cf leaves s).length = levLen leaves.length s := by
  rw [okLvl_eq h]; exact specLevel_length h

lemma div_pow_succ (k s : Nat) : k / 2 ^ (s + 1) = k / 2 ^ s / 2 := by
  rw [Nat.div_div_eq_div_mul, pow_succ]

/-! ## Path-bit lemmas -/

lemma specPath_lt {k : Nat} : ∀ {d : Nat}, d ≤ 32 → specPath k d < 2 ^ d
  | 0, _ => by simp [specPath]
  | d + 1, hd => by
    have ih := specPath_lt (k := k) (d := d) (by omega)
    have hmono : (2:Nat) ^ d ≤ 2 ^ 31 := Nat.pow_le_pow_right (by omega) (by omega)
    have h31 : (2:Nat) ^ 31 * 2 = 2 ^ 32 := by norm_num
    have hsucc : (2:Nat) ^ (d + 1) = 2 ^ d * 2 := pow_succ 2 d
    simp only [specPath]
    split
    · omega
    · have h1 : (1 <<< d) % 2 ^ 32 = 2 ^ d := by
        rw [Nat.shiftLeft_eq, one_mul, Nat.mod_eq_of_lt (by omega)]
      rw [h1, Nat.mod_eq_of_lt (by omega)]
      omega

lemma specPath_bit {k : Nat} {d : Nat} (hd : d ≤ 32) {s : Nat} (hs : s < d) :
    (specPath k d / 2 ^ s) % 2 = if (k / 2 ^ s) % 2 = 1 then 0 else 1 := by
  induction d with
  | zero => omega
  | succ d ih =>
    have hold : specPath k d < 2 ^ d := specPath_lt (by omega)
    have hmono : (2:Nat) ^ d ≤ 2 ^ 31 := Nat.pow_le_pow_right (by omega) (by omega)
    have h31 : (2:Nat) ^ 31 * 2 = 2 ^ 32 := by norm_num
    have hsucc : (2:Nat) ^ (d + 1) = 2 ^ d * 2 := pow_succ 2 d
    have h1 : (1 <<< d) % 2 ^ 32 = 2 ^ d := by
      rw [Nat.shiftLeft_eq, one_mul, Nat.mod_eq_of_lt (by omega)]
    have hmod : (specPath k d + 2 ^ d) % 2 ^ 32 = specPath k d + 2 ^ d :=
      Nat.mod_eq_of_lt (by omega)
    simp only [specPath, Nat.shiftRight_eq_div_pow, h1, hmod]
    rcases Nat.lt_or_ge s d with hsd | hsd
    · -- bit position strictly below the new bit: unchanged
      have ihx := ih (by omega) hsd
      have hds : (2:Nat) ^ d = 2 ^ (d - s - 1) * 2 * 2 ^ s := by
        rw [mul_assoc, ← pow_succ']
        rw [← pow_add]
        congr 1
        omega
      split
      · exact ihx
      · rw [hds, Nat.add_mul_div_right _ _ (Nat.pos_pow_of_pos s (by omega))]
        omega
    · -- s = d: this is exactly the freshly decided bit
      have hseq : s = d := by omega
      subst hseq
      have hz : specPath k s / 2 ^ s = 0 := Nat.div_eq_of_lt hold
      have hdv : (specPath k s + 2 ^ s) / 2 ^ s = specPath k s / 2 ^ s + 1 := by
        have h := Nat.add_mul_div_right (specPath k s) 1 (Nat.pos_pow_of_pos s (by omega : (0:Nat) < 2))
        simpa using h
      rcases eq_or_ne (k / 2 ^ s % 2) 1 with hb | hb
      · rw [if_pos hb, if_pos hb, hz]
      · rw [if_neg hb, if_neg hb, hdv, hz]

/-! ## The verification fold over spec levels -/

lemma verifyLoop_spec {hf : TypeHashFunc} {cf : TypeConcatFunc} {leaves : List Bytes}
    {depth k : Nat}
    (hk : k < leaves.length) (hnd : leaves.length ≤ 2 ^ depth) (hd32 : depth ≤ 32)
    (hd : 1 ≤ depth)
    {Lfin : List Bytes} (hfin : specLevel hf cf leaves (depth - 1) = .ok Lfin)
    {root : Bytes} (hroot : hf (cf (Lfin.getD 0 []) (Lfin.getD 1 [])) = .ok root) :
    ∀ r s, 1 ≤ r → s + r = depth →
      verifyLoop hf cf ((okLvl hf cf leaves s).getD (k >>> s) [])
        (specPath k depth / 2 ^ s)
        ((List.range r).map (fun t => specSib hf cf leaves (s + t) k)) = .ok root := by
  have hn2 : 1 ≤ leaves.length := by omega
  intro r
  induction r with
  | zero => intro s h1 _; omega
  | succ r ih =>
    intro s _ hs
    obtain ⟨Ls, hLs⟩ := specLevel_ok_of_le (t := depth - 1) s (by omega) hfin
    have hLsLen : Ls.length = levLen leaves.length s := specLevel_length hLs
    have hLsEven : Ls.length % 2 = 0 := by rw [hLsLen]; exact levLen_even _ _
    have hpos : k >>> s < Ls.length := by
      rw [hLsLen]; exact shiftRight_lt_levLen hk s
    have hbit := specPath_bit (k := k) (d := depth) hd32 (s := s) (by omega)
    rw [List.range_succ_eq_map, List.map_cons, List.map_map]
    simp only [verifyLoop, Nat.add_zero, bind, Except.bind]
    rw [Nat.shiftRight_eq_div_pow] at hpos ⊢
    rcases Nat.lt_or_ge (s + 1) depth with hlt | hge
    · -- inner level: the hash lands on level s + 1, recurse
      obtain ⟨Ls1, hLs1⟩ := specLevel_ok_of_le (t := depth - 1) (s + 1) (by omega) hfin
      obtain ⟨P, N, hP, hN, hBal⟩ := specLevel_ok_succ hLs1
      rw [hLs] at hP; cases hP
      have ihr := ih (s + 1) (by omega) (by omega)
      rw [Nat.shiftRight_eq_div_pow] at ihr
      have hmap : (List.range r).map ((fun t => specSib hf cf leaves (s + t) k) ∘ Nat.succ)
          = (List.range r).map (fun t => specSib hf cf leaves (s + 1 + t) k) := by
        apply List.map_congr_left
        intro t _
        simp only [Function.comp_apply, Nat.succ_eq_add_one]
        congr 1
        omega
      have hdiveq : k / 2 ^ s / 2 = k / 2 ^ (s + 1) := (div_pow_succ k s).symm
      rcases Nat.even_or_odd (k / 2 ^ s) with heven | hodd
      · have he : (k / 2 ^ s) % 2 = 0 := Nat.even_iff.mp heven
        have hcond : specPath k depth / 2 ^ s % 2 = 1 := by
          rw [hbit, if_neg (by omega)]
        rw [if_pos hcond]
        have hsib : specSib hf cf leaves s k = Ls.getD (k / 2 ^ s + 1) [] := by
          simp only [specSib, sibPos, Nat.shiftRight_eq_div_pow, he]
          rw [if_neg (by omega), okLvl_eq hLs]
        have hval : (okLvl hf cf leaves s).getD (k / 2 ^ s) [] = Ls.getD (k / 2 ^ s) [] := by
          rw [okLvl_eq hLs]
        have hstep2 := level_parent_step hLs hN hpos he
        rw [hsib, hval, hstep2]
        dsimp only
        rw [hmap]
        rw [div_pow_succ k s, div_pow_succ (specPath k depth) s] at ihr
        exact ihr
      · have ho : (k / 2 ^ s) % 2 = 1 := Nat.odd_iff.mp hodd
        have hcond : specPath k depth / 2 ^ s % 2 = 0 := by
          rw [hbit, if_pos ho]
        rw [if_neg (by omega)]
        have hsib : specSib hf cf leaves s k = Ls.getD (k / 2 ^ s - 1) [] := by
          simp only [specSib, sibPos, Nat.shiftRight_eq_div_pow, ho, if_true,
            eq_self_iff_true]
          rw [okLvl_eq hLs]
        have hval : (okLvl hf cf leaves s).getD (k / 2 ^ s) [] = Ls.getD (k / 2 ^ s) [] := by
          rw [okLvl_eq hLs]
        have hposm : k / 2 ^ s - 1 < Ls.length := Nat.lt_of_le_of_lt (Nat.sub_le _ _) hpos
        have hevm : (k / 2 ^ s - 1) % 2 = 0 := by omega
        have hstep2 := level_parent_step hLs hN hposm hevm
        have hx1 : 0 < k / 2 ^ s := by
          rcases Nat.eq_zero_or_pos (k / 2 ^ s) with h0 | h1
          · rw [h0] at ho; simp at ho
          · exact h1
        have heq : k / 2 ^ s - 1 + 1 = k / 2 ^ s := Nat.succ_pred_eq_of_pos hx1
        rw [heq] at hstep2
        rw [hsib, hval, hstep2]
        dsimp only
        have hdiv : (k / 2 ^ s - 1) / 2 = k / 2 ^ s / 2 := by
          have h2 : k / 2 ^ s % 2 = 1 := ho
          omega
        rw [hmap, hdiv]
        rw [div_pow_succ k s, div_pow_succ (specPath k depth) s] at ihr
        exact ihr
    · -- top level: s = depth - 1, the hash is the root
      have hr0 : r = 0 := by omega
      subst hr0
      have hseq : s = depth - 1 := by omega
      subst hseq
      rw [hLs] at hfin
      injection hfin with hLL
      subst hLL
      have hlen2 : Ls.length = 2 := by
        rw [hLsLen]
        exact levLen_last hn2 hd hnd
      have hp2 : k / 2 ^ (depth - 1) < 2 := by omega
      simp only [List.range_zero, List.map_nil]
      rcases Nat.even_or_odd (k / 2 ^ (depth - 1)) with heven | hodd
      · have he : (k / 2 ^ (depth - 1)) % 2 = 0 := Nat.even_iff.mp heven
        have hp0 : k / 2 ^ (depth - 1) = 0 := by
          rw [← Nat.mod_eq_of_lt hp2]; exact he
        have hcond : specPath k depth / 2 ^ (depth - 1) % 2 = 1 := by
          rw [hbit, if_neg (by omega)]
        rw [if_pos hcond]
        have hsib : specSib hf cf leaves (depth - 1) k = Ls.getD 1 [] := by
          simp only [specSib, sibPos, Nat.shiftRight_eq_div_pow, hp0]
          rw [if_neg (by omega), okLvl_eq hLs]
        have hval : (okLvl hf cf leaves (depth - 1)).getD (k / 2 ^ (depth - 1)) []
            = Ls.getD 0 [] := by
          rw [okLvl_eq hLs, hp0]
        rw [hsib, hval, hroot]
        simp [verifyLoop]
      · have ho : (k / 2 ^ (depth - 1)) % 2 = 1 := Nat.odd_iff.mp hodd
        have hp1 : k / 2 ^ (depth - 1) = 1 := by
          rw [← Nat.mod_eq_of_lt hp2]; exact ho
        have hcond : specPath k depth / 2 ^ (depth - 1) % 2 = 0 := by
          rw [hbit, if_pos ho]
        rw [if_neg (by omega)]
        have hsib : specSib hf cf leaves (depth - 1) k = Ls.getD 0 [] := by
          simp only [specSib, sibPos, Nat.shiftRight_eq_div_pow, hp1, if_true,
            eq_self_iff_true]
          rw [okLvl_eq hLs]
        have hval : (okLvl hf cf leaves (depth - 1)).getD (k / 2 ^ (depth - 1)) []
            = Ls.getD 1 [] := by
          rw [okLvl_eq hLs, hp1]
        rw [hsib, hval, hroot]
        simp [verifyLoop]
/-! ## Pointwise description of proof recording (`updatePairProofs` etc.) -/

/-- What one `updateProofs` pass at level `step` does to the proof of
leaf `k`: append the sibling of the leaf's level-`step` ancestor and set
the path bit when that ancestor is a left (even-positioned) child. -/
def stepUpd (buf : List Bytes) (step k : Nat) (p : Proof) : Proof :=
  if (k >>> step) % 2 = 1 then
    { p with Siblings := p.Siblings ++ [buf.getD ((k >>> step) - 1) []] }
  else
    { Siblings := p.Siblings ++ [buf.getD ((k >>> step) + 1) []],
      Path := (p.Path + (1 <<< step) % 2 ^ 32) % 2 ^ 32 }

/-- The pair index of the `updatePairProofs` window that covers leaf `k`
at level `step`. -/
def coverIdx (step k : Nat) : Nat := 2 * (k / 2 ^ (step + 1))

lemma lt_div_succ_mul {b : Nat} (hb : 0 < b) (k : Nat) : k < (k / b + 1) * b := by
  have hm := Nat.div_add_mod k b
  have hr : k % b < b := Nat.mod_lt k hb
  have e : (k / b + 1) * b = b * (k / b) + b := by ring
  omega

lemma div_eq_iff_le_lt {b : Nat} (hb : 0 < b) (k q : Nat) :
    k / b = q ↔ q * b ≤ k ∧ k < (q + 1) * b := by
  constructor
  · rintro rfl
    exact ⟨Nat.div_mul_le_self k b, lt_div_succ_mul hb k⟩
  · rintro ⟨h1, h2⟩
    refine Nat.le_antisymm ?_ ?_
    · have := (Nat.div_lt_iff_lt_mul hb).mpr h2
      omega
    · exact (Nat.le_div_iff_mul_le hb).mpr h1

lemma updRange_length (s e : Nat) (f : Proof → Proof) :
    ∀ (ps : List Proof) (k : Nat), (updRange ps k s e f).length = ps.length
  | [], _ => rfl
  | p :: rest, k => by
    simp only [updRange, List.length_cons]
    rw [updRange_length s e f rest (k + 1)]

lemma updRange_getElem? (s e : Nat) (f : Proof → Proof) :
    ∀ (ps : List Proof) (k j : Nat),
      (updRange ps k s e f)[j]? =
        if s ≤ k + j ∧ k + j < e then (ps[j]?).map f else ps[j]?
  | [], k, j => by simp [updRange]
  | p :: rest, k, 0 => by
    simp only [updRange, List.getElem?_cons_zero, Nat.add_zero]
    split <;> simp
  | p :: rest, k, j + 1 => by
    simp only [updRange, List.getElem?_cons_succ]
    rw [updRange_getElem? s e f rest (k + 1) j]
    have he : k + 1 + j = k + (j + 1) := by omega
    rw [he]

lemma updatePairProofs_length (ps : List Proof) (buf : List Bytes) (idx batch step : Nat) :
    (updatePairProofs ps buf idx batch step).length = ps.length := by
  simp only [updatePairProofs]
  rw [updRange_length, updRange_length]

lemma updatePairProofs_getElem? (ps : List Proof) (buf : List Bytes)
    (idx batch step : Nat) {k : Nat} (hk : k < ps.length) :
    (updatePairProofs ps buf idx batch step)[k]? =
      (ps[k]?).map (fun p =>
        if idx * batch ≤ k ∧ k < idx * batch + batch then
          { Siblings := p.Siblings ++ [buf.getD (idx + 1) []],
            Path := (p.Path + (1 <<< step) % 2 ^ 32) % 2 ^ 32 }
        else if idx * batch + batch ≤ k ∧ k < idx * batch + 2 * batch then
          { p with Siblings := p.Siblings ++ [buf.getD idx []] }
        else p) := by
  simp only [updatePairProofs]
  rw [updRange_getElem?, updRange_getElem?, updRange_length]
  simp only [Nat.zero_add, lt_min_iff]
  have hp' : ps[k]? = some ps[k] := List.getElem?_eq_getElem hk
  rw [hp']
  simp only [Option.map_some']
  split_ifs <;> first | rfl | omega | simp

/-- Arithmetic facts about the covering pair index. -/
lemma coverIdx_facts (step k : Nat) :
    coverIdx step k % 2 = 0 ∧
    coverIdx step k = k / 2 ^ step - (k / 2 ^ step) % 2 := by
  constructor
  · simp [coverIdx, Nat.mul_mod_right]
  · rw [coverIdx, div_pow_succ]
    omega

/-- `updatePairProofs` at the covering index performs exactly `stepUpd`. -/
lemma updatePairProofs_cover (ps : List Proof) (buf : List Bytes) (step : Nat) {k : Nat}
    (hk : k < ps.length) :
    (updatePairProofs ps buf (coverIdx step k) (1 <<< step) step)[k]? =
      (ps[k]?).map (stepUpd buf step k) := by
  have hB : (1:Nat) <<< step = 2 ^ step := by rw [Nat.shiftLeft_eq, one_mul]
  have hBpos : 0 < 2 ^ step := Nat.pos_pow_of_pos _ (by omega)
  have hpos : k >>> step = k / 2 ^ step := Nat.shiftRight_eq_div_pow k step
  obtain ⟨hev, hcov⟩ := coverIdx_facts step k
  have hq := (div_eq_iff_le_lt hBpos k (k / 2 ^ step)).mp rfl
  rw [updatePairProofs_getElem? ps buf _ _ _ hk]
  apply congrArg (fun f => Option.map f ps[k]?)
  funext p
  simp only [stepUpd, hpos]
  generalize hgx : k / 2 ^ step = x at hcov hq ⊢
  have e1 : (x + 1) * 2 ^ step = x * 2 ^ step + 2 ^ step := by ring
  rcases Nat.even_or_odd x with heven | hodd
  · have he : x % 2 = 0 := Nat.even_iff.mp heven
    have hidx : coverIdx step k = x := by rw [hcov]; omega
    have hwin : coverIdx step k * (1 <<< step) ≤ k ∧
        k < coverIdx step k * (1 <<< step) + 1 <<< step := by
      rw [hB, hidx]; omega
    rw [if_pos hwin, hidx, if_neg (by omega)]
  · have ho : x % 2 = 1 := Nat.odd_iff.mp hodd
    have hidx : coverIdx step k = x - 1 := by rw [hcov]; omega
    have e2 : (x - 1) * 2 ^ step + 2 ^ step = x * 2 ^ step := by
      have hxx : x - 1 + 1 = x := by omega
      calc (x - 1) * 2 ^ step + 2 ^ step = (x - 1 + 1) * 2 ^ step := by ring
        _ = x * 2 ^ step := by rw [hxx]
    have e3 : (x - 1) * 2 ^ step + 2 * 2 ^ step = (x + 1) * 2 ^ step := by
      have hxx : x - 1 + 2 = x + 1 := by omega
      calc (x - 1) * 2 ^ step + 2 * 2 ^ step = (x - 1 + 2) * 2 ^ step := by ring
        _ = (x + 1) * 2 ^ step := by rw [hxx]
    have hnot1 : ¬(coverIdx step k * (1 <<< step) ≤ k ∧
        k < coverIdx step k * (1 <<< step) + 1 <<< step) := by
      rw [hB, hidx]; omega
    have hwin2 : coverIdx step k * (1 <<< step) + 1 <<< step ≤ k ∧
        k < coverIdx step k * (1 <<< step) + 2 * (1 <<< step) := by
      rw [hB, hidx]; omega
    rw [if_neg hnot1, if_pos hwin2, hidx, if_pos ho]

/-- `updatePairProofs` at any other even index leaves leaf `k` alone. -/
lemma updatePairProofs_skip (ps : List Proof) (buf : List Bytes) (step : Nat) {k idx : Nat}
    (hk : k < ps.length) (hev : idx % 2 = 0) (hne : idx ≠ coverIdx step k) :
    (updatePairProofs ps buf idx (1 <<< step) step)[k]? = ps[k]? := by
  have hB : (1:Nat) <<< step = 2 ^ step := by rw [Nat.shiftLeft_eq, one_mul]
  have hBpos : 0 < 2 ^ step := Nat.pos_pow_of_pos _ (by omega)
  obtain ⟨_, hcov⟩ := coverIdx_facts step k
  have hq := (div_eq_iff_le_lt hBpos k (k / 2 ^ step)).mp rfl
  rw [updatePairProofs_getElem? ps buf _ _ _ hk]
  have hnot1 : ¬(idx * (1 <<< step) ≤ k ∧ k < idx * (1 <<< step) + 1 <<< step) := by
    rintro ⟨h1, h2⟩
    rw [hB] at h1 h2
    have hdk : k / 2 ^ step = idx := by
      rw [div_eq_iff_le_lt hBpos]
      have e : (idx + 1) * 2 ^ step = idx * 2 ^ step + 2 ^ step := by ring
      omega
    apply hne
    rw [hcov, hdk]
    omega
  have hnot2 : ¬(idx * (1 <<< step) + 1 <<< step ≤ k ∧
      k < idx * (1 <<< step) + 2 * (1 <<< step)) := by
    rintro ⟨h1, h2⟩
    rw [hB] at h1 h2
    have hdk : k / 2 ^ step = idx + 1 := by
      rw [div_eq_iff_le_lt hBpos]
      have e : (idx + 1) * 2 ^ step = idx * 2 ^ step + 2 ^ step := by ring
      have e2 : (idx + 1 + 1) * 2 ^ step = idx * 2 ^ step + 2 * 2 ^ step := by ring
      omega
    apply hne
    rw [hcov, hdk]
    omega
  cases hp : ps[k]? with
  | none => simp
  | some p =>
    simp only [Option.map_some']
    rw [if_neg hnot1, if_neg hnot2]
lemma updateProofsFrom_length (buf : List Bytes) (bufLen batch step : Nat) :
    ∀ (fuel idx : Nat) (ps : List Proof),
      (updateProofsFrom ps buf bufLen batch step idx fuel).length = ps.length
  | 0, _, _ => rfl
  | fuel + 1, idx, ps => by
    simp only [updateProofsFrom]
    split
    · rw [updateProofsFrom_length buf bufLen batch step fuel (idx + 2)]
      exact updatePairProofs_length ps buf idx batch step
    · rfl

lemma updateProofsFrom_getElem? (buf : List Bytes) (bufLen step : Nat) {k : Nat} :
    ∀ (fuel idx : Nat) (ps : List Proof), k < ps.length → idx % 2 = 0 →
      bufLen ≤ idx + 2 * fuel →
      (updateProofsFrom ps buf bufLen (1 <<< step) step idx fuel)[k]? =
        if idx ≤ coverIdx step k ∧ coverIdx step k < bufLen then
          (ps[k]?).map (stepUpd buf step k)
        else ps[k]?
  | 0, idx, ps => by
    intro hk _ hfuel
    simp only [updateProofsFrom]
    rw [if_neg (by omega)]
  | fuel + 1, idx, ps => by
    intro hk hev hfuel
    simp only [updateProofsFrom]
    split
    · rename_i hlt
      have hk' : k < (updatePairProofs ps buf idx (1 <<< step) step).length := by
        rw [updatePairProofs_length]; exact hk
      rw [updateProofsFrom_getElem? buf bufLen step fuel (idx + 2) _ hk' (by omega)
        (by omega)]
      obtain ⟨hcev, _⟩ := coverIdx_facts step k
      rcases eq_or_ne idx (coverIdx step k) with heq | hne
      · subst heq
        rw [updatePairProofs_cover ps buf step hk]
        rw [if_neg (by omega), if_pos ⟨by omega, hlt⟩]
      · rw [updatePairProofs_skip ps buf step hk hev hne]
        rcases Nat.lt_or_ge (coverIdx step k) idx with hc | hc
        · rw [if_neg (by omega), if_neg (by omega)]
        · have hge2 : idx + 2 ≤ coverIdx step k := by omega
          rcases Nat.lt_or_ge (coverIdx step k) bufLen with hb | hb
          · rw [if_pos ⟨hge2, hb⟩, if_pos ⟨by omega, hb⟩]
          · rw [if_neg (by omega), if_neg (by omega)]
    · rename_i hge
      rw [if_neg (by omega)]

lemma updateProofs_length (ps : List Proof) (buf : List Bytes) (bufLen step : Nat) :
    (updateProofs ps buf bufLen step).length = ps.length :=
  updateProofsFrom_length buf bufLen _ step _ 0 ps

lemma updateProofs_getElem? (ps : List Proof) (buf : List Bytes) (bufLen step : Nat)
    {k : Nat} (hk : k < ps.length) :
    (updateProofs ps buf bufLen step)[k]? =
      if coverIdx step k < bufLen then (ps[k]?).map (stepUpd buf step k) else ps[k]? := by
  rw [updateProofs, updateProofsFrom_getElem? buf bufLen step (bufLen + 1) 0 ps hk
    (by omega) (by omega)]
  rcases Nat.lt_or_ge (coverIdx step k) bufLen with h | h
  · rw [if_pos ⟨by omega, h⟩, if_pos h]
  · rw [if_neg (by omega), if_neg (by omega)]

/-- Leaf `k`'s cover pair is inside the live level whenever the level is
at least as wide as the balanced width demands. -/
lemma coverIdx_lt {n k s bufLen : Nat} (hk : k < n) (hb : levLen n s ≤ bufLen ∨
    (s = 0 ∧ n ≤ bufLen)) : coverIdx s k < bufLen := by
  obtain ⟨_, hcov⟩ := coverIdx_facts s k
  have hlt : k >>> s < levLen n s := shiftRight_lt_levLen hk s
  rw [Nat.shiftRight_eq_div_pow] at hlt
  generalize hgx : k / 2 ^ s = x at hcov hlt
  rcases hb with h | ⟨hs, h⟩
  · omega
  · subst hs
    have hx : x = k := by simpa using hgx.symm
    subst hx
    omega

/-- One recording pass moves the spec proof of every leaf one level up. -/
lemma stepUpd_spec {hf : TypeHashFunc} {cf : TypeConcatFunc} {leaves : List Bytes}
    {s : Nat} {Ls : List Bytes} (hLs : specLevel hf cf leaves s = .ok Ls)
    {buf : List Bytes} (hbuf : ∀ q, q < Ls.length → buf.getD q [] = Ls.getD q [])
    {k : Nat} (hk : k < leaves.length) :
    stepUpd buf s k (specProofK hf cf leaves s k) = specProofK hf cf leaves (s + 1) k := by
  have hLsLen : Ls.length = levLen leaves.length s := specLevel_length hLs
  have hLsEven : Ls.length % 2 = 0 := by rw [hLsLen]; exact levLen_even _ _
  have hpos : k >>> s < Ls.length := by
    rw [hLsLen]; exact shiftRight_lt_levLen hk s
  have hsibs : (List.range (s + 1)).map (fun t => specSib hf cf leaves t k) =
      (List.range s).map (fun t => specSib hf cf leaves t k) ++ [specSib hf cf leaves s k] := by
    rw [List.range_succ, List.map_append, List.map_cons, List.map_nil]
  simp only [stepUpd, specProofK, hsibs, specPath]
  rw [Nat.shiftRight_eq_div_pow] at hpos ⊢
  generalize hgx : k / 2 ^ s = x at hpos ⊢
  rcases Nat.even_or_odd x with heven | hodd
  · have he : x % 2 = 0 := Nat.even_iff.mp heven
    rw [if_neg (by omega), if_neg (by omega)]
    have hsib : specSib hf cf leaves s k = Ls.getD (x + 1) [] := by
      simp only [specSib, sibPos, Nat.shiftRight_eq_div_pow, hgx, he]
      rw [if_neg (by omega), okLvl_eq hLs]
    rw [hsib, hbuf (x + 1) (by omega)]
  · have ho : x % 2 = 1 := Nat.odd_iff.mp hodd
    rw [if_pos ho, if_pos ho]
    have hsib : specSib hf cf leaves s k = Ls.getD (x - 1) [] := by
      simp only [specSib, sibPos, Nat.shiftRight_eq_div_pow, hgx, ho, if_true,
        eq_self_iff_true]
      rw [okLvl_eq hLs]
    rw [hsib, hbuf (x - 1) (by omega)]
lemma getD_eq_getElem {α : Type} {l : List α} {i : Nat} {d : α} (h : i < l.length) :
    l.getD i d = l[i] := by
  rw [List.getD_eq_getElem?_getD, List.getElem?_eq_getElem h]
  rfl

/-- Peel one pair off `pairHash` of a dropped suffix. -/
lemma pairHash_drop_cons {L : List Bytes} {idx : Nat} (h1 : idx + 1 < L.length) :
    L.drop idx = L.getD idx [] :: L.getD (idx + 1) [] :: L.drop (idx + 2) := by
  rw [List.drop_eq_getElem_cons (by omega : idx < L.length)]
  rw [List.drop_eq_getElem_cons (by omega : idx + 1 < L.length)]
  rw [getD_eq_getElem (by omega), getD_eq_getElem h1]

/-- In-place pair hashing (`hashPairsFrom`), success case: starting at an
even index, on a buffer agreeing with the level `L` from `idx` on, the
loop writes the hashes of `pairHash (L.drop idx)` into slots
`idx/2, idx/2 + 1, ...`, leaves the lower slots alone and reports no
error. -/
lemma hashPairsFrom_ok {hf : TypeHashFunc} {cf : TypeConcatFunc} {L : List Bytes}
    (hLev : L.length % 2 = 0) :
    ∀ (fuel idx : Nat) (buf : List Bytes) (Nrest : List Bytes),
      idx % 2 = 0 → idx ≤ L.length → L.length ≤ buf.length →
      (∀ p, idx ≤ p → p < L.length → buf.getD p [] = L.getD p []) →
      pairHash hf cf (L.drop idx) = .ok Nrest →
      L.length ≤ idx + fuel →
      ∃ buf', hashPairsFrom hf cf L.length buf idx fuel = (buf', none) ∧
        buf'.length = buf.length ∧
        (∀ q, q < idx / 2 → buf'.getD q [] = buf.getD q []) ∧
        (∀ j, j < Nrest.length → buf'.getD (idx / 2 + j) [] = Nrest.getD j []) := by
  intro fuel
  induction fuel with
  | zero =>
    intro idx buf Nrest hev hle hblen hpre hph hfuel
    have hidx : idx = L.length := by omega
    subst hidx
    rw [List.drop_length] at hph
    have hN : Nrest = [] := by
      have h' : Except.ok ([] : List Bytes) = Except.ok Nrest := hph
      cases h'; rfl
    subst hN
    exact ⟨buf, rfl, rfl, fun q _ => rfl, fun j hj => by simp at hj⟩
  | succ fuel ih =>
    intro idx buf Nrest hev hle hblen hpre hph hfuel
    rcases Nat.lt_or_ge idx L.length with hlt | hge
    · -- the guard holds: one more pair
      have h1 : idx + 1 < L.length := by omega
      rw [pairHash_drop_cons h1, pairHash_cons, exceptBind_ok] at hph
      obtain ⟨hv, hhv, hph⟩ := hph
      rw [exceptBind_ok] at hph
      obtain ⟨r, hr, hph⟩ := hph
      rw [except_pure_eq, Except.ok.injEq] at hph
      subst hph
      have hread1 : buf.getD idx [] = L.getD idx [] := hpre idx (by omega) hlt
      have hread2 : buf.getD (idx + 1) [] = L.getD (idx + 1) [] := hpre (idx + 1) (by omega) h1
      simp only [hashPairsFrom, if_pos hlt, hread1, hread2, hhv]
      have hset_len : (buf.set (idx / 2) hv).length = buf.length := List.length_set buf _ _
      have hpre' : ∀ p, idx + 2 ≤ p → p < L.length →
          (buf.set (idx / 2) hv).getD p [] = L.getD p [] := by
        intro p hp1 hp2
        rw [getD_set_ne (by omega)]
        exact hpre p (by omega) hp2
      obtain ⟨buf', hrun, hlen', hlow, hnew⟩ :=
        ih (idx + 2) (buf.set (idx / 2) hv) r (by omega) (by omega) (by omega) hpre' hr
          (by omega)
      refine ⟨buf', hrun, by omega, ?_, ?_⟩
      · intro q hq
        have := hlow q (by omega)
        rw [this, getD_set_ne (by omega)]
      · intro j hj
        match j with
        | 0 =>
          have := hlow (idx / 2) (by omega)
          rw [Nat.add_zero, this, getD_set_self (by omega)]
          rfl
        | j + 1 =>
          have := hnew j (by simpa using hj)
          have he : idx / 2 + (j + 1) = (idx + 2) / 2 + j := by omega
          rw [he]
          rw [this]
          rfl
    · -- the guard fails: idx = L.length, nothing to do
      have hidx : idx = L.length := by omega
      subst hidx
      rw [List.drop_length] at hph
      have hN : Nrest = [] := by
        have h' : Except.ok ([] : List Bytes) = Except.ok Nrest := hph
        cases h'; rfl
      subst hN
      refine ⟨buf, ?_, rfl, fun q _ => rfl, fun j hj => by simp at hj⟩
      simp only [hashPairsFrom]
      rw [if_neg (by omega)]

/-- In-place pair hashing, failure case: if `pairHash` of the remaining
suffix fails, the loop reports an error. -/
lemma hashPairsFrom_err {hf : TypeHashFunc} {cf : TypeConcatFunc} {L : List Bytes}
    (hLev : L.length % 2 = 0) :
    ∀ (fuel idx : Nat) (buf : List Bytes) (e : String),
      idx % 2 = 0 → idx ≤ L.length → L.length ≤ buf.length →
      (∀ p, idx ≤ p → p < L.length → buf.getD p [] = L.getD p []) →
      pairHash hf cf (L.drop idx) = .error e →
      L.length ≤ idx + fuel →
      (hashPairsFrom hf cf L.length buf idx fuel).2.isSome := by
  intro fuel
  induction fuel with
  | zero =>
    intro idx buf e hev hle hblen hpre hph hfuel
    have hidx : idx = L.length := by omega
    subst hidx
    rw [List.drop_length] at hph
    exact absurd hph (by simp [pairHash])
  | succ fuel ih =>
    intro idx buf e hev hle hblen hpre hph hfuel
    rcases Nat.lt_or_ge idx L.length with hlt | hge
    · have h1 : idx + 1 < L.length := by omega
      rw [pairHash_drop_cons h1, pairHash_cons] at hph
      have hread1 : buf.getD idx [] = L.getD idx [] := hpre idx (by omega) hlt
      have hread2 : buf.getD (idx + 1) [] = L.getD (idx + 1) [] := hpre (idx + 1) (by omega) h1
      simp only [hashPairsFrom, if_pos hlt, hread1, hread2]
      cases hhv : hf (cf (L.getD idx []) (L.getD (idx + 1) [])) with
      | error e' => simp
      | ok hv =>
        rw [hhv] at hph
        simp only [bind, Except.bind] at hph
        cases hr : pairHash hf cf (L.drop (idx + 2)) with
        | ok r => rw [hr] at hph; simp at hph
        | error e2 =>
          have hpre' : ∀ p, idx + 2 ≤ p → p < L.length →
              (buf.set (idx / 2) hv).getD p [] = L.getD p [] := by
            intro p hp1 hp2
            rw [getD_set_ne (by omega)]
            exact hpre p (by omega) hp2
          exact ih (idx + 2) (buf.set (idx / 2) hv) e2 (by omega) (by omega)
            (by simp [List.length_set]; omega) hpre' hr (by omega)
    · have hidx : idx = L.length := by omega
      subst hidx
      rw [List.drop_length] at hph
      exact absurd hph (by simp [pairHash])

/-- The three branches of `fixOdd`, unfolded. -/
lemma fixOdd_even {buf : List Bytes} {p : Nat} (h : p % 2 = 0) : fixOdd buf p = (buf, p) := by
  simp [fixOdd, h]

lemma fixOdd_odd_app {buf : List Bytes} {p : Nat} (h : p % 2 = 1)
    (h2 : buf.length < p + 1) :
    fixOdd buf p = (buf ++ [buf.getD (p - 1) []], p + 1) := by
  rw [fixOdd, if_neg (by omega)]
  simp only [if_pos h2]

lemma fixOdd_odd_set {buf : List Bytes} {p : Nat} (h : p % 2 = 1)
    (h2 : ¬buf.length < p + 1) :
    fixOdd buf p = (buf.set p (buf.getD (p - 1) []), p + 1) := by
  rw [fixOdd, if_neg (by omega)]
  simp only [if_neg h2]

/-- `fixOdd` seen through the balanced-level spec. -/
lemma fixOdd_spec {buf : List Bytes} {p : Nat} (hp : p ≤ buf.length) {L : List Bytes}
    (hL : ∀ q, q < p → buf.getD q [] = L.getD q []) (hLlen : L.length = p) :
    (fixOdd buf p).2 = (specBal L).length ∧
    (specBal L).length ≤ (fixOdd buf p).1.length ∧
    (∀ q, q < (specBal L).length → (fixOdd buf p).1.getD q [] = (specBal L).getD q []) := by
  have hbal := specBal_length L
  rcases Nat.even_or_odd p with hev | hodd
  · have he : p % 2 = 0 := Nat.even_iff.mp hev
    have hblen : (specBal L).length = p := by
      rw [hbal, hLlen]; unfold cdiv; omega
    rw [fixOdd_even he]
    refine ⟨hblen.symm, by rw [hblen]; exact hp, ?_⟩
    intro q hq
    rw [hblen] at hq
    rw [hL q hq, specBal_getD_lt (by omega)]
  · have ho : p % 2 = 1 := Nat.odd_iff.mp hodd
    have hblen : (specBal L).length = p + 1 := by
      rw [hbal, hLlen]; unfold cdiv; omega
    have hbalD : ∀ q, q < p → (specBal L).getD q [] = L.getD q [] := by
      intro q hq
      exact specBal_getD_lt (by omega)
    have hbalLast : (specBal L).getD p [] = L.getD (p - 1) [] := by
      simp only [specBal]
      rw [if_neg (by omega)]
      rw [getD_append_right (by omega)]
      rw [hLlen, Nat.sub_self]
      simp [List.getD]
    rcases Nat.lt_or_ge buf.length (p + 1) with hsh | hlg
    · have hblen2 : buf.length = p := by omega
      rw [fixOdd_odd_app ho hsh]
      refine ⟨hblen.symm, ?_, ?_⟩
      · simp only [List.length_append, List.length_singleton]
        omega
      · intro q hq
        rw [hblen] at hq
        rcases Nat.lt_or_ge q p with hq2 | hq2
        · rw [getD_append_left (by omega), hL q hq2, hbalD q hq2]
        · have hqe : q = p := by omega
          rw [hqe]
          rw [getD_append_right (by omega), hblen2, Nat.sub_self]
          show buf.getD (p - 1) [] = (specBal L).getD p []
          rw [hbalLast, hL (p - 1) (by omega)]
    · rw [fixOdd_odd_set ho (by omega)]
      refine ⟨hblen.symm, ?_, ?_⟩
      · simp only [List.length_set]
        omega
      · intro q hq
        rw [hblen] at hq
        rcases Nat.lt_or_ge q p with hq2 | hq2
        · rw [getD_set_ne (by omega), hL q hq2, hbalD q hq2]
        · have hqe : q = p := by omega
          rw [hqe]
          rw [getD_set_self (by omega), hbalLast, hL (p - 1) (by omega)]
/-! ## The sequential proof-generation loop vs the spec -/

lemma specLevel_pred_succ {hf : TypeHashFunc} {cf : TypeConcatFunc} {leaves : List Bytes}
    {step : Nat} (hs : 1 ≤ step) {L : List Bytes}
    (h : specLevel hf cf leaves step = .ok L) :
    ∃ P N, specLevel hf cf leaves (step - 1) = .ok P ∧ pairHash hf cf P = .ok N ∧
      L = specBal N := by
  have he : step = (step - 1) + 1 := by omega
  rw [he] at h
  exact specLevel_ok_succ h

lemma proofGenLoop_ok {hf : TypeHashFunc} {cf : TypeConcatFunc} {leaves : List Bytes}
    {depth : Nat} :
    ∀ (remaining step : Nat) (buf : List Bytes) (prevLen : Nat) (proofs : List Proof)
      (Lprev : List Bytes),
      step + remaining = depth → 1 ≤ step →
      specLevel hf cf leaves (step - 1) = .ok Lprev →
      prevLen = Lprev.length → prevLen ≤ buf.length →
      (∀ p, p < prevLen → buf.getD p [] = Lprev.getD p []) →
      proofs.length = leaves.length →
      (∀ k, k < leaves.length → proofs[k]? = some (specProofK hf cf leaves step k)) →
      ∀ (Lfin : List Bytes), specLevel hf cf leaves (depth - 1) = .ok Lfin →
      ∃ proofs' buf' prevLen',
        proofGenLoop hf cf proofs buf prevLen step remaining =
          (proofs', buf', prevLen', none) ∧
        proofs'.length = leaves.length ∧
        (∀ k, k < leaves.length → proofs'[k]? = some (specProofK hf cf leaves depth k)) ∧
        prevLen' = Lfin.length ∧ prevLen' ≤ buf'.length ∧
        (∀ p, p < prevLen' → buf'.getD p [] = Lfin.getD p []) := by
  intro remaining
  induction remaining with
  | zero =>
    intro step buf prevLen proofs Lprev hsum h1 hLev hplen hblen hbpre hpl hpk Lfin hfin
    have hsd : step = depth := by omega
    subst hsd
    rw [hLev] at hfin
    injection hfin with hLL
    subst hLL
    exact ⟨proofs, buf, prevLen, rfl, hpl, hpk, hplen, hblen, hbpre⟩
  | succ remaining ih =>
    intro step buf prevLen proofs Lprev hsum h1 hLev hplen hblen hbpre hpl hpk Lfin hfin
    subst hplen
    obtain ⟨Ls, hLs⟩ := specLevel_ok_of_le (t := depth - 1) step (by omega) hfin
    obtain ⟨P, N, hP, hN, hBal⟩ := specLevel_pred_succ h1 hLs
    rw [hLev] at hP
    injection hP with hPL
    subst hPL
    have hLevEven : Lprev.length % 2 = 0 := by
      rw [specLevel_length hLev]
      exact levLen_even _ _
    have hNlen : N.length = Lprev.length / 2 := pairHash_ok_length hN
    obtain ⟨buf2, hrun, hlen2, _, hnew⟩ :=
      hashPairsFrom_ok hLevEven (Lprev.length + 1) 0 buf N (by omega) (by omega) hblen
        (by intro p _ hp2; exact hbpre p hp2) (by rw [List.drop_zero]; exact hN)
        (by omega)
    simp only [proofGenLoop]
    rw [hrun]
    dsimp only
    obtain ⟨hfo1, hfo2, hfo3⟩ :=
      fixOdd_spec (show Lprev.length / 2 ≤ buf2.length by omega)
        (by intro q hq; have := hnew q (by omega); simpa using this) hNlen
    rcases hfo : fixOdd buf2 (Lprev.length / 2) with ⟨buf3, prevLen3⟩
    rw [hfo] at hfo1 hfo2 hfo3
    dsimp only at hfo1 hfo2 hfo3 ⊢
    rw [← hBal] at hfo1 hfo2 hfo3
    have hupd_len : (updateProofs proofs buf3 prevLen3 step).length = leaves.length := by
      rw [updateProofs_length, hpl]
    have hupd : ∀ k, k < leaves.length →
        (updateProofs proofs buf3 prevLen3 step)[k]? =
          some (specProofK hf cf leaves (step + 1) k) := by
      intro k hk
      rw [updateProofs_getElem? proofs buf3 prevLen3 step (by omega)]
      have hcover : coverIdx step k < prevLen3 := by
        apply coverIdx_lt hk
        left
        have hll := specLevel_length hLs
        omega
      rw [if_pos hcover, hpk k hk]
      simp only [Option.map_some']
      congr 1
      exact stepUpd_spec hLs hfo3 hk
    have hrecall := ih (step + 1) buf3 prevLen3 (updateProofs proofs buf3 prevLen3 step) Ls
      (by omega) (by omega) (by simpa using hLs) hfo1
      (by rw [hfo1]; exact hfo2) (by rw [hfo1]; exact hfo3) hupd_len hupd Lfin hfin
    obtain ⟨proofs', buf', prevLen', hrec, hc1, hc2, hc3, hc4, hc5⟩ := hrecall
    exact ⟨proofs', buf', prevLen', hrec, hc1, hc2, hc3, hc4, hc5⟩

lemma proofGenLoop_err {hf : TypeHashFunc} {cf : TypeConcatFunc} {leaves : List Bytes}
    {depth : Nat} :
    ∀ (remaining step : Nat) (buf : List Bytes) (prevLen : Nat) (proofs : List Proof)
      (Lprev : List Bytes),
      step + remaining = depth → 1 ≤ step →
      specLevel hf cf leaves (step - 1) = .ok Lprev →
      prevLen = Lprev.length → prevLen ≤ buf.length →
      (∀ p, p < prevLen → buf.getD p [] = Lprev.getD p []) →
      (specLevel hf cf leaves (depth - 1)).isOk = false →
      (proofGenLoop hf cf proofs buf prevLen step remaining).2.2.2.isSome := by
  intro remaining
  induction remaining with
  | zero =>
    intro step buf prevLen proofs Lprev hsum h1 hLev hplen hblen hbpre hbad
    have hsd : step = depth := by omega
    subst hsd
    rw [hLev] at hbad
    simp [Except.isOk, Except.toBool] at hbad
  | succ remaining ih =>
    intro step buf prevLen proofs Lprev hsum h1 hLev hplen hblen hbpre hbad
    subst hplen
    have hLevEven : Lprev.length % 2 = 0 := by
      rw [specLevel_length hLev]
      exact levLen_even _ _
    cases hN : pairHash hf cf Lprev with
    | error e =>
      have herr := hashPairsFrom_err hLevEven (Lprev.length + 1) 0 buf e (by omega)
        (by omega) hblen (by intro p _ hp2; exact hbpre p hp2)
        (by rw [List.drop_zero]; exact hN) (by omega)
      simp only [proofGenLoop]
      rcases hres : hashPairsFrom hf cf Lprev.length buf 0 (Lprev.length + 1) with ⟨bufe, erre⟩
      rw [hres] at herr
      cases erre with
      | none => simp at herr
      | some e2 => simp
    | ok N =>
      have hLs : specLevel hf cf leaves step = .ok (specBal N) := by
        have he : step = (step - 1) + 1 := by omega
        rw [he]
        exact specLevel_succ_of_ok hLev hN
      have hNlen : N.length = Lprev.length / 2 := pairHash_ok_length hN
      obtain ⟨buf2, hrun, hlen2, _, hnew⟩ :=
        hashPairsFrom_ok hLevEven (Lprev.length + 1) 0 buf N (by omega) (by omega) hblen
          (by intro p _ hp2; exact hbpre p hp2) (by rw [List.drop_zero]; exact hN)
          (by omega)
      simp only [proofGenLoop]
      rw [hrun]
      dsimp only
      obtain ⟨hfo1, hfo2, hfo3⟩ :=
        fixOdd_spec (show Lprev.length / 2 ≤ buf2.length by omega)
          (by intro q hq; have := hnew q (by omega); simpa using this) hNlen
      rcases hfo : fixOdd buf2 (Lprev.length / 2) with ⟨buf3, prevLen3⟩
      rw [hfo] at hfo1 hfo2 hfo3
      dsimp only at hfo1 hfo2 hfo3 ⊢
      exact ih (step + 1) buf3 prevLen3 _ (specBal N) (by omega) (by omega)
        (by simpa using hLs) hfo1 (by rw [hfo1]; exact hfo2)
        (by rw [hfo1]; exact hfo3) hbad

/-! ## `bits.Len` -/

lemma bitsLenAux_le_iff : ∀ (fuel n : Nat), n ≤ fuel → ∀ d, (bitsLenAux fuel n ≤ d ↔ n < 2 ^ d)
  | 0, n, hn => by
    intro d
    have hn0 : n = 0 := by omega
    subst hn0
    simp only [bitsLenAux]
    constructor
    · intro _; exact Nat.pos_pow_of_pos d (by omega)
    · intro _; exact Nat.zero_le d
  | fuel + 1, n, hn => by
    intro d
    rcases eq_or_ne n 0 with h0 | h0
    · subst h0
      simp only [bitsLenAux, if_pos rfl]
      constructor
      · intro _; exact Nat.pos_pow_of_pos d (by omega)
      · intro _; exact Nat.zero_le d
    · simp only [bitsLenAux, if_neg h0]
      cases d with
      | zero =>
        rw [pow_zero]
        omega
      | succ d =>
        have ih := bitsLenAux_le_iff fuel (n / 2) (by omega) d
        have hp : (2:Nat) ^ (d + 1) = 2 ^ d * 2 := pow_succ 2 d
        rw [hp]
        constructor
        · intro h
          have h2 : n / 2 < 2 ^ d := ih.mp (by omega)
          omega
        · intro h
          have h2 : bitsLenAux fuel (n / 2) ≤ d := ih.mpr (by omega)
          omega

lemma bitsLen_le_iff (n d : Nat) : bitsLen n ≤ d ↔ n < 2 ^ d :=
  bitsLenAux_le_iff n n le_rfl d

lemma lt_two_pow_bitsLen (n : Nat) : n < 2 ^ bitsLen n :=
  (bitsLen_le_iff n (bitsLen n)).mp le_rfl

lemma bitsLen_depth_ge {n : Nat} (hn : 1 ≤ n) : n ≤ 2 ^ bitsLen (n - 1) := by
  have := lt_two_pow_bitsLen (n - 1)
  omega

lemma bitsLen_depth_min {n d : Nat} (h : n ≤ 2 ^ d) : bitsLen (n - 1) ≤ d := by
  rw [bitsLen_le_iff]
  have hpos : 0 < 2 ^ d := Nat.pos_pow_of_pos d (by omega)
  omega

lemma bitsLen_depth_pos {n : Nat} (h2 : 2 ≤ n) : 1 ≤ bitsLen (n - 1) := by
  by_contra h
  have h0 : bitsLen (n - 1) ≤ 0 := by omega
  have h1 := (bitsLen_le_iff (n - 1) 0).mp h0
  rw [pow_zero] at h1
  omega

/-! ## Sequential leaf generation, pointwise -/

/-- Inhabitant used as the `getD` default for data blocks. -/
def defaultBlock : DataBlock := { serialize := .ok [] }

lemma leafGen_ok : ∀ {blocks : List DataBlock} {cfg : Config} {leaves : List Bytes},
    leafGen blocks cfg = .ok leaves →
    leaves.length = blocks.length ∧
    ∀ k, k < blocks.length →
      leafFromBlock (blocks.getD k defaultBlock) cfg = .ok (leaves.getD k [])
  | [], cfg, leaves => by
    intro h
    simp only [leafGen] at h
    injection h with h
    subst h
    exact ⟨rfl, by intro k hk; simp at hk⟩
  | b :: rest, cfg, leaves => by
    intro h
    simp only [leafGen, bind, Except.bind] at h
    cases hb : leafFromBlock b cfg with
    | error e => rw [hb] at h; exact absurd h (by simp)
    | ok leaf =>
      rw [hb] at h
      cases hr : leafGen rest cfg with
      | error e => rw [hr] at h; exact absurd h (by simp)
      | ok ls =>
        rw [hr] at h
        simp only [except_pure_eq] at h
        injection h with h
        subst h
        obtain ⟨hlen, hpt⟩ := leafGen_ok hr
        refine ⟨by simp [hlen], ?_⟩
        intro k hk
        cases k with
        | zero => simpa using hb
        | succ k =>
          simp only [List.getD_cons_succ]
          exact hpt k (by simpa using hk)

/-! ## Small list and balancing helpers -/

lemma eq_of_getD {α : Type} (d : α) {A B : List α} (hlen : A.length = B.length)
    (h : ∀ q, q < A.length → A.getD q d = B.getD q d) : A = B := by
  apply List.ext_getElem hlen
  intro i h1 h2
  have := h i h1
  rwa [getD_eq_getElem h1, getD_eq_getElem h2] at this

/-- `fixOdd` on an exactly-sized buffer is exactly the spec balancing. -/
lemma fixOdd_exact {L : List Bytes} : fixOdd L L.length = (specBal L, (specBal L).length) := by
  rcases Nat.even_or_odd L.length with hev | hodd
  · have he : L.length % 2 = 0 := Nat.even_iff.mp hev
    rw [fixOdd_even he]
    simp [specBal, he]
  · have ho : L.length % 2 = 1 := Nat.odd_iff.mp hodd
    have happ := @fixOdd_odd_app L L.length ho (by omega)
    rw [happ]
    simp [specBal, ho]

lemma specProofK_zero (hf : TypeHashFunc) (cf : TypeConcatFunc) (leaves : List Bytes)
    (k : Nat) : specProofK hf cf leaves 0 k = { Siblings := [], Path := 0 } := by
  simp [specProofK, specPath]

lemma specRoot_ok {hf : TypeHashFunc} {cf : TypeConcatFunc} {leaves : List Bytes}
    {depth : Nat} {root : Bytes} (h : specRoot hf cf leaves depth = .ok root) :
    ∃ Lfin, specLevel hf cf leaves (depth - 1) = .ok Lfin ∧
      hf (cf (Lfin.getD 0 []) (Lfin.getD 1 [])) = .ok root := by
  simp only [specRoot, bind, Except.bind] at h
  cases hL : specLevel hf cf leaves (depth - 1) with
  | error e => rw [hL] at h; exact absurd h (by simp)
  | ok Lfin => rw [hL] at h; exact ⟨Lfin, rfl, h⟩

/-! ## Frame lemmas: which fields each construction phase can touch -/

lemma proofGenSeq_frame (m : MerkleTree) (buf : List Bytes) (prevLen : Nat) :
    ∃ ps rt, (proofGenSeq m buf prevLen).1 = { m with Proofs := ps, Root := rt } := by
  simp only [proofGenSeq]
  split
  · exact ⟨_, m.Root, rfl⟩
  · split
    · exact ⟨_, m.Root, rfl⟩
    · exact ⟨_, _, rfl⟩

lemma proofGenParallel_frame (m : MerkleTree) (buf : List Bytes) (prevLen : Nat) :
    ∃ ps rt, (proofGenParallel m buf prevLen).1 = { m with Proofs := ps, Root := rt } := by
  simp only [proofGenParallel]
  split
  · exact ⟨_, m.Root, rfl⟩
  · split
    · exact ⟨_, m.Root, rfl⟩
    · exact ⟨_, _, rfl⟩

lemma proofGen_frame (m : MerkleTree) :
    ∃ ps rt, (proofGen m).1 = { m with Proofs := ps, Root := rt } := by
  simp only [proofGen]
  split
  · exact proofGenParallel_frame _ _ _
  · exact proofGenSeq_frame _ _ _

lemma treeBuild_frame (m : MerkleTree) :
    ∃ mp ns rt, (treeBuild m).1 = { m with leafMap := mp, nodes := ns, Root := rt } := by
  simp only [treeBuild]
  split
  · exact ⟨_, _, m.Root, rfl⟩
  · split
    · exact ⟨_, _, m.Root, rfl⟩
    · split
      · exact ⟨_, _, m.Root, rfl⟩
      · exact ⟨_, _, _, rfl⟩

/-! ## Configuration resolution -/

lemma resolveConfig_Mode (cfg : Config) (numCPU : Nat) :
    (resolveConfig cfg numCPU).Mode = cfg.Mode := by
  simp only [resolveConfig]
  split_ifs <;> rfl

lemma resolveConfig_RunInParallel (cfg : Config) (numCPU : Nat) :
    (resolveConfig cfg numCPU).RunInParallel = cfg.RunInParallel := by
  simp only [resolveConfig]
  split_ifs <;> rfl

lemma resolveConfig_SortSiblingPairs (cfg : Config) (numCPU : Nat) :
    (resolveConfig cfg numCPU).SortSiblingPairs = cfg.SortSiblingPairs := by
  simp only [resolveConfig]
  split_ifs <;> rfl

lemma resolveConfig_DisableLeafHashing (cfg : Config) (numCPU : Nat) :
    (resolveConfig cfg numCPU).DisableLeafHashing = cfg.DisableLeafHashing := by
  simp only [resolveConfig]
  split_ifs <;> rfl

lemma resolveConfig_HashFunc (cfg : Config) (numCPU : Nat) :
    (resolveConfig cfg numCPU).HashFunc =
      some (cfg.HashFunc.getD
        (if cfg.RunInParallel then DefaultHashFuncParallel else DefaultHashFunc)) := by
  simp only [resolveConfig]
  cases hh : cfg.HashFunc <;> split_ifs <;> simp_all

lemma resolveConfig_concatFunc (cfg : Config) (numCPU : Nat) :
    (resolveConfig cfg numCPU).concatFunc =
      some (cfg.concatFunc.getD
        (if cfg.SortSiblingPairs then concatSortHash else concatHash)) := by
  simp only [resolveConfig]
  cases hh : cfg.concatFunc <;> split_ifs <;> simp_all

lemma resolveConfig_NumRoutines (cfg : Config) (numCPU : Nat) :
    (resolveConfig cfg numCPU).NumRoutines =
      if cfg.RunInParallel ∧ cfg.NumRoutines ≤ 0 then (numCPU : Int) else cfg.NumRoutines := by
  simp only [resolveConfig]
  split_ifs <;> simp_all

/-! ## Sequential proof generation: full characterisation -/

lemma initProofs_getElem? {n k : Nat} (hk : k < n) :
    (initProofs n)[k]? = some { Siblings := [], Path := 0 } := by
  rw [initProofs, List.getElem?_eq_getElem (by simpa using hk)]
  simp

lemma initProofs_length (n : Nat) : (initProofs n).length = n := by
  simp [initProofs]

lemma proofGen_seq_spec {m : MerkleTree}
    (hpar : m.config.RunInParallel = false)
    (hnl : m.NumLeaves = m.Leaves.length)
    (h2 : 2 ≤ m.Leaves.length)
    (hdep : m.Leaves.length ≤ 2 ^ m.Depth) (hd1 : 1 ≤ m.Depth)
    {root : Bytes} (hroot : specRoot m.hashF m.concatF m.Leaves m.Depth = .ok root) :
    ∃ proofs, proofGen m = ({ m with Proofs := proofs, Root := root }, none) ∧
      proofs.length = m.Leaves.length ∧
      ∀ k, k < m.Leaves.length →
        proofs[k]? = some (specProofK m.hashF m.concatF m.Leaves m.Depth k) := by
  obtain ⟨Lfin, hfin, hrh⟩ := specRoot_ok hroot
  have hB0 : specLevel m.hashF m.concatF m.Leaves 0 = .ok (specBal m.Leaves) := rfl
  have hfix : fixOdd m.Leaves m.NumLeaves = (specBal m.Leaves, (specBal m.Leaves).length) := by
    rw [hnl]; exact fixOdd_exact
  -- recording of level 0
  have hkl : ∀ k, k < m.Leaves.length → k < (initProofs m.NumLeaves).length := by
    intro k hk
    rw [initProofs_length, hnl]; exact hk
  have hup0_len :
      (updateProofs (initProofs m.NumLeaves) (specBal m.Leaves) m.NumLeaves 0).length
        = m.Leaves.length := by
    rw [updateProofs_length, initProofs_length, hnl]
  have hup0 : ∀ k, k < m.Leaves.length →
      (updateProofs (initProofs m.NumLeaves) (specBal m.Leaves) m.NumLeaves 0)[k]? =
        some (specProofK m.hashF m.concatF m.Leaves 1 k) := by
    intro k hk
    rw [updateProofs_getElem? _ _ _ _ (hkl k hk)]
    have hcov : coverIdx 0 k < m.NumLeaves := by
      rw [hnl]; exact coverIdx_lt hk (Or.inr ⟨rfl, le_rfl⟩)
    rw [if_pos hcov, initProofs_getElem? (by rw [hnl]; exact hk)]
    simp only [Option.map_some']
    congr 1
    rw [← specProofK_zero m.hashF m.concatF m.Leaves k]
    exact stepUpd_spec hB0 (fun q _ => rfl) hk
  -- the level loop
  obtain ⟨proofs', buf', prevLen', hrec, hlen', hpk', hplfin, hble, hbpre'⟩ :=
    proofGenLoop_ok (m.Depth - 1) 1
      (specBal m.Leaves) (specBal m.Leaves).length
      (updateProofs (initProofs m.NumLeaves) (specBal m.Leaves) m.NumLeaves 0)
      (specBal m.Leaves) (by omega) le_rfl hB0 rfl le_rfl (fun p _ => rfl)
      hup0_len hup0 Lfin hfin
  -- the final level has at least two nodes
  have hfl : Lfin.length = levLen m.Leaves.length (m.Depth - 1) := specLevel_length hfin
  have hfl2 : 2 ≤ Lfin.length := by
    rw [hfl]; exact levLen_pos (by omega) _
  have hb0 : buf'.getD 0 [] = Lfin.getD 0 [] := hbpre' 0 (by omega)
  have hb1 : buf'.getD 1 [] = Lfin.getD 1 [] := hbpre' 1 (by omega)
  refine ⟨proofs', ?_, hlen', hpk'⟩
  have hm1hf : ({ m with Proofs := initProofs m.NumLeaves } : MerkleTree).hashF
      = m.hashF := rfl
  have hm1cf : ({ m with Proofs := initProofs m.NumLeaves } : MerkleTree).concatF
      = m.concatF := rfl
  simp only [proofGen, hfix, proofGenSeq, hm1hf, hm1cf, hpar, Bool.false_eq_true, if_false]
  rw [hrec]
  dsimp only
  rw [hb0, hb1, hrh]

/-! ## `New` in sequential proof-generation mode -/

lemma New_mode0_seq {cfg0 : Config} {blocks : List DataBlock} {numCPU : Nat}
    (h2 : 2 ≤ blocks.length)
    (hpar : cfg0.RunInParallel = false) (hmode : cfg0.Mode = ModeProofGen)
    {leaves : List Bytes}
    (hlg : leafGen blocks (resolveConfig cfg0 numCPU) = .ok leaves)
    {hf : TypeHashFunc} {cf : TypeConcatFunc}
    (hhf : (resolveConfig cfg0 numCPU).HashFunc = some hf)
    (hcf : (resolveConfig cfg0 numCPU).concatFunc = some cf)
    {root : Bytes}
    (hroot : specRoot hf cf leaves (bitsLen (blocks.length - 1)) = .ok root) :
    ∃ m, New (some cfg0) blocks numCPU = (some m, none) ∧
      m.config = resolveConfig cfg0 numCPU ∧
      m.Leaves = leaves ∧ m.NumLeaves = blocks.length ∧
      m.Depth = bitsLen (blocks.length - 1) ∧ m.Root = root ∧
      m.nodes = [] ∧ m.leafMap = [] ∧
      m.Proofs.length = blocks.length ∧
      ∀ k, k < blocks.length →
        m.Proofs[k]? =
          some (specProofK hf cf leaves (bitsLen (blocks.length - 1)) k) := by
  obtain ⟨hllen, _⟩ := leafGen_ok hlg
  set rc := resolveConfig cfg0 numCPU with hrc
  set mtr : MerkleTree :=
    { config := rc, Leaves := leaves, NumLeaves := blocks.length,
      Depth := bitsLen (blocks.length - 1) } with hmtr
  have hmhf : mtr.hashF = hf := by
    rw [MerkleTree.hashF]
    show rc.HashFunc.getD DefaultHashFunc = hf
    rw [hhf]; rfl
  have hmcf : mtr.concatF = cf := by
    rw [MerkleTree.concatF]
    show rc.concatFunc.getD concatHash = cf
    rw [hcf]; rfl
  obtain ⟨proofs, hpg, hplen, hppt⟩ :=
    proofGen_seq_spec (m := mtr)
      (by show rc.RunInParallel = false; rw [resolveConfig_RunInParallel]; exact hpar)
      (by show blocks.length = leaves.length; omega)
      (by show 2 ≤ leaves.length; omega)
      (by show leaves.length ≤ 2 ^ bitsLen (blocks.length - 1)
          have := bitsLen_depth_ge (n := blocks.length) (by omega)
          omega)
      (by show 1 ≤ bitsLen (blocks.length - 1); exact bitsLen_depth_pos h2)
      (by rw [hmhf, hmcf]; exact hroot)
  have hml : mtr.Leaves = leaves := rfl
  have hNew : New (some cfg0) blocks numCPU =
      (some { mtr with Proofs := proofs, Root := root }, none) := by
    simp only [New]
    rw [if_neg (by omega)]
    have hgd : (some cfg0).getD {} = cfg0 := rfl
    rw [hgd, ← hrc]
    have hrp : rc.RunInParallel = false := by
      rw [hrc, resolveConfig_RunInParallel]; exact hpar
    rw [hrp]
    simp only [Bool.false_eq_true, if_false]
    rw [hlg]
    dsimp only
    have hmd : rc.Mode = ModeProofGen := by
      rw [hrc, resolveConfig_Mode]; exact hmode
    simp only [hmd, if_true]
    rw [← hmtr, hpg]
  refine ⟨{ mtr with Proofs := proofs, Root := root }, hNew, rfl, rfl, rfl, rfl, rfl, rfl, rfl,
    ?_, ?_⟩
  · show proofs.length = blocks.length
    rw [hml] at hplen
    omega
  · intro k hk
    show proofs[k]? = _
    have hpp := hppt k (by rw [hml]; omega)
    rw [hpp, hmhf, hmcf]

/-! ## `Verify` unfolding and verification of spec proofs -/

lemma VerifyM_resolved {db : DataBlock} {pf : Proof} {root : Bytes} {cfg : Config}
    {hfn : TypeHashFunc} {cfn : TypeConcatFunc}
    (hH : cfg.HashFunc = some hfn) (hC : cfg.concatFunc = some cfn) :
    VerifyM (some db) (some pf) root (some cfg) =
      (match leafFromBlock db cfg with
       | .error e => (.error e, some cfg)
       | .ok leaf =>
         match verifyLoop hfn cfn leaf pf.Path pf.Siblings with
         | .error e => (.error e, some cfg)
         | .ok result => (.ok (result == root), some cfg)) := by
  simp only [VerifyM, Option.getD_some, hH, hC, Option.isNone_some, Bool.false_eq_true,
    if_false, Option.isSome_some, if_true]

lemma verify_specProof {hfn : TypeHashFunc} {cfn : TypeConcatFunc} {leaves : List Bytes}
    {depth k : Nat} (hk : k < leaves.length) (hnd : leaves.length ≤ 2 ^ depth)
    (hd32 : depth ≤ 32) (hd : 1 ≤ depth)
    {root : Bytes} (hroot : specRoot hfn cfn leaves depth = .ok root)
    {db : DataBlock} {cfg : Config}
    (hH : cfg.HashFunc = some hfn) (hC : cfg.concatFunc = some cfn)
    (hleaf : leafFromBlock db cfg = .ok (leaves.getD k [])) :
    Verify (some db) (some (specProofK hfn cfn leaves depth k)) root (some cfg)
      = .ok true := by
  obtain ⟨Lfin, hfin, hrh⟩ := specRoot_ok hroot
  have hVL := verifyLoop_spec hk hnd hd32 hd hfin hrh depth 0 (by omega) (by omega)
  have h0 : (okLvl hfn cfn leaves 0).getD (k >>> 0) [] = leaves.getD k [] := by
    show (specBal leaves).getD k [] = leaves.getD k []
    exact specBal_getD_lt hk
  have h1 : specPath k depth / 2 ^ 0 = specPath k depth := by simp
  have h2 : (List.range depth).map (fun t => specSib hfn cfn leaves (0 + t) k)
      = (List.range depth).map (fun t => specSib hfn cfn leaves t k) := by
    apply List.map_congr_left
    intro t _
    simp
  rw [h0, h1, h2] at hVL
  rw [Verify, VerifyM_resolved hH hC, hleaf]
  dsimp only [specProofK]
  rw [hVL]
  simp

/-! ## Verification claims -/

/-- C6 (amended): package `Verify` is a function of exactly the data
block, the proof, the root and the configuration, but it is not free of
effects on the caller's configuration: it writes the default hash and
concatenation functions through the configuration pointer whenever the
respective field is nil.  When both fields are already set, the caller's
configuration is left unchanged. -/
theorem C6_verify_config_effect (db : DataBlock) (pf : Proof) (root : Bytes)
    (cfg : Config) (h1 : cfg.HashFunc.isSome = true) (h2 : cfg.concatFunc.isSome = true) :
    (VerifyM (some db) (some pf) root (some cfg)).2 = some cfg := by
  obtain ⟨hfn, hH⟩ := Option.isSome_iff_exists.mp h1
  obtain ⟨cfn, hC⟩ := Option.isSome_iff_exists.mp h2
  rw [VerifyM_resolved hH hC]
  cases hlf : leafFromBlock db cfg with
  | error e => rfl
  | ok leaf =>
    cases hvl : verifyLoop hfn cfn leaf pf.Path pf.Siblings with
    | error e => simp [hvl]
    | ok result => simp [hvl]

/-- C6 witness: a call with a fully populated configuration leaves it
untouched. -/
theorem C6_verify_config_effect_witness :
    (VerifyM (some { serialize := .ok [1] }) (some { Siblings := [], Path := 0 }) [0, 1]
      (some { HashFunc := some DefaultHashFunc, concatFunc := some concatHash })).2 =
      some { HashFunc := some DefaultHashFunc, concatFunc := some concatHash } :=
  C6_verify_config_effect _ _ _ _ rfl rfl

/-- C6 counterexample: calling `Verify` with a configuration whose hash
function is nil mutates the caller's configuration record — afterwards
the hash-function field is populated, so the call is observably not
effect-free on its configuration argument. -/
theorem C6_counterexample :
    (((VerifyM (some { serialize := .ok [1] }) (some { Siblings := [], Path := 0 }) []
        (some {})).2.getD {}).HashFunc.isSome = true) ∧
    (({} : Config).HashFunc.isSome = false) := ⟨rfl, rfl⟩

/-- C7 (amended): `Verify` fails with the nil-input errors exactly when
the data block or the proof is absent; with both present and a resolved
configuration it propagates the errors of `leafFromBlock` (which are
serialization errors as well as digest errors) and of the digest calls in
the sibling fold, and when every digest call succeeds it returns the
boolean comparison of the recomputed digest with the root — `false` is a
normal return value, not an error. -/
theorem C7_verify_errors (db : DataBlock) (pf : Proof) (root : Bytes) (cfg : Config)
    {hfn : TypeHashFunc} {cfn : TypeConcatFunc}
    (hH : cfg.HashFunc = some hfn) (hC : cfg.concatFunc = some cfn) :
    (Verify none (some pf) root (some cfg) = .error ErrDataBlockIsNil) ∧
    (Verify (some db) none root (some cfg) = .error ErrProofIsNil) ∧
    (∀ e, leafFromBlock db cfg = .error e →
      Verify (some db) (some pf) root (some cfg) = .error e) ∧
    (∀ leaf, leafFromBlock db cfg = .ok leaf →
      (∀ e, verifyLoop hfn cfn leaf pf.Path pf.Siblings = .error e →
        Verify (some db) (some pf) root (some cfg) = .error e) ∧
      (∀ v, verifyLoop hfn cfn leaf pf.Path pf.Siblings = .ok v →
        Verify (some db) (some pf) root (some cfg) = .ok (v == root))) := by
  refine ⟨rfl, rfl, ?_, ?_⟩
  · intro e he
    rw [Verify, VerifyM_resolved hH hC]
    simp [he]
  · intro leaf hleaf
    constructor
    · intro e he
      rw [Verify, VerifyM_resolved hH hC]
      simp [hleaf, he]
    · intro v hv
      rw [Verify, VerifyM_resolved hH hC]
      simp [hleaf, hv]

/-- C7 witness: with the always-succeeding default digest, a proof whose
sibling list is empty verifies to the comparison of the leaf digest with
the root. -/
theorem C7_verify_errors_witness :
    ({ HashFunc := some DefaultHashFunc, concatFunc := some concatHash } : Config).HashFunc
        = some DefaultHashFunc ∧
    Verify (some { serialize := .ok [1] }) (some { Siblings := [], Path := 0 }) [0, 1]
      (some { HashFunc := some DefaultHashFunc, concatFunc := some concatHash }) =
        .ok ([0, 1] == [0, 1]) :=
  ⟨rfl,
    ((C7_verify_errors { serialize := .ok [1] } { Siblings := [], Path := 0 } [0, 1]
        { HashFunc := some DefaultHashFunc, concatFunc := some concatHash }
        rfl rfl).2.2.2 [0, 1] rfl).2 [0, 1] rfl⟩

/-- C7 counterexample: a serialization failure of the data block is
propagated verbatim by `Verify`, so the errors it returns are not limited
to nil-input errors and digest-function errors. -/
theorem C7_counterexample :
    Verify (some { serialize := .error "serialization failed" })
        (some { Siblings := [], Path := 0 }) [] none = .error "serialization failed" ∧
    "serialization failed" ≠ ErrDataBlockIsNil ∧
    "serialization failed" ≠ ErrProofIsNil := by
  refine ⟨rfl, ?_, ?_⟩ <;> decide

/-! ## Depth and abort behaviour of `New` -/

/-- C9: whenever `New` returns a tree (with or without an error), its
`Depth` equals `bits.Len(numLeaves - 1)`, which is the smallest `d` with
`2 ^ d ≥ numLeaves`. -/
theorem C9_depth_formula (config : Option Config) (blocks : List DataBlock) (numCPU : Nat)
    {m : MerkleTree} {err : Option String}
    (h : New config blocks numCPU = (some m, err)) :
    m.Depth = bitsLen (blocks.length - 1) ∧
    blocks.length ≤ 2 ^ m.Depth ∧
    (∀ d, blocks.length ≤ 2 ^ d → m.Depth ≤ d) := by
  have hDepth : m.Depth = bitsLen (blocks.length - 1) ∧ 2 ≤ blocks.length := by
    simp only [New] at h
    by_cases hlen : blocks.length ≤ 1
    · rw [if_pos hlen] at h
      exact absurd h (by simp)
    · rw [if_neg hlen] at h
      refine ⟨?_, by omega⟩
      split at h
      · exact absurd h (by simp)
      · split at h
        · -- ModeProofGen
          obtain ⟨ps, rt, hfr⟩ := proofGen_frame
            { config := resolveConfig (config.getD {}) numCPU, Leaves := _,
              NumLeaves := blocks.length, Depth := bitsLen (blocks.length - 1) }
          rw [Prod.mk.injEq] at h
          obtain ⟨h1, _⟩ := h
          injection h1 with h1
          rw [← h1, hfr]
        · split at h
          · -- ModeTreeBuild
            obtain ⟨mp, ns, rt, hfr⟩ := treeBuild_frame
              { config := resolveConfig (config.getD {}) numCPU, Leaves := _,
                NumLeaves := blocks.length, Depth := bitsLen (blocks.length - 1) }
            rw [Prod.mk.injEq] at h
            obtain ⟨h1, _⟩ := h
            injection h1 with h1
            rw [← h1, hfr]
          · split at h
            · -- ModeProofGenAndTreeBuild
              split at h
              · rename_i m2 e2 heq
                obtain ⟨mp, ns, rt, hfr⟩ := treeBuild_frame
                  { config := resolveConfig (config.getD {}) numCPU, Leaves := _,
                    NumLeaves := blocks.length, Depth := bitsLen (blocks.length - 1) }
                rw [heq] at hfr
                rw [Prod.mk.injEq] at h
                obtain ⟨h1, _⟩ := h
                injection h1 with h1
                rw [← h1]
                rw [show m2 = (m2, some e2).1 from rfl, hfr]
              · rename_i m2 heq
                obtain ⟨mp, ns, rt, hfr⟩ := treeBuild_frame
                  { config := resolveConfig (config.getD {}) numCPU, Leaves := _,
                    NumLeaves := blocks.length, Depth := bitsLen (blocks.length - 1) }
                rw [heq] at hfr
                rw [Prod.mk.injEq] at h
                obtain ⟨h1, _⟩ := h
                injection h1 with h1
                rw [← h1]
                rw [show ({ m2 with
                  Proofs := updateProofsLevels (initProofs m2.NumLeaves) m2.nodes 0
                    m2.config.RunInParallel m2.config.NumRoutines.toNat } : MerkleTree).Depth
                  = (m2, (none : Option String)).1.Depth from rfl, hfr]
            · exact absurd h (by simp)
  obtain ⟨hd, h2⟩ := hDepth
  refine ⟨hd, ?_, ?_⟩
  · rw [hd]
    exact bitsLen_depth_ge (by omega)
  · intro d hdle
    rw [hd]
    exact bitsLen_depth_min hdle

/-- C9 witness: two blocks give depth 1. -/
theorem C9_depth_formula_witness :
    ((New (some {}) [{ serialize := .ok [1] }, { serialize := .ok [2] }] 1).1.getD
      { config := {} }).Depth = 1 ∧ (2:Nat) ≤ 2 ^ 1 :=
  ⟨(@C9_depth_formula (some {}) [{ serialize := .ok [1] }, { serialize := .ok [2] }] 1
      ((New (some {}) [{ serialize := .ok [1] }, { serialize := .ok [2] }] 1).1.getD
        { config := {} })
      ((New (some {}) [{ serialize := .ok [1] }, { serialize := .ok [2] }] 1).2)
      rfl).1,
   by decide⟩

/-- A digest that fails on inputs of length at least four: it digests
every leaf but fails on the first concatenated pair. -/
def hashFailLong : TypeHashFunc :=
  fun b => if 4 ≤ b.length then .error "hash failed" else .ok (0 :: b)

/-- Two serializable blocks. -/
def blocksC5 : List DataBlock := [{ serialize := .ok [1] }, { serialize := .ok [2] }]

/-- C5 (amended): `New` aborts with a nil tree when the block count is
at most one, when leaf generation — sequential or parallel, whichever
the `RunInParallel` flag selects — fails, and when the mode is invalid.
Failures in the later construction phases do *not* yield a nil tree:
`New` then returns the partially built tree together with the error (see
the counterexample). -/
theorem C5_abort_behaviour (config : Option Config) (blocks : List DataBlock) (numCPU : Nat) :
    (blocks.length ≤ 1 → New config blocks numCPU = (none, some ErrInvalidNumOfDataBlocks)) ∧
    (∀ e, 2 ≤ blocks.length →
      (if (resolveConfig (config.getD {}) numCPU).RunInParallel = true then
        leafGenParallel blocks (resolveConfig (config.getD {}) numCPU)
          (resolveConfig (config.getD {}) numCPU).NumRoutines.toNat
       else leafGen blocks (resolveConfig (config.getD {}) numCPU)) = .error e →
      New config blocks numCPU = (none, some e)) ∧
    (2 ≤ blocks.length → (config.getD {}).Mode ≠ ModeProofGen →
      (config.getD {}).Mode ≠ ModeTreeBuild →
      (config.getD {}).Mode ≠ ModeProofGenAndTreeBuild →
      (New config blocks numCPU).1 = none) := by
  refine ⟨?_, ?_, ?_⟩
  · intro hlen
    simp only [New]
    rw [if_pos hlen]
  · intro e hlen hfail
    simp only [New]
    rw [if_neg (by omega), hfail]
  · intro hlen h0 h1 h2
    simp only [New]
    rw [if_neg (by omega)]
    have hm : (resolveConfig (config.getD {}) numCPU).Mode = (config.getD {}).Mode :=
      resolveConfig_Mode _ _
    split
    · rfl
    · rw [if_neg (by rw [hm]; exact h0), if_neg (by rw [hm]; exact h1),
        if_neg (by rw [hm]; exact h2)]

/-- C5 witness: the abort clauses at concrete inputs — too few blocks, a
failing sequential leaf generation, a failing parallel leaf generation
and an invalid mode. -/
theorem C5_abort_behaviour_witness :
    New none ([] : List DataBlock) 1 = (none, some ErrInvalidNumOfDataBlocks) ∧
    New (some { HashFunc := some (fun _ => .error "leaf fail") }) blocksC5 1 =
      (none, some "leaf fail") ∧
    New (some { RunInParallel := true, HashFunc := some (fun _ => .error "leaf fail") })
      blocksC5 1 = (none, some "leaf fail") ∧
    (New (some { Mode := 5 }) blocksC5 1).1 = none :=
  ⟨(C5_abort_behaviour none [] 1).1 (by decide),
   (C5_abort_behaviour (some { HashFunc := some (fun _ => .error "leaf fail") }) blocksC5 1).2.1
     "leaf fail" (by decide) rfl,
   (C5_abort_behaviour
     (some { RunInParallel := true, HashFunc := some (fun _ => .error "leaf fail") })
     blocksC5 1).2.1 "leaf fail" (by decide) rfl,
   (C5_abort_behaviour (some { Mode := 5 }) blocksC5 1).2.2 (by decide) (by decide) (by decide)
     (by decide)⟩

/-- C5 counterexample: a digest failure during proof generation makes
`New` return the partially built tree — its leaves are fully populated
and observable — together with the error, not a nil tree. -/
theorem C5_counterexample :
    (New (some { HashFunc := some hashFailLong }) blocksC5 1).2 = some "hash failed" ∧
    (New (some { HashFunc := some hashFailLong }) blocksC5 1).1.isSome = true ∧
    ((New (some { HashFunc := some hashFailLong }) blocksC5 1).1.getD
      { config := {} }).Leaves = [[0, 1], [0, 2]] :=
  ⟨rfl, rfl, rfl⟩

/-! ## Sequential tree building: full characterisation -/

lemma workerFill2_ok {hf : TypeHashFunc} {cf : TypeConcatFunc} {L : List Bytes} {p : Nat}
    {N : List Bytes} (hN : pairHash hf cf (L.take p) = .ok N) (hev : p % 2 = 0)
    (hpL : p ≤ L.length) :
    ∀ (fuel i : Nat) (dst : List Bytes), i % 2 = 0 → i ≤ p → p ≤ i + fuel →
      p / 2 ≤ dst.length →
    ∃ dst', workerFill (levelHashFn hf cf L) (fun j => j / 2) 2 p dst i fuel = (dst', none) ∧
      dst'.length = dst.length ∧
      (∀ q, q < i / 2 → dst'.getD q [] = dst.getD q []) ∧
      (∀ q, i / 2 ≤ q → q < p / 2 → dst'.getD q [] = N.getD q []) ∧
      (∀ q, p / 2 ≤ q → dst'.getD q [] = dst.getD q [])
  | 0, i, dst => by
    intro hiev hip hfuel hdl
    exact ⟨dst, rfl, rfl, fun q _ => rfl, fun q h1 h2 => by omega, fun q _ => rfl⟩
  | fuel + 1, i, dst => by
    intro hiev hip hfuel hdl
    simp only [workerFill]
    rcases Nat.lt_or_ge i p with hlt | hge
    · rw [if_pos hlt]
      have htake : (L.take p).length = p := by rw [List.length_take]; omega
      have hj := pairHash_ok_getD hN (i / 2) (by rw [htake]; omega)
      have h2i : 2 * (i / 2) = i := by omega
      rw [h2i] at hj
      rw [getD_take (by omega), getD_take (by omega)] at hj
      have hfi : levelHashFn hf cf L i = .ok (N.getD (i / 2) []) := hj
      rw [hfi]
      obtain ⟨dst', hrun, hlen, hlow, hmid, hhigh⟩ :=
        workerFill2_ok hN hev hpL fuel (i + 2) (dst.set (i / 2) (N.getD (i / 2) []))
          (by omega) (by omega) (by omega) (by rw [List.length_set]; omega)
      refine ⟨dst', hrun, by rw [hlen, List.length_set], ?_, ?_, ?_⟩
      · intro q hq
        rw [hlow q (by omega), getD_set_ne (by omega)]
      · intro q hq1 hq2
        rcases eq_or_ne q (i / 2) with hqe | hqe
        · rw [hqe, hlow (i / 2) (by omega), getD_set_self (by omega)]
        · rw [hmid q (by omega) hq2]
      · intro q hq
        rw [hhigh q hq, getD_set_ne (by omega)]
    · rw [if_neg (by omega)]
      exact ⟨dst, rfl, rfl, fun q _ => rfl, fun q h1 h2 => by omega, fun q _ => rfl⟩

lemma treeBuildLoopSeq_ok {hf : TypeHashFunc} {cf : TypeConcatFunc} {leaves : List Bytes}
    {depth : Nat} {Lfin : List Bytes}
    (hfin : specLevel hf cf leaves (depth - 1) = .ok Lfin) (hn : 0 < leaves.length) :
    ∀ (remaining s : Nat) (Lprev : List Bytes), s + remaining = depth - 1 →
      specLevel hf cf leaves s = .ok Lprev →
      ∃ levels, treeBuildLoopSeq hf cf Lprev Lprev.length remaining = (levels, none) ∧
        levels.length = remaining ∧
        ∀ j, j < remaining → levels.getD j [] = okLvl hf cf leaves (s + 1 + j)
  | 0, s, Lprev => by
    intro hsum hLs
    exact ⟨[], rfl, rfl, fun j hj => by omega⟩
  | remaining + 1, s, Lprev => by
    intro hsum hLs
    obtain ⟨Ls1, hLs1⟩ := specLevel_ok_of_le (t := depth - 1) (s + 1) (by omega) hfin
    obtain ⟨P, N, hP, hN, hBal⟩ := specLevel_ok_succ hLs1
    rw [hLs] at hP
    cases hP
    have hLev : Lprev.length = levLen leaves.length s := specLevel_length hLs
    have hLevEven : Lprev.length % 2 = 0 := by rw [hLev]; exact levLen_even _ _
    have hLevPos : 2 ≤ Lprev.length := by rw [hLev]; exact levLen_pos hn _
    have hNfull : pairHash hf cf (Lprev.take Lprev.length) = .ok N := by
      rw [List.take_length]; exact hN
    have hNlen : N.length = Lprev.length / 2 := pairHash_ok_length hN
    obtain ⟨dst', hrun, hlen, _, hmid, _⟩ :=
      workerFill2_ok hNfull hLevEven le_rfl (Lprev.length + 1) 0
        (List.replicate (Lprev.length / 2) ([] : Bytes)) (by omega) (by omega) (by omega)
        (by rw [List.length_replicate])
    have hdstN : dst' = N := by
      apply eq_of_getD ([] : Bytes)
      · rw [hlen, List.length_replicate, hNlen]
      · intro q hq
        rw [hlen, List.length_replicate] at hq
        exact hmid q (by omega) hq
    subst hdstN
    simp only [treeBuildLoopSeq]
    rw [hrun]
    dsimp only
    rw [fixOdd_exact]
    obtain ⟨levels, hrec, hreclen, hrecpt⟩ :=
      treeBuildLoopSeq_ok hfin hn remaining (s + 1) (specBal dst') (by omega)
        (by rw [← hBal]; exact hLs1)
    rw [hrec]
    refine ⟨specBal dst' :: levels, rfl, by simp [hreclen], ?_⟩
    intro j hj
    cases j with
    | zero =>
      simp only [List.getD_cons_zero]
      rw [okLvl_eq hLs1, hBal]
    | succ j =>
      simp only [List.getD_cons_succ]
      rw [hrecpt j (by omega)]
      congr 1
      omega

lemma treeBuild_spec {m : MerkleTree} (hpar : m.config.RunInParallel = false)
    (hnl : m.NumLeaves = m.Leaves.length) (h2 : 2 ≤ m.Leaves.length)
    (hd1 : 1 ≤ m.Depth)
    {root : Bytes} (hroot : specRoot m.hashF m.concatF m.Leaves m.Depth = .ok root) :
    ∃ ns, treeBuild m =
        ({ m with leafMap := mapGen m.Leaves, nodes := ns, Root := root }, none) ∧
      ns.length = m.Depth ∧
      ∀ s, s < m.Depth → ns.getD s [] = okLvl m.hashF m.concatF m.Leaves s := by
  obtain ⟨Lfin, hfin, hrh⟩ := specRoot_ok hroot
  have hfix : fixOdd m.Leaves m.NumLeaves = (specBal m.Leaves, (specBal m.Leaves).length) := by
    rw [hnl]; exact fixOdd_exact
  have hB0 : specLevel m.hashF m.concatF m.Leaves 0 = .ok (specBal m.Leaves) := rfl
  obtain ⟨levels, hrun, hlevlen, hlevpt⟩ :=
    treeBuildLoopSeq_ok hfin (by omega) (m.Depth - 1) 0 (specBal m.Leaves) (by omega) hB0
  have hnspt : ∀ s, s < m.Depth →
      (specBal m.Leaves :: levels).getD s [] = okLvl m.hashF m.concatF m.Leaves s := by
    intro s hs
    cases s with
    | zero =>
      simp only [List.getD_cons_zero]
      rw [okLvl_eq hB0]
    | succ s =>
      simp only [List.getD_cons_succ]
      rw [hlevpt s (by omega)]
      congr 1
      omega
  have hlast : (specBal m.Leaves :: levels).getD (m.Depth - 1) [] = Lfin := by
    rw [hnspt (m.Depth - 1) (by omega), okLvl_eq hfin]
  refine ⟨specBal m.Leaves :: levels, ?_, by simp [hlevlen]; omega, hnspt⟩
  have hm1 : ({ m with leafMap := mapGen m.Leaves } : MerkleTree).hashF = m.hashF := rfl
  have hm2 : ({ m with leafMap := mapGen m.Leaves } : MerkleTree).concatF = m.concatF := rfl
  simp only [treeBuild, hfix, hm1, hm2, hpar, Bool.false_eq_true, if_false]
  rw [hrun]
  dsimp only
  rw [hlast, hrh]

/-! ## `New` in sequential tree-building mode -/

lemma New_mode1_seq {cfg0 : Config} {blocks : List DataBlock} {numCPU : Nat}
    (h2 : 2 ≤ blocks.length)
    (hpar : cfg0.RunInParallel = false) (hmode : cfg0.Mode = ModeTreeBuild)
    {leaves : List Bytes}
    (hlg : leafGen blocks (resolveConfig cfg0 numCPU) = .ok leaves)
    {hf : TypeHashFunc} {cf : TypeConcatFunc}
    (hhf : (resolveConfig cfg0 numCPU).HashFunc = some hf)
    (hcf : (resolveConfig cfg0 numCPU).concatFunc = some cf)
    {root : Bytes}
    (hroot : specRoot hf cf leaves (bitsLen (blocks.length - 1)) = .ok root) :
    ∃ m, New (some cfg0) blocks numCPU = (some m, none) ∧
      m.config = resolveConfig cfg0 numCPU ∧
      m.Leaves = leaves ∧ m.NumLeaves = blocks.length ∧
      m.Depth = bitsLen (blocks.length - 1) ∧ m.Root = root ∧
      m.leafMap = mapGen leaves ∧ m.Proofs = [] ∧
      m.nodes.length = bitsLen (blocks.length - 1) ∧
      ∀ s, s < bitsLen (blocks.length - 1) →
        m.nodes.getD s [] = okLvl hf cf leaves s := by
  obtain ⟨hllen, _⟩ := leafGen_ok hlg
  set rc := resolveConfig cfg0 numCPU with hrc
  set mtr : MerkleTree :=
    { config := rc, Leaves := leaves, NumLeaves := blocks.length,
      Depth := bitsLen (blocks.length - 1) } with hmtr
  have hml : mtr.Leaves = leaves := rfl
  have hmhf : mtr.hashF = hf := by
    rw [MerkleTree.hashF]
    show rc.HashFunc.getD DefaultHashFunc = hf
    rw [hhf]; rfl
  have hmcf : mtr.concatF = cf := by
    rw [MerkleTree.concatF]
    show rc.concatFunc.getD concatHash = cf
    rw [hcf]; rfl
  obtain ⟨ns, htb, hnslen, hnspt⟩ :=
    treeBuild_spec (m := mtr)
      (by show rc.RunInParallel = false; rw [resolveConfig_RunInParallel]; exact hpar)
      (by show blocks.length = leaves.length; omega)
      (by show 2 ≤ leaves.length; omega)
      (by show 1 ≤ bitsLen (blocks.length - 1); exact bitsLen_depth_pos h2)
      (by rw [hmhf, hmcf]; exact hroot)
  have hNew : New (some cfg0) blocks numCPU =
      (some { mtr with leafMap := mapGen leaves, nodes := ns, Root := root }, none) := by
    simp only [New]
    rw [if_neg (by omega)]
    have hgd : (some cfg0).getD {} = cfg0 := rfl
    rw [hgd, ← hrc]
    have hrp : rc.RunInParallel = false := by
      rw [hrc, resolveConfig_RunInParallel]; exact hpar
    rw [hrp]
    simp only [Bool.false_eq_true, if_false]
    rw [hlg]
    dsimp only
    have hmd : rc.Mode = ModeTreeBuild := by
      rw [hrc, resolveConfig_Mode]; exact hmode
    simp only [hmd, if_true]
    rw [← hmtr, htb]
    rw [if_neg (by decide : ¬ (ModeTreeBuild = ModeProofGen))]
  refine ⟨{ mtr with leafMap := mapGen leaves, nodes := ns, Root := root }, hNew, rfl, rfl,
    rfl, rfl, rfl, rfl, rfl, hnslen, ?_⟩
  intro s hs
  show ns.getD s [] = _
  rw [hnspt s hs, hmhf, hmcf]

/-! ## Mode-invariance of configuration resolution and leaf generation -/

lemma resolveConfig_mode_set (cfg : Config) (x : Nat) (numCPU : Nat) :
    resolveConfig { cfg with Mode := x } numCPU =
      { resolveConfig cfg numCPU with Mode := x } := by
  obtain ⟨cF, hF, nR, md, rp, sp, dl⟩ := cfg
  simp only [resolveConfig]
  cases hF <;> cases cF <;> split_ifs <;> simp_all

lemma leafFromBlock_mode (b : DataBlock) (cfg : Config) (x : Nat) :
    leafFromBlock b { cfg with Mode := x } = leafFromBlock b cfg := rfl

lemma leafGen_mode : ∀ (blocks : List DataBlock) (cfg : Config) (x : Nat),
    leafGen blocks { cfg with Mode := x } = leafGen blocks cfg
  | [], _, _ => rfl
  | b :: rest, cfg, x => by
    simp only [leafGen, leafFromBlock_mode, leafGen_mode rest cfg x]

/-! ## The leaf map and the on-demand proof walk -/

lemma mapGen_append (l : List Bytes) (a : Bytes) :
    mapGen (l ++ [a]) = mapGen l ++ [(a, l.length)] := by
  simp [mapGen, List.enum_append]

lemma mapLookup_append (l : List Bytes) (a v : Bytes) :
    mapLookup (mapGen (l ++ [a])) v =
      if a == v then some l.length else mapLookup (mapGen l) v := by
  rw [mapGen_append, mapLookup, List.reverse_append]
  simp only [List.reverse_singleton, List.singleton_append, List.find?]
  cases hab : a == v with
  | true => simp
  | false => simp [mapLookup]

lemma mapLookup_sound : ∀ {leaves : List Bytes} {v : Bytes} {i : Nat},
    mapLookup (mapGen leaves) v = some i → i < leaves.length ∧ leaves.getD i [] = v := by
  intro leaves
  induction leaves using List.reverseRecOn with
  | nil => intro v i h; exact absurd h (by simp [mapLookup, mapGen])
  | append_singleton l a ih =>
    intro v i h
    rw [mapLookup_append] at h
    cases hab : a == v with
    | true =>
      rw [hab, if_pos rfl] at h
      injection h with h
      subst h
      refine ⟨by simp, ?_⟩
      rw [getD_append_right le_rfl]
      simp only [Nat.sub_self]
      have := eq_of_beq hab
      simp [this]
    | false =>
      rw [hab] at h
      simp only [Bool.false_eq_true, if_false] at h
      obtain ⟨hlt, hval⟩ := ih h
      exact ⟨by simp; omega, by rw [getD_append_left hlt]; exact hval⟩

lemma mapLookup_isSome : ∀ {leaves : List Bytes} {v : Bytes}, v ∈ leaves →
    (mapLookup (mapGen leaves) v).isSome = true := by
  intro leaves
  induction leaves using List.reverseRecOn with
  | nil => intro v h; simp at h
  | append_singleton l a ih =>
    intro v hv
    rw [mapLookup_append]
    cases hab : a == v with
    | true => simp
    | false =>
      simp only [Bool.false_eq_true, if_false]
      rcases List.mem_append.mp hv with h | h
      · exact ih h
      · have : v = a := by simpa using h
        subst this
        simp at hab

lemma proofLoop_spec {hfx : TypeHashFunc} {cfx : TypeConcatFunc} {leaves : List Bytes}
    {nodes : List (List Bytes)} {d : Nat}
    (hnodes : ∀ s, s < d → nodes.getD s [] = okLvl hfx cfx leaves s) {k : Nat} :
    ∀ (remaining i path : Nat) (sibs : List Bytes),
      i + remaining = d → path = specPath k i → sibs.length = d →
      (∀ j, j < i → sibs.getD j [] = specSib hfx cfx leaves j k) →
      ∃ sibs', proofLoop nodes (k >>> i) path sibs i remaining = (specPath k d, sibs') ∧
        sibs'.length = d ∧
        ∀ j, j < d → sibs'.getD j [] = specSib hfx cfx leaves j k
  | 0, i, path, sibs => by
    intro hsum hpath hlen hpres
    have hid : i = d := by omega
    subst hid
    subst hpath
    exact ⟨sibs, rfl, hlen, fun j hj => hpres j hj⟩
  | remaining + 1, i, path, sibs => by
    intro hsum hpath hlen hpres
    simp only [proofLoop]
    have hshift : k >>> i / 2 = k >>> (i + 1) := by
      rw [Nat.shiftRight_eq_div_pow, Nat.shiftRight_eq_div_pow, ← div_pow_succ]
    have hid : i < d := by omega
    rcases Nat.even_or_odd (k >>> i) with hev | hodd
    · have he : (k >>> i) % 2 = 0 := Nat.even_iff.mp hev
      rw [if_neg (by omega)]
      have hsibval : (sibs.set i ((nodes.getD i []).getD (k >>> i + 1) [])).getD i []
          = specSib hfx cfx leaves i k := by
        rw [getD_set_self (by omega), hnodes i hid]
        simp only [specSib, sibPos, he]
        rw [if_neg (by omega)]
      have hsum' : i + 1 + remaining = d := by omega
      have hpath' : (path + (1 <<< i) % 2 ^ 32) % 2 ^ 32 = specPath k (i + 1) := by
        rw [hpath]
        simp only [specPath]
        rw [if_neg (by omega)]
      have hlen2 : (sibs.set i ((nodes.getD i []).getD (k >>> i + 1) [])).length = d := by
        rw [List.length_set]; exact hlen
      have hpres' : ∀ j, j < i + 1 →
          (sibs.set i ((nodes.getD i []).getD (k >>> i + 1) [])).getD j []
            = specSib hfx cfx leaves j k := by
        intro j hj
        rcases eq_or_ne j i with hje | hje
        · rw [hje]; exact hsibval
        · rw [getD_set_ne (by omega)]; exact hpres j (by omega)
      obtain ⟨sibs', hrec, hlen', hpt'⟩ :=
        proofLoop_spec hnodes remaining (i + 1) ((path + (1 <<< i) % 2 ^ 32) % 2 ^ 32)
          (sibs.set i ((nodes.getD i []).getD (k >>> i + 1) [])) hsum' hpath' hlen2 hpres'
      rw [hshift]
      exact ⟨sibs', hrec, hlen', hpt'⟩
    · have ho : (k >>> i) % 2 = 1 := Nat.odd_iff.mp hodd
      rw [if_pos ho]
      have hsibval : (sibs.set i ((nodes.getD i []).getD (k >>> i - 1) [])).getD i []
          = specSib hfx cfx leaves i k := by
        rw [getD_set_self (by omega), hnodes i hid]
        simp only [specSib, sibPos, ho]
        simp
      have hsum' : i + 1 + remaining = d := by omega
      have hpath' : path = specPath k (i + 1) := by
        rw [hpath]
        simp only [specPath]
        rw [if_pos ho]
      have hlen2 : (sibs.set i ((nodes.getD i []).getD (k >>> i - 1) [])).length = d := by
        rw [List.length_set]; exact hlen
      have hpres' : ∀ j, j < i + 1 →
          (sibs.set i ((nodes.getD i []).getD (k >>> i - 1) [])).getD j []
            = specSib hfx cfx leaves j k := by
        intro j hj
        rcases eq_or_ne j i with hje | hje
        · rw [hje]; exact hsibval
        · rw [getD_set_ne (by omega)]; exact hpres j (by omega)
      obtain ⟨sibs', hrec, hlen', hpt'⟩ :=
        proofLoop_spec hnodes remaining (i + 1) path
          (sibs.set i ((nodes.getD i []).getD (k >>> i - 1) [])) hsum' hpath' hlen2 hpres'
      rw [hshift]
      exact ⟨sibs', hrec, hlen', hpt'⟩

lemma specProofK_sib_length (hfx : TypeHashFunc) (cfx : TypeConcatFunc)
    (leaves : List Bytes) (d k : Nat) :
    (specProofK hfx cfx leaves d k).Siblings.length = d := by
  simp [specProofK]

lemma specProofK_sib_getD {hfx : TypeHashFunc} {cfx : TypeConcatFunc}
    {leaves : List Bytes} {d i : Nat} (hi : i < d) (k : Nat) :
    (specProofK hfx cfx leaves d k).Siblings.getD i [] = specSib hfx cfx leaves i k := by
  simp only [specProofK]
  rw [getD_eq_getElem (by simpa using hi)]
  simp

lemma Proof_spec {m : MerkleTree} {leaves : List Bytes}
    (hmv : m.Leaves = leaves)
    (hmode : m.config.Mode = ModeTreeBuild ∨ m.config.Mode = ModeProofGenAndTreeBuild)
    (hmap : m.leafMap = mapGen leaves)
    (hnodes : ∀ s, s < m.Depth → m.nodes.getD s [] = okLvl m.hashF m.concatF leaves s)
    {db : DataBlock} {leaf : Bytes} (hlf : leafFromBlock db m.config = .ok leaf)
    {idx : Nat} (hlook : mapLookup (mapGen leaves) leaf = some idx) :
    m.Proof db = .ok (specProofK m.hashF m.concatF leaves m.Depth idx) := by
  simp only [MerkleTree.Proof]
  rw [if_neg (by
    rcases hmode with h | h
    · intro hc; exact hc.1 h
    · intro hc; exact hc.2 h)]
  rw [hlf]
  dsimp only
  rw [hmap, hlook]
  dsimp only
  obtain ⟨sibs', hrec, hlen', hpt'⟩ :=
    proofLoop_spec (k := idx) hnodes m.Depth 0 0 (List.replicate m.Depth [])
      (by omega) rfl (by simp) (fun j hj => by omega)
  rw [Nat.shiftRight_zero] at hrec
  rw [hrec]
  dsimp only
  have hlen2 : (specProofK m.hashF m.concatF leaves m.Depth idx).Siblings.length = m.Depth :=
    specProofK_sib_length _ _ _ _ _
  have hsibs : sibs' = (specProofK m.hashF m.concatF leaves m.Depth idx).Siblings := by
    apply eq_of_getD ([] : Bytes)
    · rw [hlen', hlen2]
    · intro q hq
      rw [hlen'] at hq
      rw [hpt' q hq, specProofK_sib_getD hq]
  rw [hsibs]
  rfl

/-! ## Proof recording over retained levels (`ModeProofGenAndTreeBuild`) -/

lemma updateProofsLevels_seq {hfx : TypeHashFunc} {cfx : TypeConcatFunc}
    {leaves : List Bytes} {depth : Nat} {Lfin : List Bytes}
    (hfin : specLevel hfx cfx leaves (depth - 1) = .ok Lfin) (hn : 0 < leaves.length)
    (S : Nat) :
    ∀ (ls : List (List Bytes)) (i : Nat) (proofs : List Proof),
      i + ls.length = depth →
      (∀ j, j < ls.length → ls.getD j [] = okLvl hfx cfx leaves (i + j)) →
      proofs.length = leaves.length →
      (∀ k, k < leaves.length → proofs[k]? = some (specProofK hfx cfx leaves i k)) →
      (updateProofsLevels proofs ls i false S).length = leaves.length ∧
      ∀ k, k < leaves.length →
        (updateProofsLevels proofs ls i false S)[k]? =
          some (specProofK hfx cfx leaves depth k)
  | [], i, proofs => by
    intro hsum hpt hplen hppt
    have hid : i = depth := by simpa using hsum
    subst hid
    exact ⟨hplen, hppt⟩
  | L :: rest, i, proofs => by
    intro hsum hpt hplen hppt
    obtain ⟨Li, hLi⟩ := specLevel_ok_of_le (t := depth - 1) i
      (by simp only [List.length_cons] at hsum; omega) hfin
    have hL : L = okLvl hfx cfx leaves i := by
      have := hpt 0 (by simp)
      simpa using this
    have hLlen : L.length = levLen leaves.length i := by
      rw [hL]; exact okLvl_length hLi
    have hup_len : (updateProofs proofs L L.length i).length = leaves.length := by
      rw [updateProofs_length]; exact hplen
    have hup : ∀ k, k < leaves.length →
        (updateProofs proofs L L.length i)[k]? =
          some (specProofK hfx cfx leaves (i + 1) k) := by
      intro k hk
      rw [updateProofs_getElem? _ _ _ _ (by omega)]
      have hcov : coverIdx i k < L.length := by
        rw [hLlen]
        exact coverIdx_lt hk (Or.inl le_rfl)
      rw [if_pos hcov, hppt k hk]
      simp only [Option.map_some']
      congr 1
      apply stepUpd_spec hLi _ hk
      intro q hq
      rw [hL, okLvl_eq hLi]
    simp only [updateProofsLevels, Bool.false_eq_true, if_false]
    exact updateProofsLevels_seq hfin hn S rest (i + 1) (updateProofs proofs L L.length i)
      (by simp only [List.length_cons] at hsum; omega)
      (by
        intro j hj
        have := hpt (j + 1) (by simp only [List.length_cons]; omega)
        simp only [List.getD_cons_succ] at this
        rw [this]
        congr 1
        omega)
      hup_len hup

lemma New_mode2_seq {cfg0 : Config} {blocks : List DataBlock} {numCPU : Nat}
    (h2 : 2 ≤ blocks.length)
    (hpar : cfg0.RunInParallel = false) (hmode : cfg0.Mode = ModeProofGenAndTreeBuild)
    {leaves : List Bytes}
    (hlg : leafGen blocks (resolveConfig cfg0 numCPU) = .ok leaves)
    {hf : TypeHashFunc} {cf : TypeConcatFunc}
    (hhf : (resolveConfig cfg0 numCPU).HashFunc = some hf)
    (hcf : (resolveConfig cfg0 numCPU).concatFunc = some cf)
    {root : Bytes}
    (hroot : specRoot hf cf leaves (bitsLen (blocks.length - 1)) = .ok root) :
    ∃ m, New (some cfg0) blocks numCPU = (some m, none) ∧
      m.config = resolveConfig cfg0 numCPU ∧
      m.Leaves = leaves ∧ m.NumLeaves = blocks.length ∧
      m.Depth = bitsLen (blocks.length - 1) ∧ m.Root = root ∧
      m.leafMap = mapGen leaves ∧
      m.nodes.length = bitsLen (blocks.length - 1) ∧
      (∀ s, s < bitsLen (blocks.length - 1) →
        m.nodes.getD s [] = okLvl hf cf leaves s) ∧
      m.Proofs.length = blocks.length ∧
      ∀ k, k < blocks.length →
        m.Proofs[k]? =
          some (specProofK hf cf leaves (bitsLen (blocks.length - 1)) k) := by
  obtain ⟨hllen, _⟩ := leafGen_ok hlg
  obtain ⟨Lfin, hfin, _⟩ := specRoot_ok hroot
  set rc := resolveConfig cfg0 numCPU with hrc
  set mtr : MerkleTree :=
    { config := rc, Leaves := leaves, NumLeaves := blocks.length,
      Depth := bitsLen (blocks.length - 1) } with hmtr
  have hml : mtr.Leaves = leaves := rfl
  have hmhf : mtr.hashF = hf := by
    rw [MerkleTree.hashF]
    show rc.HashFunc.getD DefaultHashFunc = hf
    rw [hhf]; rfl
  have hmcf : mtr.concatF = cf := by
    rw [MerkleTree.concatF]
    show rc.concatFunc.getD concatHash = cf
    rw [hcf]; rfl
  obtain ⟨ns, htb, hnslen, hnspt⟩ :=
    treeBuild_spec (m := mtr)
      (by show rc.RunInParallel = false; rw [resolveConfig_RunInParallel]; exact hpar)
      (by show blocks.length = leaves.length; omega)
      (by show 2 ≤ leaves.length; omega)
      (by show 1 ≤ bitsLen (blocks.length - 1); exact bitsLen_depth_pos h2)
      (by rw [hmhf, hmcf]; exact hroot)
  set m2 : MerkleTree := { mtr with leafMap := mapGen leaves, nodes := ns, Root := root }
    with hm2
  have hnspt' : ∀ s, s < bitsLen (blocks.length - 1) →
      ns.getD s [] = okLvl hf cf leaves s := by
    intro s hs
    have := hnspt s hs
    rw [hmhf, hmcf] at this
    exact this
  have hnslen' : ns.length = bitsLen (blocks.length - 1) := hnslen
  obtain ⟨huplen, huppt⟩ :=
    updateProofsLevels_seq hfin (by omega) rc.NumRoutines.toNat ns 0
      (initProofs blocks.length)
      (by omega)
      (by
        intro j hj
        rw [hnspt' j (by omega)]
        congr 1
        omega)
      (by rw [initProofs_length]; omega)
      (by
        intro k hk
        rw [initProofs_getElem? (by omega), specProofK_zero])
  have hNew : New (some cfg0) blocks numCPU =
      (some { m2 with
        Proofs := updateProofsLevels (initProofs blocks.length) ns 0 false
          rc.NumRoutines.toNat }, none) := by
    simp only [New]
    rw [if_neg (by omega)]
    have hgd : (some cfg0).getD {} = cfg0 := rfl
    rw [hgd, ← hrc]
    have hrp : rc.RunInParallel = false := by
      rw [hrc, resolveConfig_RunInParallel]; exact hpar
    rw [hrp]
    simp only [Bool.false_eq_true, if_false]
    rw [hlg]
    dsimp only
    have hmd : rc.Mode = ModeProofGenAndTreeBuild := by
      rw [hrc, resolveConfig_Mode]; exact hmode
    simp only [hmd, if_true]
    rw [if_neg (by decide : ¬ (ModeProofGenAndTreeBuild = ModeProofGen)),
      if_neg (by decide : ¬ (ModeProofGenAndTreeBuild = ModeTreeBuild))]
    rw [← hmtr, htb]
    dsimp only
    rw [hrp]
  refine ⟨_, hNew, rfl, rfl, rfl, rfl, rfl, rfl, hnslen, hnspt', ?_, ?_⟩
  · show (updateProofsLevels (initProofs blocks.length) ns 0 false
      rc.NumRoutines.toNat).length = blocks.length
    omega
  · intro k hk
    show (updateProofsLevels (initProofs blocks.length) ns 0 false
      rc.NumRoutines.toNat)[k]? = _
    rw [huppt k (by omega)]

/-! ## C3: the on-demand proof against the recorded proofs -/

/-- Three blocks, the first two with equal digests. -/
def blocksC3 : List DataBlock :=
  [{ serialize := .ok [10] }, { serialize := .ok [10] }, { serialize := .ok [20] }]

/-- The tree built over `blocksC3` in `ModeProofGenAndTreeBuild`. -/
def treeC3 : MerkleTree :=
  (New (some { Mode := ModeProofGenAndTreeBuild }) blocksC3 1).1.getD { config := {} }

/-- C3 counterexample: with duplicate digests, the on-demand proof for
the first block is the recorded proof of leaf 1 (the last equal leaf),
which differs from the recorded proof of the block's own leaf 0. -/
theorem C3_counterexample :
    treeC3.Proof { serialize := .ok [10] } = .ok (treeC3.Proofs.getD 1 {}) ∧
    treeC3.Proofs.getD 0 {} ≠ treeC3.Proofs.getD 1 {} := by
  refine ⟨rfl, by decide⟩

/-- The OpenZeppelin-style configuration: sorted sibling pairs, nothing
else customised. -/
def cfgSort : Config := { SortSiblingPairs := true }

/-- Blocks whose leaf digests are out of order, so that sorting matters. -/
def blocksBA : List DataBlock := [{ serialize := .ok [2] }, { serialize := .ok [1] }]

/-- The tree built over `blocksBA` with `cfgSort`. -/
def treeBA : MerkleTree := (New (some cfgSort) blocksBA 1).1.getD { config := {} }

/-- C1 counterexample: construction under `SortSiblingPairs` succeeds,
but verifying the first block's own proof against the tree's root with
the *same configuration the caller passed to `New`* returns `false`:
package `Verify` defaults the concatenation function to the unsorted one
and never reads `SortSiblingPairs`. -/
theorem C1_counterexample :
    (New (some cfgSort) blocksBA 1).2 = none ∧
    Verify (some { serialize := .ok [2] }) (some (treeBA.Proofs.getD 0 {}))
      treeBA.Root (some cfgSort) = .ok false := ⟨rfl, rfl⟩

/-! ## The worker pool: identity-slot filling (parallel leaf generation) -/

lemma firstErr_none : ∀ {l : List (Option String)}, (∀ e ∈ l, e = none) → firstErr l = none
  | [], _ => rfl
  | none :: rest, h => by
    simp only [firstErr]
    exact firstErr_none (fun e he => h e (by simp [he]))
  | some e :: rest, h => by
    have := h (some e) (by simp)
    simp at this

lemma firstErr_all_none : ∀ {l : List (Option String)}, firstErr l = none → ∀ e ∈ l, e = none
  | [], _ => by simp
  | none :: rest, h => by
    intro e he
    rcases List.mem_cons.mp he with h1 | h1
    · exact h1
    · exact firstErr_all_none (by simpa [firstErr] using h) e h1
  | some e2 :: rest, h => by
    simp [firstErr] at h

lemma workerFillId_ok {f : Nat → Except String Bytes} {stride bound : Nat}
    (hst : 0 < stride) {F : Nat → Bytes} (hok : ∀ j, j < bound → f j = .ok (F j)) :
    ∀ (fuel i : Nat) (dst : List Bytes), bound ≤ i + fuel → bound ≤ dst.length →
    ∃ dst', workerFill f (fun j => j) stride bound dst i fuel = (dst', none) ∧
      dst'.length = dst.length ∧
      (∀ t, i + stride * t < bound → dst'.getD (i + stride * t) [] = F (i + stride * t)) ∧
      (∀ q, (∀ t, i + stride * t < bound → q ≠ i + stride * t) →
        dst'.getD q [] = dst.getD q [])
  | 0, i, dst => by
    intro hfuel hdl
    refine ⟨dst, rfl, rfl, ?_, fun q _ => rfl⟩
    intro t ht
    have hx : 0 ≤ stride * t := Nat.zero_le _
    omega
  | fuel + 1, i, dst => by
    intro hfuel hdl
    simp only [workerFill]
    rcases Nat.lt_or_ge i bound with hlt | hge
    · rw [if_pos hlt, hok i hlt]
      obtain ⟨dst', hrun, hlen, hcov, hskip⟩ :=
        workerFillId_ok hst hok fuel (i + stride) (dst.set i (F i)) (by omega)
          (by rw [List.length_set]; omega)
      refine ⟨dst', hrun, by rw [hlen, List.length_set], ?_, ?_⟩
      · intro t ht
        cases t with
        | zero =>
          simp only [Nat.mul_zero, Nat.add_zero]
          rw [hskip i (by
            intro t' ht' hq
            have hx : 0 ≤ stride * t' := Nat.zero_le _
            omega)]
          rw [getD_set_self (by omega)]
        | succ t =>
          have he : i + stride * (t + 1) = i + stride + stride * t := by
            rw [Nat.mul_succ]; omega
          rw [he]
          rw [he] at ht
          exact hcov t ht
      · intro q hq
        have hqi : q ≠ i := by
          have := hq 0 (by simpa using hlt)
          simpa using this
        rw [hskip q (by
          intro t ht hqe
          apply hq (t + 1)
          · rw [Nat.mul_succ]; omega
          · rw [Nat.mul_succ]; omega)]
        rw [getD_set_ne (fun he => hqi he.symm)]
    · rw [if_neg (by omega)]
      refine ⟨dst, rfl, rfl, ?_, fun q _ => rfl⟩
      intro t ht
      have hx : 0 ≤ stride * t := Nat.zero_le _
      omega

lemma workerFillId_skip {f : Nat → Except String Bytes} {stride bound : Nat}
    (hst : 0 < stride) :
    ∀ (fuel i : Nat) (dst : List Bytes) (q : Nat),
      (∀ t, q ≠ i + stride * t) →
      ((workerFill f (fun j => j) stride bound dst i fuel).1).getD q [] = dst.getD q []
  | 0, i, dst, q => by
    intro hq
    rfl
  | fuel + 1, i, dst, q => by
    intro hq
    simp only [workerFill]
    rcases Nat.lt_or_ge i bound with hlt | hge
    · rw [if_pos hlt]
      cases hfi : f i with
      | error e => rfl
      | ok v =>
        have hqi : q ≠ i := by
          have := hq 0
          simpa using this
        show (workerFill f (fun j => j) stride bound (dst.set i v) (i + stride) fuel).1.getD
          q [] = dst.getD q []
        rw [workerFillId_skip hst fuel (i + stride) (dst.set i v) q (by
          intro t
          have := hq (t + 1)
          rw [Nat.mul_succ] at this
          omega)]
        rw [getD_set_ne (fun he => hqi he.symm)]
    · rw [if_neg (by omega)]

lemma workerFillId_none_pt {f : Nat → Except String Bytes} {stride bound : Nat}
    (hst : 0 < stride) :
    ∀ (fuel i : Nat) (dst dst' : List Bytes),
      bound ≤ i + fuel → bound ≤ dst.length →
      workerFill f (fun j => j) stride bound dst i fuel = (dst', none) →
      (∀ t, i + stride * t < bound →
        f (i + stride * t) = .ok (dst'.getD (i + stride * t) [])) ∧
      dst'.length = dst.length ∧
      (∀ q, (∀ t, i + stride * t < bound → q ≠ i + stride * t) →
        dst'.getD q [] = dst.getD q [])
  | 0, i, dst, dst' => by
    intro hfuel hdl hrun
    injection hrun with h1 _
    subst h1
    refine ⟨?_, rfl, fun q _ => rfl⟩
    intro t ht
    have hx : 0 ≤ stride * t := Nat.zero_le _
    omega
  | fuel + 1, i, dst, dst' => by
    intro hfuel hdl hrun
    simp only [workerFill] at hrun
    rcases Nat.lt_or_ge i bound with hlt | hge
    · rw [if_pos hlt] at hrun
      cases hfi : f i with
      | error e =>
        rw [hfi] at hrun
        have hrun' : ((dst, some e) : List Bytes × Option String) = (dst', none) := hrun
        injection hrun' with _ h2
        exact absurd h2 (by simp)
      | ok v =>
        rw [hfi] at hrun
        have hrun' : workerFill f (fun j => j) stride bound (dst.set i v) (i + stride) fuel
            = (dst', none) := hrun
        obtain ⟨hpt, hlen, hpres⟩ :=
          workerFillId_none_pt hst fuel (i + stride) (dst.set i v) dst' (by omega)
            (by rw [List.length_set]; omega) hrun'
        have hslot : dst'.getD i [] = v := by
          have h1 : dst' = (workerFill f (fun j => j) stride bound (dst.set i v)
              (i + stride) fuel).1 := by rw [hrun']
          rw [h1, workerFillId_skip hst fuel (i + stride) (dst.set i v) i (by
            intro t
            have hx : 0 ≤ stride * t := Nat.zero_le _
            omega)]
          rw [getD_set_self (by omega)]
        refine ⟨?_, by rw [hlen, List.length_set], ?_⟩
        · intro t ht
          cases t with
          | zero =>
            simp only [Nat.mul_zero, Nat.add_zero]
            rw [hfi, hslot]
          | succ t =>
            have he : i + stride * (t + 1) = i + stride + stride * t := by
              rw [Nat.mul_succ]; omega
            rw [he]
            rw [he] at ht
            exact hpt t ht
        · intro q hq
          have hqi : q ≠ i := by
            have := hq 0 (by simpa using hlt)
            simpa using this
          rw [hpres q (by
            intro t htb
            have := hq (t + 1) (by rw [Nat.mul_succ]; omega)
            rw [Nat.mul_succ] at this
            omega)]
          rw [getD_set_ne (fun he => hqi he.symm)]
    · rw [if_neg (by omega)] at hrun
      injection hrun with h1 _
      subst h1
      refine ⟨?_, rfl, fun q _ => rfl⟩
      intro t ht
      have hx : 0 ≤ stride * t := Nat.zero_le _
      omega

lemma runWorkersId_ok {f : Nat → Except String Bytes} {stride bound : Nat} (hst : 0 < stride)
    {F : Nat → Bytes} (hok : ∀ j, j < bound → f j = .ok (F j)) :
    ∀ (ws : List Nat) (dst : List Bytes), bound ≤ dst.length →
    ∃ dst', runWorkers f (fun j => j) stride bound dst ws = (dst', ws.map fun _ => none) ∧
      dst'.length = dst.length ∧
      (∀ w ∈ ws, ∀ t, w + stride * t < bound →
        dst'.getD (w + stride * t) [] = F (w + stride * t)) ∧
      (∀ q, (∀ w ∈ ws, ∀ t, w + stride * t < bound → q ≠ w + stride * t) →
        dst'.getD q [] = dst.getD q [])
  | [], dst => fun hdl => ⟨dst, rfl, rfl, by simp, fun q _ => rfl⟩
  | w :: rest, dst => by
    intro hdl
    obtain ⟨dst1, hrun1, hlen1, hcov1, hskip1⟩ :=
      workerFillId_ok hst hok (bound + 1) w dst (by omega) hdl
    obtain ⟨dst2, hrun2, hlen2, hcov2, hskip2⟩ :=
      runWorkersId_ok hst hok rest dst1 (by omega)
    refine ⟨dst2, ?_, by omega, ?_, ?_⟩
    · simp only [runWorkers]
      rw [hrun1]
      dsimp only
      rw [hrun2]
      rfl
    · intro w' hw' t ht
      rcases List.mem_cons.mp hw' with hwe | hwr
      · subst hwe
        by_cases hhit : ∃ w2 ∈ rest, ∃ t2, w2 + stride * t2 < bound ∧
            w' + stride * t = w2 + stride * t2
        · obtain ⟨w2, hw2, t2, hlt2, he2⟩ := hhit
          rw [he2]
          exact hcov2 w2 hw2 t2 hlt2
        · rw [hskip2 _ (by
            intro w2 hw2 t2 hlt2 hne
            exact hhit ⟨w2, hw2, t2, hlt2, hne⟩)]
          exact hcov1 t ht
      · exact hcov2 w' hwr t ht
    · intro q hq
      rw [hskip2 q (by
        intro w2 hw2 t2 hlt2
        exact hq w2 (by simp [hw2]) t2 hlt2)]
      exact hskip1 q (fun t ht => hq w (by simp) t ht)

lemma runWorkersId_none_pt {f : Nat → Except String Bytes} {stride bound : Nat}
    (hst : 0 < stride) :
    ∀ (ws : List Nat) (dst dst' : List Bytes) (errs : List (Option String)),
      bound ≤ dst.length →
      runWorkers f (fun j => j) stride bound dst ws = (dst', errs) →
      (∀ e ∈ errs, e = none) →
      ws.Nodup → (∀ w ∈ ws, w < stride) →
      dst'.length = dst.length ∧
      (∀ w ∈ ws, ∀ t, w + stride * t < bound →
        f (w + stride * t) = .ok (dst'.getD (w + stride * t) [])) ∧
      (∀ q, (∀ w ∈ ws, ∀ t, w + stride * t < bound → q ≠ w + stride * t) →
        dst'.getD q [] = dst.getD q [])
  | [], dst, dst', errs => by
    intro hdl hrun herrs hnd hbd
    simp only [runWorkers] at hrun
    injection hrun with h1 h2
    subst h1
    exact ⟨rfl, by simp, fun q _ => rfl⟩
  | w :: rest, dst, dst', errs => by
    intro hdl hrun herrs hnd hbd
    simp only [runWorkers] at hrun
    rcases hw1 : workerFill f (fun j => j) stride bound dst w (bound + 1) with ⟨dst1, e1⟩
    rw [hw1] at hrun
    rcases hw2 : runWorkers f (fun j => j) stride bound dst1 rest with ⟨dst2, es2⟩
    rw [hw2] at hrun
    have hrun' : ((dst2, e1 :: es2) : List Bytes × List (Option String)) = (dst', errs) := hrun
    injection hrun' with h1 h2
    rw [← h1]
    subst h2
    have he1 : e1 = none := herrs e1 (by simp)
    subst he1
    obtain ⟨hpt1, hlen1, hpres1⟩ :=
      workerFillId_none_pt hst (bound + 1) w dst dst1 (by omega) hdl hw1
    obtain ⟨hlen2, hpt2, hpres2⟩ :=
      runWorkersId_none_pt hst rest dst1 dst2 es2 (by omega) hw2
        (fun e he => herrs e (by simp [he])) (List.nodup_cons.mp hnd).2
        (fun w2 hw2m => hbd w2 (by simp [hw2m]))
    refine ⟨by omega, ?_, ?_⟩
    · intro w' hw' t ht
      rcases List.mem_cons.mp hw' with hwe | hwr
      · subst hwe
        have hql : dst2.getD (w' + stride * t) [] = dst1.getD (w' + stride * t) [] := by
          apply hpres2
          intro w2 hw2m t2 hlt2 hne
          have hmod1 : (w' + stride * t) % stride = w' := by
            rw [Nat.add_mul_mod_self_left, Nat.mod_eq_of_lt (hbd w' (by simp))]
          have hmod2 : (w2 + stride * t2) % stride = w2 := by
            rw [Nat.add_mul_mod_self_left,
              Nat.mod_eq_of_lt (hbd w2 (by simp [hw2m]))]
          have hne2 : w' = w2 := by rw [← hmod1, ← hmod2, hne]
          subst hne2
          exact (List.nodup_cons.mp hnd).1 hw2m
        rw [hql]
        exact hpt1 t ht
      · exact hpt2 w' hwr t ht
    · intro q hq
      rw [hpres2 q (fun w2 hw2m t2 hlt2 => hq w2 (by simp [hw2m]) t2 hlt2)]
      exact hpres1 q (fun t htb => hq w (by simp) t htb)

lemma leafGenParallel_of_seq {blocks : List DataBlock} {cfg : Config} {S : Nat} (hS : 1 ≤ S)
    {leaves : List Bytes} (hlg : leafGen blocks cfg = .ok leaves) :
    leafGenParallel blocks cfg S = .ok leaves := by
  obtain ⟨hlen, hpt⟩ := leafGen_ok hlg
  have hok : ∀ j, j < blocks.length →
      leafFromBlock (blocks.getD j { serialize := .ok [] }) cfg = .ok (leaves.getD j []) :=
    hpt
  rcases Nat.eq_zero_or_pos blocks.length with hn0 | hnpos
  · have hb : blocks = [] := List.length_eq_zero.mp hn0
    subst hb
    have hl : leaves = [] := List.length_eq_zero.mp (by omega)
    subst hl
    simp [leafGenParallel, runWorkers, firstErr]
  · have hRpos : 0 < min S blocks.length := by omega
    obtain ⟨dst', hrun, hlen', hcov, _⟩ :=
      runWorkersId_ok hRpos hok
        (List.range (min S blocks.length)) (List.replicate blocks.length []) (by simp)
    have hdst : dst' = leaves := by
      apply eq_of_getD ([] : Bytes)
      · rw [hlen']; simp [hlen]
      · intro q hq
        rw [hlen', List.length_replicate] at hq
        have hq2 : q % min S blocks.length +
            min S blocks.length * (q / min S blocks.length) = q :=
          Nat.mod_add_div _ _
        have hc := hcov (q % min S blocks.length)
          (List.mem_range.mpr (Nat.mod_lt _ hRpos))
          (q / min S blocks.length) (by rw [hq2]; exact hq)
        rw [hq2] at hc
        exact hc
    simp only [leafGenParallel]
    rw [hrun]
    dsimp only
    rw [firstErr_none (by simp)]
    rw [hdst]

lemma leafGenParallel_pt {blocks : List DataBlock} {cfg : Config} {S : Nat} (hS : 1 ≤ S)
    {leaves : List Bytes} (h : leafGenParallel blocks cfg S = .ok leaves) :
    leaves.length = blocks.length ∧
    ∀ k, k < blocks.length →
      leafFromBlock (blocks.getD k defaultBlock) cfg = .ok (leaves.getD k []) := by
  rcases Nat.eq_zero_or_pos blocks.length with hn0 | hnpos
  · have hb : blocks = [] := List.length_eq_zero.mp hn0
    subst hb
    simp only [leafGenParallel, List.length_nil, Nat.min_zero, List.range_zero,
      List.replicate, runWorkers, firstErr] at h
    have hl : leaves = [] := by
      injection h with h'
      exact h'.symm
    subst hl
    exact ⟨rfl, fun k hk => by simp at hk⟩
  · have hRpos : 0 < min S blocks.length := by omega
    simp only [leafGenParallel] at h
    rcases hrw : runWorkers
        (fun i => leafFromBlock (blocks.getD i { serialize := .ok [] }) cfg)
        (fun i => i) (min S blocks.length) blocks.length
        (List.replicate blocks.length []) (List.range (min S blocks.length))
      with ⟨dst', errs⟩
    rw [hrw] at h
    dsimp only at h
    cases hfe : firstErr errs with
    | some e => rw [hfe] at h; exact absurd h (by simp)
    | none =>
      rw [hfe] at h
      have hd : dst' = leaves := by
        injection h with h'
      subst hd
      obtain ⟨hlen2, hpt2, _⟩ :=
        runWorkersId_none_pt hRpos (List.range (min S blocks.length))
          (List.replicate blocks.length []) dst' errs (by simp) hrw
          (firstErr_all_none hfe) (List.nodup_range _) (fun w hw => List.mem_range.mp hw)
      refine ⟨by rw [hlen2]; simp, ?_⟩
      intro k hk
      have hk2 : k % min S blocks.length +
          min S blocks.length * (k / min S blocks.length) = k :=
        Nat.mod_add_div _ _
      have hc := hpt2 (k % min S blocks.length)
        (List.mem_range.mpr (Nat.mod_lt _ hRpos))
        (k / min S blocks.length) (by rw [hk2]; exact hk)
      rw [hk2] at hc
      exact hc

/-! ## C10: the public leaf sequence is never touched by balancing -/

/-- C10: in every construction mode and under either parallelism flag,
any tree `New` returns (even together with an error) has `NumLeaves`
equal to the number of input blocks and a `Leaves` list of exactly that
length holding the leaf digests in input order — the balancing duplicate
appended by `fixOdd` only ever lives in the freshly copied working
buffers (or `nodes[0]`), never in `Leaves`. -/
theorem C10_leaves_intact (config : Option Config) (blocks : List DataBlock) (numCPU : Nat)
    (hcpu : 1 ≤ numCPU) {m : MerkleTree} {err : Option String}
    (h : New config blocks numCPU = (some m, err)) :
    m.NumLeaves = blocks.length ∧ m.Leaves.length = blocks.length ∧
    ∀ k, k < blocks.length →
      leafFromBlock (blocks.getD k defaultBlock) (resolveConfig (config.getD {}) numCPU)
        = .ok (m.Leaves.getD k []) := by
  simp only [New] at h
  by_cases hlen : blocks.length ≤ 1
  · rw [if_pos hlen] at h
    exact absurd h (by simp)
  · rw [if_neg hlen] at h
    split at h
    · exact absurd h (by simp)
    · rename_i leaves hleaves
      have hpt : leaves.length = blocks.length ∧
          ∀ k, k < blocks.length →
            leafFromBlock (blocks.getD k defaultBlock) (resolveConfig (config.getD {}) numCPU)
              = .ok (leaves.getD k []) := by
        by_cases hrp : (resolveConfig (config.getD {}) numCPU).RunInParallel = true
        · rw [if_pos hrp] at hleaves
          have hS : 1 ≤ (resolveConfig (config.getD {}) numCPU).NumRoutines.toNat := by
            rw [resolveConfig_NumRoutines]
            rw [resolveConfig_RunInParallel] at hrp
            by_cases hnr : (config.getD {}).NumRoutines ≤ 0
            · rw [if_pos ⟨hrp, hnr⟩]
              omega
            · rw [if_neg (fun hc => hnr hc.2)]
              omega
          exact leafGenParallel_pt hS hleaves
        · rw [if_neg hrp] at hleaves
          exact leafGen_ok hleaves
      have hm : m.NumLeaves = blocks.length ∧ m.Leaves = leaves := by
        split at h
        · -- ModeProofGen
          obtain ⟨ps, rt, hfr⟩ := proofGen_frame
            { config := resolveConfig (config.getD {}) numCPU, Leaves := leaves,
              NumLeaves := blocks.length, Depth := bitsLen (blocks.length - 1) }
          rw [Prod.mk.injEq] at h
          obtain ⟨h1, _⟩ := h
          injection h1 with h1
          rw [← h1, hfr]
          exact ⟨rfl, rfl⟩
        · split at h
          · -- ModeTreeBuild
            obtain ⟨mp, ns, rt, hfr⟩ := treeBuild_frame
              { config := resolveConfig (config.getD {}) numCPU, Leaves := leaves,
                NumLeaves := blocks.length, Depth := bitsLen (blocks.length - 1) }
            rw [Prod.mk.injEq] at h
            obtain ⟨h1, _⟩ := h
            injection h1 with h1
            rw [← h1, hfr]
            exact ⟨rfl, rfl⟩
          · split at h
            · -- ModeProofGenAndTreeBuild
              split at h
              · rename_i m2 e2 heq
                obtain ⟨mp, ns, rt, hfr⟩ := treeBuild_frame
                  { config := resolveConfig (config.getD {}) numCPU, Leaves := leaves,
                    NumLeaves := blocks.length, Depth := bitsLen (blocks.length - 1) }
                rw [heq] at hfr
                have hm2 : m2 =
                    { config := resolveConfig (config.getD {}) numCPU,
                      Leaves := leaves, NumLeaves := blocks.length,
                      Depth := bitsLen (blocks.length - 1), leafMap := mp, nodes := ns,
                      Root := rt } := hfr
                rw [Prod.mk.injEq] at h
                obtain ⟨h1, _⟩ := h
                injection h1 with h1
                rw [← h1, hm2]
                exact ⟨rfl, rfl⟩
              · rename_i m2 heq
                obtain ⟨mp, ns, rt, hfr⟩ := treeBuild_frame
                  { config := resolveConfig (config.getD {}) numCPU, Leaves := leaves,
                    NumLeaves := blocks.length, Depth := bitsLen (blocks.length - 1) }
                rw [heq] at hfr
                have hm2 : m2 =
                    { config := resolveConfig (config.getD {}) numCPU,
                      Leaves := leaves, NumLeaves := blocks.length,
                      Depth := bitsLen (blocks.length - 1), leafMap := mp, nodes := ns,
                      Root := rt } := hfr
                rw [Prod.mk.injEq] at h
                obtain ⟨h1, _⟩ := h
                injection h1 with h1
                rw [← h1, hm2]
                exact ⟨rfl, rfl⟩
            · exact absurd h (by simp)
      obtain ⟨hm1, hm2⟩ := hm
      obtain ⟨hp1, hp2⟩ := hpt
      exact ⟨hm1, by rw [hm2]; exact hp1, fun k hk => by rw [hm2]; exact hp2 k hk⟩

/-- C10 witness: two blocks on one CPU; the returned tree keeps both
leaves in order. -/
theorem C10_leaves_intact_witness :
    ((New (some {}) [{ serialize := .ok [3] }, { serialize := .ok [4] }] 1).1.getD
      { config := {} }).NumLeaves = 2 :=
  (@C10_leaves_intact (some {}) [{ serialize := .ok [3] }, { serialize := .ok [4] }] 1
    (by decide)
    ((New (some {}) [{ serialize := .ok [3] }, { serialize := .ok [4] }] 1).1.getD
      { config := {} })
    ((New (some {}) [{ serialize := .ok [3] }, { serialize := .ok [4] }] 1).2)
    rfl).1

/-! ## Strided half-slot workers: the parallel level-hashing loops -/

lemma workerFillHalf_ok {f : Nat → Except String Bytes} {S bound : Nat}
    (hS : 0 < S) (hbe : bound % 2 = 0) {F : Nat → Bytes}
    (hok : ∀ j, j < bound → j % 2 = 0 → f j = .ok (F j)) :
    ∀ (fuel i : Nat) (dst : List Bytes), i % 2 = 0 → bound ≤ i + fuel →
      bound / 2 ≤ dst.length →
    ∃ dst', workerFill f (fun j => j / 2) (2 * S) bound dst i fuel = (dst', none) ∧
      dst'.length = dst.length ∧
      (∀ t, i + 2 * S * t < bound →
        dst'.getD (i / 2 + S * t) [] = F (i + 2 * S * t)) ∧
      (∀ q, (∀ t, i + 2 * S * t < bound → q ≠ i / 2 + S * t) →
        dst'.getD q [] = dst.getD q [])
  | 0, i, dst => by
    intro hev hfuel hdl
    refine ⟨dst, rfl, rfl, ?_, fun q _ => rfl⟩
    intro t ht
    have hx : 0 ≤ 2 * S * t := Nat.zero_le _
    omega
  | fuel + 1, i, dst => by
    intro hev hfuel hdl
    simp only [workerFill]
    rcases Nat.lt_or_ge i bound with hlt | hge
    · rw [if_pos hlt, hok i hlt hev]
      obtain ⟨dst', hrun, hlen, hcov, hskip⟩ :=
        workerFillHalf_ok hS hbe hok fuel (i + 2 * S) (dst.set (i / 2) (F i))
          (by omega) (by omega) (by rw [List.length_set]; omega)
      refine ⟨dst', hrun, by rw [hlen, List.length_set], ?_, ?_⟩
      · intro t ht
        cases t with
        | zero =>
          simp only [Nat.mul_zero, Nat.add_zero]
          rw [hskip (i / 2) (by
            intro t' ht' hq
            have hx : 0 ≤ 2 * S * t' := Nat.zero_le _
            have hx2 : 2 * (S * t') = 2 * S * t' := by ring
            omega)]
          rw [getD_set_self (by omega)]
        | succ t =>
          have he : i + 2 * S * (t + 1) = i + 2 * S + 2 * S * t := by
            rw [Nat.mul_succ]; omega
          have he2 : i / 2 + S * (t + 1) = (i + 2 * S) / 2 + S * t := by
            rw [Nat.mul_succ]; omega
          rw [he2, he]
          rw [he] at ht
          exact hcov t ht
      · intro q hq
        have hqi : q ≠ i / 2 := by
          have := hq 0 (by simpa using hlt)
          simpa using this
        rw [hskip q (by
          intro t ht hqe
          apply hq (t + 1)
          · rw [Nat.mul_succ]; omega
          · rw [Nat.mul_succ]
            omega)]
        rw [getD_set_ne (fun he => hqi he.symm)]
    · rw [if_neg (by omega)]
      refine ⟨dst, rfl, rfl, ?_, fun q _ => rfl⟩
      intro t ht
      have hx : 0 ≤ 2 * S * t := Nat.zero_le _
      omega

lemma runWorkersHalf_ok {f : Nat → Except String Bytes} {S bound : Nat}
    (hS : 0 < S) (hbe : bound % 2 = 0) {F : Nat → Bytes}
    (hok : ∀ j, j < bound → j % 2 = 0 → f j = .ok (F j)) :
    ∀ (vs : List Nat) (dst : List Bytes), bound / 2 ≤ dst.length →
    ∃ dst', runWorkers f (fun j => j / 2) (2 * S) bound dst (vs.map (2 * ·)) =
        (dst', (vs.map (2 * ·)).map fun _ => none) ∧
      dst'.length = dst.length ∧
      (∀ w ∈ vs, ∀ t, 2 * w + 2 * S * t < bound →
        dst'.getD (w + S * t) [] = F (2 * w + 2 * S * t)) ∧
      (∀ q, (∀ w ∈ vs, ∀ t, 2 * w + 2 * S * t < bound → q ≠ w + S * t) →
        dst'.getD q [] = dst.getD q [])
  | [], dst => fun hdl => ⟨dst, rfl, rfl, by simp, fun q _ => rfl⟩
  | w :: rest, dst => by
    intro hdl
    obtain ⟨dst1, hrun1, hlen1, hcov1, hskip1⟩ :=
      workerFillHalf_ok hS hbe hok (bound + 1) (2 * w) dst (by omega) (by omega) hdl
    obtain ⟨dst2, hrun2, hlen2, hcov2, hskip2⟩ :=
      runWorkersHalf_ok hS hbe hok rest dst1 (by omega)
    have hw2 : 2 * w / 2 = w := by omega
    rw [hw2] at hcov1 hskip1
    refine ⟨dst2, ?_, by omega, ?_, ?_⟩
    · simp only [List.map_cons, runWorkers]
      rw [hrun1]
      dsimp only
      rw [hrun2]
    · intro w' hw' t ht
      rcases List.mem_cons.mp hw' with hwe | hwr
      · subst hwe
        by_cases hhit : ∃ w2 ∈ rest, ∃ t2, 2 * w2 + 2 * S * t2 < bound ∧
            w' + S * t = w2 + S * t2
        · obtain ⟨w2, hw2m, t2, hlt2, he2⟩ := hhit
          have hdb : 2 * w' + 2 * S * t = 2 * w2 + 2 * S * t2 := by
            have e1 : 2 * (S * t) = 2 * S * t := by ring
            have e2 : 2 * (S * t2) = 2 * S * t2 := by ring
            omega
          rw [he2, hdb]
          exact hcov2 w2 hw2m t2 hlt2
        · rw [hskip2 _ (by
            intro w2 hw2m t2 hlt2 hne
            exact hhit ⟨w2, hw2m, t2, hlt2, hne⟩)]
          exact hcov1 t ht
      · exact hcov2 w' hwr t ht
    · intro q hq
      rw [hskip2 q (by
        intro w2 hw2m t2 hlt2
        exact hq w2 (by simp [hw2m]) t2 hlt2)]
      exact hskip1 q (fun t ht => hq w (by simp) t ht)

/-! ## The strided proof-recording workers vs the sequential pass -/

lemma updateProofsStride_length (buf : List Bytes) (bufLen batch step stride : Nat) :
    ∀ (fuel i : Nat) (ps : List Proof),
      (updateProofsStride ps buf bufLen batch step stride i fuel).length = ps.length
  | 0, _, _ => rfl
  | fuel + 1, i, ps => by
    simp only [updateProofsStride]
    split
    · rw [updateProofsStride_length buf bufLen batch step stride fuel (i + stride)]
      exact updatePairProofs_length ps buf i batch step
    · rfl

lemma updateProofsStride_skip (buf : List Bytes) (bufLen step stride : Nat)
    (hst : 0 < stride) (hsev : stride % 2 = 0) {k : Nat} :
    ∀ (fuel i : Nat) (ps : List Proof), k < ps.length → i % 2 = 0 →
      (∀ t, i + stride * t < bufLen → i + stride * t ≠ coverIdx step k) →
      (updateProofsStride ps buf bufLen (1 <<< step) step stride i fuel)[k]? = ps[k]?
  | 0, i, ps => by intro hk _ _; rfl
  | fuel + 1, i, ps => by
    intro hk hev hne
    simp only [updateProofsStride]
    split
    · rename_i hlt
      have hk' : k < (updatePairProofs ps buf i (1 <<< step) step).length := by
        rw [updatePairProofs_length]; exact hk
      rw [updateProofsStride_skip buf bufLen step stride hst hsev fuel (i + stride) _ hk'
        (by omega) (by
          intro t ht
          have := hne (t + 1)
          rw [Nat.mul_succ] at this
          have h1 := this (by omega)
          omega)]
      exact updatePairProofs_skip ps buf step hk hev (by
        have := hne 0 (by simpa using hlt)
        simpa using this)
    · rfl

lemma updateProofsStride_cover (buf : List Bytes) (bufLen step stride : Nat)
    (hst : 0 < stride) (hsev : stride % 2 = 0) {k : Nat} :
    ∀ (fuel i : Nat) (ps : List Proof), k < ps.length → i % 2 = 0 →
      bufLen ≤ i + stride * fuel →
      (∃ T, i + stride * T = coverIdx step k) → coverIdx step k < bufLen →
      (updateProofsStride ps buf bufLen (1 <<< step) step stride i fuel)[k]? =
        (ps[k]?).map (stepUpd buf step k)
  | 0, i, ps => by
    intro hk hev hfuel hex hcb
    exfalso
    obtain ⟨T, hT⟩ := hex
    have hx : 0 ≤ stride * T := Nat.zero_le _
    omega
  | fuel + 1, i, ps => by
    intro hk hev hfuel hex hcb
    obtain ⟨T, hT⟩ := hex
    have hile : i ≤ coverIdx step k := by
      have hx : 0 ≤ stride * T := Nat.zero_le _
      omega
    have hlt : i < bufLen := by omega
    simp only [updateProofsStride]
    rw [if_pos hlt]
    have hk' : k < (updatePairProofs ps buf i (1 <<< step) step).length := by
      rw [updatePairProofs_length]; exact hk
    cases T with
    | zero =>
      have hie : i = coverIdx step k := by
        have hx : stride * 0 = 0 := by ring
        omega
      rw [updateProofsStride_skip buf bufLen step stride hst hsev fuel (i + stride) _ hk'
        (by omega) (by
          intro t ht
          have hx : 0 ≤ stride * t := Nat.zero_le _
          omega)]
      rw [hie]
      exact updatePairProofs_cover ps buf step hk
    | succ T =>
      rw [Nat.mul_succ] at hT
      have hine : i ≠ coverIdx step k := by
        have hx : 0 ≤ stride * T := Nat.zero_le _
        omega
      rw [updateProofsStride_cover buf bufLen step stride hst hsev fuel (i + stride) _ hk'
        (by omega) (by rw [Nat.mul_succ] at hfuel; omega)
        ⟨T, by omega⟩ hcb]
      rw [updatePairProofs_skip ps buf step hk hev hine]

lemma runProofWorkers_length (buf : List Bytes) (bufLen batch step stride : Nat) :
    ∀ (vs : List Nat) (ps : List Proof),
      (runProofWorkers ps buf bufLen batch step stride vs).length = ps.length
  | [], _ => rfl
  | w :: rest, ps => by
    simp only [runProofWorkers]
    rw [runProofWorkers_length buf bufLen batch step stride rest]
    exact updateProofsStride_length buf bufLen batch step stride (bufLen + 1) (2 * w) ps

lemma runProofWorkers_getElem? (buf : List Bytes) (bufLen step R : Nat) (hR : 0 < R)
    {k : Nat} :
    ∀ (vs : List Nat) (ps : List Proof), k < ps.length → vs.Nodup →
      (∀ v ∈ vs, v < R) →
      (runProofWorkers ps buf bufLen (1 <<< step) step (2 * R) vs)[k]? =
        if coverIdx step k < bufLen ∧ (coverIdx step k / 2) % R ∈ vs then
          (ps[k]?).map (stepUpd buf step k)
        else ps[k]?
  | [], ps => by
    intro hk hnd hvR
    rw [if_neg (by simp)]
    rfl
  | w :: rest, ps => by
    intro hk hnd hvR
    obtain ⟨hcev, _⟩ := coverIdx_facts step k
    have hk1 : k <
        (updateProofsStride ps buf bufLen (1 <<< step) step (2 * R) (2 * w)
          (bufLen + 1)).length := by
      rw [updateProofsStride_length]; exact hk
    simp only [runProofWorkers]
    by_cases hA : coverIdx step k < bufLen ∧ (coverIdx step k / 2) % R = w
    · -- the head worker is the covering one
      obtain ⟨hcb, hwm⟩ := hA
      have hT : 2 * w + 2 * R * ((coverIdx step k / 2) / R) = coverIdx step k := by
        have h1 : (coverIdx step k / 2) % R + R * ((coverIdx step k / 2) / R)
            = coverIdx step k / 2 := Nat.mod_add_div _ _
        have h2 : 2 * (R * ((coverIdx step k / 2) / R))
            = 2 * R * ((coverIdx step k / 2) / R) := by ring
        omega
      have hcover :
          (updateProofsStride ps buf bufLen (1 <<< step) step (2 * R) (2 * w)
            (bufLen + 1))[k]? = (ps[k]?).map (stepUpd buf step k) := by
        apply updateProofsStride_cover buf bufLen step (2 * R) (by omega) (by omega)
          (bufLen + 1) (2 * w) ps hk (by omega) ?_ ?_ hcb
        · have h1 : bufLen + 1 ≤ R * (bufLen + 1) := Nat.le_mul_of_pos_left _ hR
          have h2 : 2 * (R * (bufLen + 1)) = 2 * R * (bufLen + 1) := by ring
          omega
        · exact ⟨(coverIdx step k / 2) / R, hT⟩
      rw [runProofWorkers_getElem? buf bufLen step R hR rest _ hk1
        (List.nodup_cons.mp hnd).2 (fun v hv => hvR v (by simp [hv]))]
      rw [if_neg (by
        rintro ⟨_, hmem⟩
        rw [hwm] at hmem
        exact (List.nodup_cons.mp hnd).1 hmem)]
      rw [hcover]
      rw [if_pos ⟨hcb, by rw [hwm]; simp⟩]
    · -- the head worker never visits the covering index
      have hskip :
          (updateProofsStride ps buf bufLen (1 <<< step) step (2 * R) (2 * w)
            (bufLen + 1))[k]? = ps[k]? := by
        apply updateProofsStride_skip buf bufLen step (2 * R) (by omega) (by omega)
          (bufLen + 1) (2 * w) ps hk (by omega)
        intro t ht hne
        apply hA
        constructor
        · omega
        · have h2 : 2 * (R * t) = 2 * R * t := by ring
          have hdiv : coverIdx step k / 2 = w + R * t := by omega
          rw [hdiv, Nat.add_mul_mod_self_left,
            Nat.mod_eq_of_lt (hvR w (by simp))]
      rw [runProofWorkers_getElem? buf bufLen step R hR rest _ hk1
        (List.nodup_cons.mp hnd).2 (fun v hv => hvR v (by simp [hv]))]
      rw [hskip]
      by_cases hc : coverIdx step k < bufLen
      · have hwm : (coverIdx step k / 2) % R ≠ w := fun hmm => hA ⟨hc, hmm⟩
        by_cases hmem : (coverIdx step k / 2) % R ∈ rest
        · rw [if_pos ⟨hc, hmem⟩, if_pos ⟨hc, by simp [hmem]⟩]
        · rw [if_neg (by rintro ⟨_, hmm⟩; exact hmem hmm),
            if_neg (by
              rintro ⟨_, hmm⟩
              rcases List.mem_cons.mp hmm with h | h
              · exact hwm h
              · exact hmem h)]
      · rw [if_neg (by rintro ⟨hx, _⟩; exact hc hx),
          if_neg (by rintro ⟨hx, _⟩; exact hc hx)]

/-- With at least one routine and a non-empty buffer, the strided parallel
proof recording computes exactly the sequential `updateProofs` pass. -/
lemma updateProofsParallel_eq_seq {S : Nat} (hS : 1 ≤ S) (ps : List Proof)
    (buf : List Bytes) {bufLen : Nat} (hb : 1 ≤ bufLen) (step : Nat) :
    updateProofsParallel S ps buf bufLen step = updateProofs ps buf bufLen step := by
  have hR : 0 < min S bufLen := by omega
  apply List.ext_getElem?
  intro n
  rcases Nat.lt_or_ge n ps.length with hn | hn
  · rw [updateProofsParallel]
    rw [runProofWorkers_getElem? buf bufLen step (min S bufLen) hR (List.range _) ps hn
      (List.nodup_range _) (fun v hv => List.mem_range.mp hv)]
    rw [updateProofs_getElem? ps buf bufLen step hn]
    rcases Nat.lt_or_ge (coverIdx step n) bufLen with hc | hc
    · rw [if_pos ⟨hc, List.mem_range.mpr (Nat.mod_lt _ hR)⟩, if_pos hc]
    · rw [if_neg (by rintro ⟨hx, _⟩; omega), if_neg (by omega)]
  · rw [List.getElem?_eq_none (by
      rw [updateProofsParallel, runProofWorkers_length]; omega)]
    rw [List.getElem?_eq_none (by rw [updateProofs_length]; omega)]

/-! ## The parallel proof-generation loop vs the spec -/

lemma proofGenParallelLoop_ok {hf : TypeHashFunc} {cf : TypeConcatFunc} {leaves : List Bytes}
    {depth S : Nat} (hS : 1 ≤ S) (hn : 0 < leaves.length) :
    ∀ (remaining step : Nat) (buf buff : List Bytes) (prevLen R : Nat) (proofs : List Proof)
      (Lprev : List Bytes),
      step + remaining = depth → 1 ≤ step → 1 ≤ R →
      specLevel hf cf leaves (step - 1) = .ok Lprev →
      prevLen = Lprev.length → prevLen ≤ buf.length → prevLen / 2 ≤ buff.length →
      (∀ p, p < prevLen → buf.getD p [] = Lprev.getD p []) →
      proofs.length = leaves.length →
      (∀ k, k < leaves.length → proofs[k]? = some (specProofK hf cf leaves step k)) →
      ∀ (Lfin : List Bytes), specLevel hf cf leaves (depth - 1) = .ok Lfin →
      ∃ proofs' buf' prevLen',
        proofGenParallelLoop hf cf S proofs buf buff prevLen R step remaining =
          (proofs', buf', prevLen', none) ∧
        proofs'.length = leaves.length ∧
        (∀ k, k < leaves.length → proofs'[k]? = some (specProofK hf cf leaves depth k)) ∧
        prevLen' = Lfin.length ∧ prevLen' ≤ buf'.length ∧
        (∀ p, p < prevLen' → buf'.getD p [] = Lfin.getD p []) := by
  intro remaining
  induction remaining with
  | zero =>
    intro step buf buff prevLen R proofs Lprev hsum h1 hR hLev hplen hblen hbuff hbpre hpl
      hpk Lfin hfin
    have hsd : step = depth := by omega
    subst hsd
    rw [hLev] at hfin
    injection hfin with hLL
    subst hLL
    exact ⟨proofs, buf, prevLen, rfl, hpl, hpk, hplen, hblen, hbpre⟩
  | succ remaining ih =>
    intro step buf buff prevLen R proofs Lprev hsum h1 hR hLev hplen hblen hbuff hbpre hpl
      hpk Lfin hfin
    subst hplen
    obtain ⟨Ls, hLs⟩ := specLevel_ok_of_le (t := depth - 1) step (by omega) hfin
    obtain ⟨P, N, hP, hN, hBal⟩ := specLevel_pred_succ h1 hLs
    rw [hLev] at hP
    injection hP with hPL
    subst hPL
    have hLevEven : Lprev.length % 2 = 0 := by
      rw [specLevel_length hLev]
      exact levLen_even _ _
    have hLev2 : 2 ≤ Lprev.length := by
      rw [specLevel_length hLev]
      exact levLen_pos hn _
    have hNlen : N.length = Lprev.length / 2 := pairHash_ok_length hN
    have hLs2 : 2 ≤ Ls.length := by
      rw [specLevel_length hLs]
      exact levLen_pos hn _
    simp only [proofGenParallelLoop]
    set RR := if R > Lprev.length then Lprev.length else R with hRR
    have hRR1 : 1 ≤ RR := by rw [hRR]; split <;> omega
    have hok : ∀ j, j < Lprev.length → j % 2 = 0 →
        levelHashFn hf cf buf j = .ok (N.getD (j / 2) []) := by
      intro j hj hjev
      have hj1 : j + 1 < Lprev.length := by omega
      have hp := pairHash_ok_getD hN (j / 2) (by omega)
      have h2j : 2 * (j / 2) = j := by omega
      rw [h2j] at hp
      show hf (cf (buf.getD j []) (buf.getD (j + 1) [])) = _
      rw [hbpre j hj, hbpre (j + 1) hj1]
      exact hp
    obtain ⟨buff2, hrun, hlen2, hcov, _⟩ :=
      runWorkersHalf_ok (S := RR) (by omega) hLevEven hok (List.range RR) buff (by omega)
    have hnew : ∀ q, q < N.length → buff2.getD q [] = N.getD q [] := by
      intro q hq
      have hmd : q % RR + RR * (q / RR) = q := Nat.mod_add_div _ _
      have h2 : 2 * (RR * (q / RR)) = 2 * RR * (q / RR) := by ring
      have hc := hcov (q % RR) (List.mem_range.mpr (Nat.mod_lt _ (by omega)))
        (q / RR) (by omega)
      rw [hmd] at hc
      have he : (2 * (q % RR) + 2 * RR * (q / RR)) / 2 = q := by omega
      rw [he] at hc
      exact hc
    rw [hrun]
    dsimp only
    rw [firstErr_none (by simp)]
    dsimp only
    obtain ⟨hfo1, hfo2, hfo3⟩ :=
      fixOdd_spec (show Lprev.length / 2 ≤ buff2.length by omega)
        (by intro q hq; exact hnew q (by omega)) hNlen
    rcases hfo : fixOdd buff2 (Lprev.length / 2) with ⟨buf3, prevLen3⟩
    rw [hfo] at hfo1 hfo2 hfo3
    dsimp only at hfo1 hfo2 hfo3 ⊢
    rw [← hBal] at hfo1 hfo2 hfo3
    have hp31 : 1 ≤ prevLen3 := by omega
    rw [updateProofsParallel_eq_seq hS proofs buf3 hp31 step]
    have hupd_len : (updateProofs proofs buf3 prevLen3 step).length = leaves.length := by
      rw [updateProofs_length, hpl]
    have hupd : ∀ k, k < leaves.length →
        (updateProofs proofs buf3 prevLen3 step)[k]? =
          some (specProofK hf cf leaves (step + 1) k) := by
      intro k hk
      rw [updateProofs_getElem? proofs buf3 prevLen3 step (by omega)]
      have hcover : coverIdx step k < prevLen3 := by
        apply coverIdx_lt hk
        left
        have hll := specLevel_length hLs
        omega
      rw [if_pos hcover, hpk k hk]
      simp only [Option.map_some']
      congr 1
      exact stepUpd_spec hLs hfo3 hk
    have hsb := specBal_length N
    rw [← hBal] at hsb
    have hcd : cdiv N.length 2 = (N.length + 1) / 2 := cdiv_two N.length
    have hrecall := ih (step + 1) buf3 buf prevLen3 RR
      (updateProofs proofs buf3 prevLen3 step) Ls
      (by omega) (by omega) hRR1 (by simpa using hLs) hfo1
      (by rw [hfo1]; exact hfo2) (by omega) (by rw [hfo1]; exact hfo3) hupd_len hupd Lfin hfin
    obtain ⟨proofs', buf', prevLen', hrec, hc1, hc2, hc3, hc4, hc5⟩ := hrecall
    exact ⟨proofs', buf', prevLen', hrec, hc1, hc2, hc3, hc4, hc5⟩

lemma proofGen_par_spec {m : MerkleTree}
    (hpar : m.config.RunInParallel = true) (hS : 1 ≤ m.config.NumRoutines.toNat)
    (hnl : m.NumLeaves = m.Leaves.length)
    (h2 : 2 ≤ m.Leaves.length)
    (hdep : m.Leaves.length ≤ 2 ^ m.Depth) (hd1 : 1 ≤ m.Depth)
    {root : Bytes} (hroot : specRoot m.hashF m.concatF m.Leaves m.Depth = .ok root) :
    ∃ proofs, proofGen m = ({ m with Proofs := proofs, Root := root }, none) ∧
      proofs.length = m.Leaves.length ∧
      ∀ k, k < m.Leaves.length →
        proofs[k]? = some (specProofK m.hashF m.concatF m.Leaves m.Depth k) := by
  obtain ⟨Lfin, hfin, hrh⟩ := specRoot_ok hroot
  have hB0 : specLevel m.hashF m.concatF m.Leaves 0 = .ok (specBal m.Leaves) := rfl
  have hfix : fixOdd m.Leaves m.NumLeaves = (specBal m.Leaves, (specBal m.Leaves).length) := by
    rw [hnl]; exact fixOdd_exact
  have hb1 : 1 ≤ m.NumLeaves := by omega
  have hupPar : updateProofsParallel m.config.NumRoutines.toNat (initProofs m.NumLeaves)
      (specBal m.Leaves) m.NumLeaves 0
      = updateProofs (initProofs m.NumLeaves) (specBal m.Leaves) m.NumLeaves 0 :=
    updateProofsParallel_eq_seq hS _ _ hb1 0
  have hkl : ∀ k, k < m.Leaves.length → k < (initProofs m.NumLeaves).length := by
    intro k hk
    rw [initProofs_length, hnl]; exact hk
  have hup0_len :
      (updateProofs (initProofs m.NumLeaves) (specBal m.Leaves) m.NumLeaves 0).length
        = m.Leaves.length := by
    rw [updateProofs_length, initProofs_length, hnl]
  have hup0 : ∀ k, k < m.Leaves.length →
      (updateProofs (initProofs m.NumLeaves) (specBal m.Leaves) m.NumLeaves 0)[k]? =
        some (specProofK m.hashF m.concatF m.Leaves 1 k) := by
    intro k hk
    rw [updateProofs_getElem? _ _ _ _ (hkl k hk)]
    have hcov : coverIdx 0 k < m.NumLeaves := by
      rw [hnl]; exact coverIdx_lt hk (Or.inr ⟨rfl, le_rfl⟩)
    rw [if_pos hcov, initProofs_getElem? (by rw [hnl]; exact hk)]
    simp only [Option.map_some']
    congr 1
    rw [← specProofK_zero m.hashF m.concatF m.Leaves k]
    exact stepUpd_spec hB0 (fun q _ => rfl) hk
  obtain ⟨proofs', buf', prevLen', hrec, hlen', hpk', hplfin, hble, hbpre'⟩ :=
    proofGenParallelLoop_ok hS (by omega) (m.Depth - 1) 1
      (specBal m.Leaves) (List.replicate ((specBal m.Leaves).length / 2) ([] : Bytes))
      (specBal m.Leaves).length m.config.NumRoutines.toNat
      (updateProofs (initProofs m.NumLeaves) (specBal m.Leaves) m.NumLeaves 0)
      (specBal m.Leaves) (by omega) le_rfl hS hB0 rfl le_rfl
      (by rw [List.length_replicate]) (fun p _ => rfl)
      hup0_len hup0 Lfin hfin
  have hfl : Lfin.length = levLen m.Leaves.length (m.Depth - 1) := specLevel_length hfin
  have hfl2 : 2 ≤ Lfin.length := by
    rw [hfl]; exact levLen_pos (by omega) _
  have hb0 : buf'.getD 0 [] = Lfin.getD 0 [] := hbpre' 0 (by omega)
  have hb1' : buf'.getD 1 [] = Lfin.getD 1 [] := hbpre' 1 (by omega)
  refine ⟨proofs', ?_, hlen', hpk'⟩
  have hm1hf : ({ m with Proofs := initProofs m.NumLeaves } : MerkleTree).hashF
      = m.hashF := rfl
  have hm1cf : ({ m with Proofs := initProofs m.NumLeaves } : MerkleTree).concatF
      = m.concatF := rfl
  simp only [proofGen, hfix, proofGenParallel, hm1hf, hm1cf, hpar, if_true]
  rw [hupPar, hrec]
  dsimp only
  rw [hb0, hb1', hrh]

/-! ## The parallel node-computation loop of `treeBuild` never fails on
hashable input (its results are then recomputed by the sequential loop) -/

lemma computeTreeNodeParallelLoop_ok {hf : TypeHashFunc} {cf : TypeConcatFunc}
    {leaves : List Bytes} {depth S : Nat} {Lfin : List Bytes}
    (hfin : specLevel hf cf leaves (depth - 1) = .ok Lfin) (hn : 0 < leaves.length)
    (hS : 1 ≤ S) :
    ∀ (remaining s : Nat) (Lprev : List Bytes), s + remaining = depth - 1 →
      specLevel hf cf leaves s = .ok Lprev →
      ∃ levels, computeTreeNodeParallelLoop hf cf S Lprev Lprev.length remaining
        = (levels, none)
  | 0, s, Lprev => by
    intro hsum hLs
    exact ⟨[], rfl⟩
  | remaining + 1, s, Lprev => by
    intro hsum hLs
    obtain ⟨Ls1, hLs1⟩ := specLevel_ok_of_le (t := depth - 1) (s + 1) (by omega) hfin
    obtain ⟨P, N, hP, hN, hBal⟩ := specLevel_ok_succ hLs1
    rw [hLs] at hP
    cases hP
    have hLev : Lprev.length = levLen leaves.length s := specLevel_length hLs
    have hLevEven : Lprev.length % 2 = 0 := by rw [hLev]; exact levLen_even _ _
    have hLevPos : 2 ≤ Lprev.length := by rw [hLev]; exact levLen_pos hn _
    have hNlen : N.length = Lprev.length / 2 := pairHash_ok_length hN
    have hok : ∀ j, j < Lprev.length → j % 2 = 0 →
        levelHashFn hf cf Lprev j = .ok (N.getD (j / 2) []) := by
      intro j hj hjev
      have hp := pairHash_ok_getD hN (j / 2) (by omega)
      have h2j : 2 * (j / 2) = j := by omega
      rw [h2j] at hp
      exact hp
    obtain ⟨dst2, hrun, hlen2, hcov, _⟩ :=
      runWorkersHalf_ok (S := S) (by omega) hLevEven hok
        (List.range (min S Lprev.length))
        (List.replicate (Lprev.length / 2) ([] : Bytes))
        (by rw [List.length_replicate])
    have hnew : ∀ q, q < N.length → dst2.getD q [] = N.getD q [] := by
      intro q hq
      have hmd : q % S + S * (q / S) = q := Nat.mod_add_div _ _
      have h2 : 2 * (S * (q / S)) = 2 * S * (q / S) := by ring
      have hc := hcov (q % S)
        (List.mem_range.mpr (by
          have hm1 : q % S < S := Nat.mod_lt _ (by omega)
          have hm2 : q % S ≤ q := Nat.mod_le _ _
          omega))
        (q / S) (by omega)
      rw [hmd] at hc
      have he : (2 * (q % S) + 2 * S * (q / S)) / 2 = q := by omega
      rw [he] at hc
      exact hc
    have hdstN : dst2 = N := by
      apply eq_of_getD ([] : Bytes)
      · rw [hlen2, List.length_replicate, hNlen]
      · intro q hq
        rw [hlen2, List.length_replicate] at hq
        exact hnew q (by omega)
    subst hdstN
    simp only [computeTreeNodeParallelLoop]
    rw [hrun]
    dsimp only
    rw [firstErr_none (by
      intro e he
      rcases List.mem_map.mp he with ⟨x, _, hx⟩
      exact hx.symm)]
    dsimp only
    rw [fixOdd_exact]
    obtain ⟨levels, hrec⟩ :=
      computeTreeNodeParallelLoop_ok hfin hn hS remaining (s + 1) (specBal dst2) (by omega)
        (by rw [← hBal]; exact hLs1)
    rw [hrec]
    exact ⟨specBal dst2 :: levels, rfl⟩

lemma treeBuild_par_spec {m : MerkleTree} (hpar : m.config.RunInParallel = true)
    (hS : 1 ≤ m.config.NumRoutines.toNat)
    (hnl : m.NumLeaves = m.Leaves.length) (h2 : 2 ≤ m.Leaves.length)
    (hd1 : 1 ≤ m.Depth)
    {root : Bytes} (hroot : specRoot m.hashF m.concatF m.Leaves m.Depth = .ok root) :
    ∃ ns, treeBuild m =
        ({ m with leafMap := mapGen m.Leaves, nodes := ns, Root := root }, none) ∧
      ns.length = m.Depth ∧
      ∀ s, s < m.Depth → ns.getD s [] = okLvl m.hashF m.concatF m.Leaves s := by
  obtain ⟨Lfin, hfin, hrh⟩ := specRoot_ok hroot
  have hfix : fixOdd m.Leaves m.NumLeaves = (specBal m.Leaves, (specBal m.Leaves).length) := by
    rw [hnl]; exact fixOdd_exact
  have hB0 : specLevel m.hashF m.concatF m.Leaves 0 = .ok (specBal m.Leaves) := rfl
  obtain ⟨plevels, hprun⟩ :=
    computeTreeNodeParallelLoop_ok hfin (by omega) hS (m.Depth - 1) 0 (specBal m.Leaves)
      (by omega) hB0
  obtain ⟨levels, hrun, hlevlen, hlevpt⟩ :=
    treeBuildLoopSeq_ok hfin (by omega) (m.Depth - 1) 0 (specBal m.Leaves) (by omega) hB0
  have hnspt : ∀ s, s < m.Depth →
      (specBal m.Leaves :: levels).getD s [] = okLvl m.hashF m.concatF m.Leaves s := by
    intro s hs
    cases s with
    | zero =>
      simp only [List.getD_cons_zero]
      rw [okLvl_eq hB0]
    | succ s =>
      simp only [List.getD_cons_succ]
      rw [hlevpt s (by omega)]
      congr 1
      omega
  have hlast : (specBal m.Leaves :: levels).getD (m.Depth - 1) [] = Lfin := by
    rw [hnspt (m.Depth - 1) (by omega), okLvl_eq hfin]
  refine ⟨specBal m.Leaves :: levels, ?_, by simp [hlevlen]; omega, hnspt⟩
  have hm1 : ({ m with leafMap := mapGen m.Leaves } : MerkleTree).hashF = m.hashF := rfl
  have hm2 : ({ m with leafMap := mapGen m.Leaves } : MerkleTree).concatF = m.concatF := rfl
  simp only [treeBuild, hfix, hm1, hm2, hpar, if_true]
  rw [hprun]
  dsimp only
  rw [hrun]
  dsimp only
  rw [hlast, hrh]

/-! ## Parallel-flag invariance of configuration resolution and leaf generation -/

lemma leafFromBlock_congr {c1 c2 : Config} (b : DataBlock)
    (hd : c1.DisableLeafHashing = c2.DisableLeafHashing)
    (hh : c1.HashFunc = c2.HashFunc) :
    leafFromBlock b c1 = leafFromBlock b c2 := by
  simp only [leafFromBlock, hd, hh]

lemma leafGen_congr {c1 c2 : Config}
    (hd : c1.DisableLeafHashing = c2.DisableLeafHashing)
    (hh : c1.HashFunc = c2.HashFunc) :
    ∀ (blocks : List DataBlock), leafGen blocks c1 = leafGen blocks c2
  | [] => rfl
  | b :: rest => by
    simp only [leafGen]
    rw [leafFromBlock_congr b hd hh, leafGen_congr hd hh rest]

lemma resolveConfig_par_HashFunc (cfg0 : Config) (numCPU : Nat) :
    (resolveConfig { cfg0 with RunInParallel := true } numCPU).HashFunc =
      (resolveConfig { cfg0 with RunInParallel := false } numCPU).HashFunc := by
  rw [resolveConfig_HashFunc, resolveConfig_HashFunc]
  rfl

lemma resolveConfig_par_concatFunc (cfg0 : Config) (numCPU : Nat) :
    (resolveConfig { cfg0 with RunInParallel := true } numCPU).concatFunc =
      (resolveConfig { cfg0 with RunInParallel := false } numCPU).concatFunc := by
  rw [resolveConfig_concatFunc, resolveConfig_concatFunc]

lemma resolveConfig_par_NumRoutines {cfg0 : Config} (numCPU : Nat)
    (hpar : cfg0.RunInParallel = true) (hcpu : 1 ≤ numCPU) :
    1 ≤ (resolveConfig cfg0 numCPU).NumRoutines.toNat := by
  rw [resolveConfig_NumRoutines]
  by_cases hnr : cfg0.NumRoutines ≤ 0
  · rw [if_pos ⟨hpar, hnr⟩]
    omega
  · rw [if_neg (fun hc => hnr hc.2)]
    omega

/-- With at least one routine and non-degenerate levels, the parallel
per-level proof recording of `ModeProofGenAndTreeBuild` equals the
sequential one. -/
lemma updateProofsLevels_par_eq {S : Nat} (hS : 1 ≤ S) :
    ∀ (ls : List (List Bytes)) (proofs : List Proof) (i : Nat),
      (∀ L ∈ ls, 1 ≤ L.length) →
      updateProofsLevels proofs ls i true S = updateProofsLevels proofs ls i false S
  | [], proofs, i => fun _ => rfl
  | L :: rest, proofs, i => by
    intro hl
    simp only [updateProofsLevels, if_true, Bool.false_eq_true, if_false]
    rw [updateProofsParallel_eq_seq hS proofs L (hl L (by simp)) i]
    exact updateProofsLevels_par_eq hS rest _ (i + 1) (fun L2 h2 => hl L2 (by simp [h2]))

/-! ## `New` in parallel proof-generation mode -/

lemma New_mode0_par {cfg0 : Config} {blocks : List DataBlock} {numCPU : Nat}
    (h2 : 2 ≤ blocks.length) (hcpu : 1 ≤ numCPU)
    (hpar : cfg0.RunInParallel = true) (hmode : cfg0.Mode = ModeProofGen)
    {leaves : List Bytes}
    (hlg : leafGen blocks (resolveConfig cfg0 numCPU) = .ok leaves)
    {hf : TypeHashFunc} {cf : TypeConcatFunc}
    (hhf : (resolveConfig cfg0 numCPU).HashFunc = some hf)
    (hcf : (resolveConfig cfg0 numCPU).concatFunc = some cf)
    {root : Bytes}
    (hroot : specRoot hf cf leaves (bitsLen (blocks.length - 1)) = .ok root) :
    ∃ m, New (some cfg0) blocks numCPU = (some m, none) ∧
      m.config = resolveConfig cfg0 numCPU ∧
      m.Leaves = leaves ∧ m.NumLeaves = blocks.length ∧
      m.Depth = bitsLen (blocks.length - 1) ∧ m.Root = root ∧
      m.nodes = [] ∧ m.leafMap = [] ∧
      m.Proofs.length = blocks.length ∧
      ∀ k, k < blocks.length →
        m.Proofs[k]? =
          some (specProofK hf cf leaves (bitsLen (blocks.length - 1)) k) := by
  obtain ⟨hllen, _⟩ := leafGen_ok hlg
  set rc := resolveConfig cfg0 numCPU with hrc
  have hS : 1 ≤ rc.NumRoutines.toNat := resolveConfig_par_NumRoutines numCPU hpar hcpu
  set mtr : MerkleTree :=
    { config := rc, Leaves := leaves, NumLeaves := blocks.length,
      Depth := bitsLen (blocks.length - 1) } with hmtr
  have hmhf : mtr.hashF = hf := by
    rw [MerkleTree.hashF]
    show rc.HashFunc.getD DefaultHashFunc = hf
    rw [hhf]; rfl
  have hmcf : mtr.concatF = cf := by
    rw [MerkleTree.concatF]
    show rc.concatFunc.getD concatHash = cf
    rw [hcf]; rfl
  obtain ⟨proofs, hpg, hplen, hppt⟩ :=
    proofGen_par_spec (m := mtr)
      (by show rc.RunInParallel = true; rw [resolveConfig_RunInParallel]; exact hpar)
      hS
      (by show blocks.length = leaves.length; omega)
      (by show 2 ≤ leaves.length; omega)
      (by show leaves.length ≤ 2 ^ bitsLen (blocks.length - 1)
          have := bitsLen_depth_ge (n := blocks.length) (by omega)
          omega)
      (by show 1 ≤ bitsLen (blocks.length - 1); exact bitsLen_depth_pos h2)
      (by rw [hmhf, hmcf]; exact hroot)
  have hml : mtr.Leaves = leaves := rfl
  have hlgp : leafGenParallel blocks rc rc.NumRoutines.toNat = .ok leaves :=
    leafGenParallel_of_seq hS hlg
  have hNew : New (some cfg0) blocks numCPU =
      (some { mtr with Proofs := proofs, Root := root }, none) := by
    simp only [New]
    rw [if_neg (by omega)]
    have hgd : (some cfg0).getD {} = cfg0 := rfl
    rw [hgd, ← hrc]
    have hrp : rc.RunInParallel = true := by
      rw [hrc, resolveConfig_RunInParallel]; exact hpar
    rw [hrp]
    simp only [if_true]
    rw [hlgp]
    dsimp only
    have hmd : rc.Mode = ModeProofGen := by
      rw [hrc, resolveConfig_Mode]; exact hmode
    simp only [hmd, if_true]
    rw [← hmtr, hpg]
  refine ⟨{ mtr with Proofs := proofs, Root := root }, hNew, rfl, rfl, rfl, rfl, rfl, rfl, rfl,
    ?_, ?_⟩
  · show proofs.length = blocks.length
    rw [hml] at hplen
    omega
  · intro k hk
    show proofs[k]? = _
    have hpp := hppt k (by rw [hml]; omega)
    rw [hpp, hmhf, hmcf]

/-! ## `New` in parallel tree-building modes -/

lemma New_mode1_par {cfg0 : Config} {blocks : List DataBlock} {numCPU : Nat}
    (h2 : 2 ≤ blocks.length) (hcpu : 1 ≤ numCPU)
    (hpar : cfg0.RunInParallel = true) (hmode : cfg0.Mode = ModeTreeBuild)
    {leaves : List Bytes}
    (hlg : leafGen blocks (resolveConfig cfg0 numCPU) = .ok leaves)
    {hf : TypeHashFunc} {cf : TypeConcatFunc}
    (hhf : (resolveConfig cfg0 numCPU).HashFunc = some hf)
    (hcf : (resolveConfig cfg0 numCPU).concatFunc = some cf)
    {root : Bytes}
    (hroot : specRoot hf cf leaves (bitsLen (blocks.length - 1)) = .ok root) :
    ∃ m, New (some cfg0) blocks numCPU = (some m, none) ∧
      m.config = resolveConfig cfg0 numCPU ∧
      m.Leaves = leaves ∧ m.NumLeaves = blocks.length ∧
      m.Depth = bitsLen (blocks.length - 1) ∧ m.Root = root ∧
      m.leafMap = mapGen leaves ∧ m.Proofs = [] ∧
      m.nodes.length = bitsLen (blocks.length - 1) ∧
      ∀ s, s < bitsLen (blocks.length - 1) →
        m.nodes.getD s [] = okLvl hf cf leaves s := by
  obtain ⟨hllen, _⟩ := leafGen_ok hlg
  set rc := resolveConfig cfg0 numCPU with hrc
  have hS : 1 ≤ rc.NumRoutines.toNat := resolveConfig_par_NumRoutines numCPU hpar hcpu
  set mtr : MerkleTree :=
    { config := rc, Leaves := leaves, NumLeaves := blocks.length,
      Depth := bitsLen (blocks.length - 1) } with hmtr
  have hml : mtr.Leaves = leaves := rfl
  have hmhf : mtr.hashF = hf := by
    rw [MerkleTree.hashF]
    show rc.HashFunc.getD DefaultHashFunc = hf
    rw [hhf]; rfl
  have hmcf : mtr.concatF = cf := by
    rw [MerkleTree.concatF]
    show rc.concatFunc.getD concatHash = cf
    rw [hcf]; rfl
  obtain ⟨ns, htb, hnslen, hnspt⟩ :=
    treeBuild_par_spec (m := mtr)
      (by show rc.RunInParallel = true; rw [resolveConfig_RunInParallel]; exact hpar)
      hS
      (by show blocks.length = leaves.length; omega)
      (by show 2 ≤ leaves.length; omega)
      (by show 1 ≤ bitsLen (blocks.length - 1); exact bitsLen_depth_pos h2)
      (by rw [hmhf, hmcf]; exact hroot)
  have hlgp : leafGenParallel blocks rc rc.NumRoutines.toNat = .ok leaves :=
    leafGenParallel_of_seq hS hlg
  have hNew : New (some cfg0) blocks numCPU =
      (some { mtr with leafMap := mapGen leaves, nodes := ns, Root := root }, none) := by
    simp only [New]
    rw [if_neg (by omega)]
    have hgd : (some cfg0).getD {} = cfg0 := rfl
    rw [hgd, ← hrc]
    have hrp : rc.RunInParallel = true := by
      rw [hrc, resolveConfig_RunInParallel]; exact hpar
    rw [hrp]
    simp only [if_true]
    rw [hlgp]
    dsimp only
    have hmd : rc.Mode = ModeTreeBuild := by
      rw [hrc, resolveConfig_Mode]; exact hmode
    simp only [hmd, if_true]
    rw [← hmtr, htb]
    rw [if_neg (by decide : ¬ (ModeTreeBuild = ModeProofGen))]
  refine ⟨{ mtr with leafMap := mapGen leaves, nodes := ns, Root := root }, hNew, rfl, rfl,
    rfl, rfl, rfl, rfl, rfl, hnslen, ?_⟩
  intro s hs
  show ns.getD s [] = _
  rw [hnspt s hs, hmhf, hmcf]

lemma New_mode2_par {cfg0 : Config} {blocks : List DataBlock} {numCPU : Nat}
    (h2 : 2 ≤ blocks.length) (hcpu : 1 ≤ numCPU)
    (hpar : cfg0.RunInParallel = true) (hmode : cfg0.Mode = ModeProofGenAndTreeBuild)
    {leaves : List Bytes}
    (hlg : leafGen blocks (resolveConfig cfg0 numCPU) = .ok leaves)
    {hf : TypeHashFunc} {cf : TypeConcatFunc}
    (hhf : (resolveConfig cfg0 numCPU).HashFunc = some hf)
    (hcf : (resolveConfig cfg0 numCPU).concatFunc = some cf)
    {root : Bytes}
    (hroot : specRoot hf cf leaves (bitsLen (blocks.length - 1)) = .ok root) :
    ∃ m, New (some cfg0) blocks numCPU = (some m, none) ∧
      m.config = resolveConfig cfg0 numCPU ∧
      m.Leaves = leaves ∧ m.NumLeaves = blocks.length ∧
      m.Depth = bitsLen (blocks.length - 1) ∧ m.Root = root ∧
      m.leafMap = mapGen leaves ∧
      m.nodes.length = bitsLen (blocks.length - 1) ∧
      (∀ s, s < bitsLen (blocks.length - 1) →
        m.nodes.getD s [] = okLvl hf cf leaves s) ∧
      m.Proofs.length = blocks.length ∧
      ∀ k, k < blocks.length →
        m.Proofs[k]? =
          some (specProofK hf cf leaves (bitsLen (blocks.length - 1)) k) := by
  obtain ⟨hllen, _⟩ := leafGen_ok hlg
  obtain ⟨Lfin, hfin, _⟩ := specRoot_ok hroot
  set rc := resolveConfig cfg0 numCPU with hrc
  have hS : 1 ≤ rc.NumRoutines.toNat := resolveConfig_par_NumRoutines numCPU hpar hcpu
  set mtr : MerkleTree :=
    { config := rc, Leaves := leaves, NumLeaves := blocks.length,
      Depth := bitsLen (blocks.length - 1) } with hmtr
  have hml : mtr.Leaves = leaves := rfl
  have hmhf : mtr.hashF = hf := by
    rw [MerkleTree.hashF]
    show rc.HashFunc.getD DefaultHashFunc = hf
    rw [hhf]; rfl
  have hmcf : mtr.concatF = cf := by
    rw [MerkleTree.concatF]
    show rc.concatFunc.getD concatHash = cf
    rw [hcf]; rfl
  obtain ⟨ns, htb, hnslen, hnspt⟩ :=
    treeBuild_par_spec (m := mtr)
      (by show rc.RunInParallel = true; rw [resolveConfig_RunInParallel]; exact hpar)
      hS
      (by show blocks.length = leaves.length; omega)
      (by show 2 ≤ leaves.length; omega)
      (by show 1 ≤ bitsLen (blocks.length - 1); exact bitsLen_depth_pos h2)
      (by rw [hmhf, hmcf]; exact hroot)
  set m2 : MerkleTree := { mtr with leafMap := mapGen leaves, nodes := ns, Root := root }
    with hm2
  have hnspt' : ∀ s, s < bitsLen (blocks.length - 1) →
      ns.getD s [] = okLvl hf cf leaves s := by
    intro s hs
    have := hnspt s hs
    rw [hmhf, hmcf] at this
    exact this
  have hnslen' : ns.length = bitsLen (blocks.length - 1) := hnslen
  have hnsmem : ∀ L ∈ ns, 1 ≤ L.length := by
    intro L hmem
    obtain ⟨j, hj, hLj⟩ := List.getElem_of_mem hmem
    have hgd : ns.getD j [] = L := by rw [getD_eq_getElem hj, hLj]
    obtain ⟨Lj, hLjspec⟩ := specLevel_ok_of_le (t := bitsLen (blocks.length - 1) - 1) j
      (by omega) hfin
    have hlen := okLvl_length hLjspec
    rw [hnspt' j (by omega)] at hgd
    rw [← hgd, hlen]
    have := levLen_pos (n := leaves.length) (by omega) j
    omega
  have hlgp : leafGenParallel blocks rc rc.NumRoutines.toNat = .ok leaves :=
    leafGenParallel_of_seq hS hlg
  obtain ⟨huplen, huppt⟩ :=
    updateProofsLevels_seq hfin (by omega) rc.NumRoutines.toNat ns 0
      (initProofs blocks.length)
      (by omega)
      (by
        intro j hj
        rw [hnspt' j (by omega)]
        congr 1
        omega)
      (by rw [initProofs_length]; omega)
      (by
        intro k hk
        rw [initProofs_getElem? (by omega), specProofK_zero])
  have hpareq : updateProofsLevels (initProofs blocks.length) ns 0 true
        rc.NumRoutines.toNat
      = updateProofsLevels (initProofs blocks.length) ns 0 false
        rc.NumRoutines.toNat :=
    updateProofsLevels_par_eq hS ns (initProofs blocks.length) 0 hnsmem
  have hNew : New (some cfg0) blocks numCPU =
      (some { m2 with
        Proofs := updateProofsLevels (initProofs blocks.length) ns 0 true
          rc.NumRoutines.toNat }, none) := by
    simp only [New]
    rw [if_neg (by omega)]
    have hgd : (some cfg0).getD {} = cfg0 := rfl
    rw [hgd, ← hrc]
    have hrp : rc.RunInParallel = true := by
      rw [hrc, resolveConfig_RunInParallel]; exact hpar
    rw [hrp]
    simp only [if_true]
    rw [hlgp]
    dsimp only
    have hmd : rc.Mode = ModeProofGenAndTreeBuild := by
      rw [hrc, resolveConfig_Mode]; exact hmode
    simp only [hmd, if_true]
    rw [if_neg (by decide : ¬ (ModeProofGenAndTreeBuild = ModeProofGen)),
      if_neg (by decide : ¬ (ModeProofGenAndTreeBuild = ModeTreeBuild))]
    rw [← hmtr, htb]
    dsimp only
    rw [hrp]
  refine ⟨_, hNew, rfl, rfl, rfl, rfl, rfl, rfl, hnslen, hnspt', ?_, ?_⟩
  · show (updateProofsLevels (initProofs blocks.length) ns 0 true
      rc.NumRoutines.toNat).length = blocks.length
    rw [hpareq]
    omega
  · intro k hk
    show (updateProofsLevels (initProofs blocks.length) ns 0 true
      rc.NumRoutines.toNat)[k]? = _
    rw [hpareq, huppt k (by omega)]

lemma eq_of_getElem? {α : Type} {n : Nat} {A B : List α} (hA : A.length = n)
    (hB : B.length = n) (h : ∀ k, k < n → A[k]? = B[k]?) : A = B := by
  apply List.ext_getElem?
  intro k
  rcases Nat.lt_or_ge k n with hk | hk
  · exact h k hk
  · rw [List.getElem?_eq_none (by omega), List.getElem?_eq_none (by omega)]

/-! ## C4: the parallel construction refines the sequential one -/

/-- C4: over the same blocks and configuration (in any of the three
valid modes), running `New` with `RunInParallel` set and with it unset
produces trees with byte-identical roots, identical leaf sequences,
identical recorded proofs (`Path` and sibling list alike) and identical
retained node matrices: the strided worker partition computes exactly
what the sequential loops compute. -/
theorem C4_parallel_equals_sequential {cfg0 : Config} {blocks : List DataBlock}
    {numCPU : Nat}
    (hcpu : 1 ≤ numCPU) (h2 : 2 ≤ blocks.length)
    (hmode : cfg0.Mode = ModeProofGen ∨ cfg0.Mode = ModeTreeBuild ∨
      cfg0.Mode = ModeProofGenAndTreeBuild)
    {leaves : List Bytes}
    (hlg : leafGen blocks (resolveConfig { cfg0 with RunInParallel := false } numCPU)
      = .ok leaves)
    {hf : TypeHashFunc} {cf : TypeConcatFunc}
    (hhf : (resolveConfig { cfg0 with RunInParallel := false } numCPU).HashFunc = some hf)
    (hcf : (resolveConfig { cfg0 with RunInParallel := false } numCPU).concatFunc = some cf)
    {root : Bytes}
    (hroot : specRoot hf cf leaves (bitsLen (blocks.length - 1)) = .ok root) :
    ∃ mp ms,
      New (some { cfg0 with RunInParallel := true }) blocks numCPU = (some mp, none) ∧
      New (some { cfg0 with RunInParallel := false }) blocks numCPU = (some ms, none) ∧
      mp.Root = ms.Root ∧ mp.Leaves = ms.Leaves ∧ mp.Proofs = ms.Proofs ∧
      mp.nodes = ms.nodes := by
  have hd : (resolveConfig { cfg0 with RunInParallel := true } numCPU).DisableLeafHashing
      = (resolveConfig { cfg0 with RunInParallel := false } numCPU).DisableLeafHashing := by
    rw [resolveConfig_DisableLeafHashing, resolveConfig_DisableLeafHashing]
  have hlgp : leafGen blocks (resolveConfig { cfg0 with RunInParallel := true } numCPU)
      = .ok leaves := by
    rw [leafGen_congr hd (resolveConfig_par_HashFunc cfg0 numCPU) blocks]
    exact hlg
  have hhfp : (resolveConfig { cfg0 with RunInParallel := true } numCPU).HashFunc
      = some hf := by
    rw [resolveConfig_par_HashFunc]; exact hhf
  have hcfp : (resolveConfig { cfg0 with RunInParallel := true } numCPU).concatFunc
      = some cf := by
    rw [resolveConfig_par_concatFunc]; exact hcf
  rcases hmode with hm | hm | hm
  · -- ModeProofGen
    obtain ⟨mp, hNp, _, hLp, _, _, hRp, hnp, _, hPlp, hPpp⟩ :=
      @New_mode0_par { cfg0 with RunInParallel := true } blocks numCPU h2 hcpu rfl hm
        leaves hlgp hf cf hhfp hcfp root hroot
    obtain ⟨ms, hNs, _, hLs, _, _, hRs, hns, _, hPls, hPps⟩ :=
      @New_mode0_seq { cfg0 with RunInParallel := false } blocks numCPU h2 rfl hm
        leaves hlg hf cf hhf hcf root hroot
    refine ⟨mp, ms, hNp, hNs, by rw [hRp, hRs], by rw [hLp, hLs], ?_, by rw [hnp, hns]⟩
    apply eq_of_getElem? hPlp hPls
    intro k hk
    rw [hPpp k hk, hPps k hk]
  · -- ModeTreeBuild
    obtain ⟨mp, hNp, _, hLp, _, _, hRp, _, hPp, hnlp, hnpp⟩ :=
      @New_mode1_par { cfg0 with RunInParallel := true } blocks numCPU h2 hcpu rfl hm
        leaves hlgp hf cf hhfp hcfp root hroot
    obtain ⟨ms, hNs, _, hLs, _, _, hRs, _, hPs, hnls, hnps⟩ :=
      @New_mode1_seq { cfg0 with RunInParallel := false } blocks numCPU h2 rfl hm
        leaves hlg hf cf hhf hcf root hroot
    refine ⟨mp, ms, hNp, hNs, by rw [hRp, hRs], by rw [hLp, hLs],
      by rw [hPp, hPs], ?_⟩
    exact @eq_of_getD _ ([] : List Bytes) mp.nodes ms.nodes (by omega) (fun q hq => by
      rw [hnlp] at hq
      rw [hnpp q hq, hnps q hq])
  · -- ModeProofGenAndTreeBuild
    obtain ⟨mp, hNp, _, hLp, _, _, hRp, _, hnlp, hnpp, hPlp, hPpp⟩ :=
      @New_mode2_par { cfg0 with RunInParallel := true } blocks numCPU h2 hcpu rfl hm
        leaves hlgp hf cf hhfp hcfp root hroot
    obtain ⟨ms, hNs, _, hLs, _, _, hRs, _, hnls, hnps, hPls, hPps⟩ :=
      @New_mode2_seq { cfg0 with RunInParallel := false } blocks numCPU h2 rfl hm
        leaves hlg hf cf hhf hcf root hroot
    refine ⟨mp, ms, hNp, hNs, by rw [hRp, hRs], by rw [hLp, hLs], ?_, ?_⟩
    · apply eq_of_getElem? hPlp hPls
      intro k hk
      rw [hPpp k hk, hPps k hk]
    · exact @eq_of_getD _ ([] : List Bytes) mp.nodes ms.nodes (by omega) (fun q hq => by
        rw [hnlp] at hq
        rw [hnpp q hq, hnps q hq])

/-- C4 witness: two blocks, default configuration, one CPU. -/
theorem C4_parallel_equals_sequential_witness :
    ∃ mp ms,
      New (some { ({} : Config) with RunInParallel := true })
        [{ serialize := .ok [5] }, { serialize := .ok [6] }] 1 = (some mp, none) ∧
      New (some { ({} : Config) with RunInParallel := false })
        [{ serialize := .ok [5] }, { serialize := .ok [6] }] 1 = (some ms, none) ∧
      mp.Root = ms.Root ∧ mp.Leaves = ms.Leaves ∧ mp.Proofs = ms.Proofs ∧
      mp.nodes = ms.nodes :=
  @C4_parallel_equals_sequential {} [{ serialize := .ok [5] }, { serialize := .ok [6] }] 1
    (by decide) (by decide) (Or.inl rfl)
    [[0, 5], [0, 6]] rfl DefaultHashFunc concatHash rfl rfl
    [0, 0, 5, 0, 6] rfl

/-! ## `New` characterised for either parallelism flag -/

lemma New_mode0_any {cfg0 : Config} {blocks : List DataBlock} {numCPU : Nat}
    (h2 : 2 ≤ blocks.length) (hcpu : 1 ≤ numCPU) (hmode : cfg0.Mode = ModeProofGen)
    {leaves : List Bytes}
    (hlg : leafGen blocks (resolveConfig cfg0 numCPU) = .ok leaves)
    {hf : TypeHashFunc} {cf : TypeConcatFunc}
    (hhf : (resolveConfig cfg0 numCPU).HashFunc = some hf)
    (hcf : (resolveConfig cfg0 numCPU).concatFunc = some cf)
    {root : Bytes}
    (hroot : specRoot hf cf leaves (bitsLen (blocks.length - 1)) = .ok root) :
    ∃ m, New (some cfg0) blocks numCPU = (some m, none) ∧
      m.config = resolveConfig cfg0 numCPU ∧
      m.Leaves = leaves ∧ m.NumLeaves = blocks.length ∧
      m.Depth = bitsLen (blocks.length - 1) ∧ m.Root = root ∧
      m.nodes = [] ∧ m.leafMap = [] ∧
      m.Proofs.length = blocks.length ∧
      ∀ k, k < blocks.length →
        m.Proofs[k]? =
          some (specProofK hf cf leaves (bitsLen (blocks.length - 1)) k) := by
  cases hrp : cfg0.RunInParallel with
  | false => exact New_mode0_seq h2 hrp hmode hlg hhf hcf hroot
  | true => exact New_mode0_par h2 hcpu hrp hmode hlg hhf hcf hroot

lemma New_mode1_any {cfg0 : Config} {blocks : List DataBlock} {numCPU : Nat}
    (h2 : 2 ≤ blocks.length) (hcpu : 1 ≤ numCPU) (hmode : cfg0.Mode = ModeTreeBuild)
    {leaves : List Bytes}
    (hlg : leafGen blocks (resolveConfig cfg0 numCPU) = .ok leaves)
    {hf : TypeHashFunc} {cf : TypeConcatFunc}
    (hhf : (resolveConfig cfg0 numCPU).HashFunc = some hf)
    (hcf : (resolveConfig cfg0 numCPU).concatFunc = some cf)
    {root : Bytes}
    (hroot : specRoot hf cf leaves (bitsLen (blocks.length - 1)) = .ok root) :
    ∃ m, New (some cfg0) blocks numCPU = (some m, none) ∧
      m.config = resolveConfig cfg0 numCPU ∧
      m.Leaves = leaves ∧ m.NumLeaves = blocks.length ∧
      m.Depth = bitsLen (blocks.length - 1) ∧ m.Root = root ∧
      m.leafMap = mapGen leaves ∧ m.Proofs = [] ∧
      m.nodes.length = bitsLen (blocks.length - 1) ∧
      ∀ s, s < bitsLen (blocks.length - 1) →
        m.nodes.getD s [] = okLvl hf cf leaves s := by
  cases hrp : cfg0.RunInParallel with
  | false => exact New_mode1_seq h2 hrp hmode hlg hhf hcf hroot
  | true => exact New_mode1_par h2 hcpu hrp hmode hlg hhf hcf hroot

lemma New_mode2_any {cfg0 : Config} {blocks : List DataBlock} {numCPU : Nat}
    (h2 : 2 ≤ blocks.length) (hcpu : 1 ≤ numCPU)
    (hmode : cfg0.Mode = ModeProofGenAndTreeBuild)
    {leaves : List Bytes}
    (hlg : leafGen blocks (resolveConfig cfg0 numCPU) = .ok leaves)
    {hf : TypeHashFunc} {cf : TypeConcatFunc}
    (hhf : (resolveConfig cfg0 numCPU).HashFunc = some hf)
    (hcf : (resolveConfig cfg0 numCPU).concatFunc = some cf)
    {root : Bytes}
    (hroot : specRoot hf cf leaves (bitsLen (blocks.length - 1)) = .ok root) :
    ∃ m, New (some cfg0) blocks numCPU = (some m, none) ∧
      m.config = resolveConfig cfg0 numCPU ∧
      m.Leaves = leaves ∧ m.NumLeaves = blocks.length ∧
      m.Depth = bitsLen (blocks.length - 1) ∧ m.Root = root ∧
      m.leafMap = mapGen leaves ∧
      m.nodes.length = bitsLen (blocks.length - 1) ∧
      (∀ s, s < bitsLen (blocks.length - 1) →
        m.nodes.getD s [] = okLvl hf cf leaves s) ∧
      m.Proofs.length = blocks.length ∧
      ∀ k, k < blocks.length →
        m.Proofs[k]? =
          some (specProofK hf cf leaves (bitsLen (blocks.length - 1)) k) := by
  cases hrp : cfg0.RunInParallel with
  | false => exact New_mode2_seq h2 hrp hmode hlg hhf hcf hroot
  | true => exact New_mode2_par h2 hcpu hrp hmode hlg hhf hcf hroot

/-! ## C2: proof-only and tree-retained roots agree -/

/-- C2: over the same blocks and the same configuration — under either
parallelism flag — proof-generation mode (streamed rolling buffer) and
tree-building mode (retained level matrix) succeed together and produce
the same root, namely the specification root. -/
theorem C2_modes_same_root {cfg0 : Config} {blocks : List DataBlock} {numCPU : Nat}
    (h2 : 2 ≤ blocks.length) (hcpu : 1 ≤ numCPU)
    {leaves : List Bytes}
    (hlg : leafGen blocks (resolveConfig cfg0 numCPU) = .ok leaves)
    {hf : TypeHashFunc} {cf : TypeConcatFunc}
    (hhf : (resolveConfig cfg0 numCPU).HashFunc = some hf)
    (hcf : (resolveConfig cfg0 numCPU).concatFunc = some cf)
    {root : Bytes}
    (hroot : specRoot hf cf leaves (bitsLen (blocks.length - 1)) = .ok root) :
    ∃ m0 m1,
      New (some { cfg0 with Mode := ModeProofGen }) blocks numCPU = (some m0, none) ∧
      New (some { cfg0 with Mode := ModeTreeBuild }) blocks numCPU = (some m1, none) ∧
      m0.Root = m1.Root ∧ m0.Root = root := by
  obtain ⟨m0, hN0, _, _, _, _, hR0, _⟩ :=
    @New_mode0_any { cfg0 with Mode := ModeProofGen } blocks numCPU h2 hcpu rfl leaves
      (by rw [resolveConfig_mode_set, leafGen_mode]; exact hlg) hf cf
      (by rw [resolveConfig_mode_set]; exact hhf)
      (by rw [resolveConfig_mode_set]; exact hcf)
      root hroot
  obtain ⟨m1, hN1, _, _, _, _, hR1, _⟩ :=
    @New_mode1_any { cfg0 with Mode := ModeTreeBuild } blocks numCPU h2 hcpu rfl leaves
      (by rw [resolveConfig_mode_set, leafGen_mode]; exact hlg) hf cf
      (by rw [resolveConfig_mode_set]; exact hhf)
      (by rw [resolveConfig_mode_set]; exact hcf)
      root hroot
  exact ⟨m0, m1, hN0, hN1, by rw [hR0, hR1], hR0⟩

/-- C2 witness: two blocks under the default configuration. -/
theorem C2_modes_same_root_witness :
    ∃ m0 m1,
      New (some { ({} : Config) with Mode := ModeProofGen })
        [{ serialize := .ok [1] }, { serialize := .ok [2] }] 1 = (some m0, none) ∧
      New (some { ({} : Config) with Mode := ModeTreeBuild })
        [{ serialize := .ok [1] }, { serialize := .ok [2] }] 1 = (some m1, none) ∧
      m0.Root = m1.Root ∧ m0.Root = [0, 0, 1, 0, 2] :=
  @C2_modes_same_root {} [{ serialize := .ok [1] }, { serialize := .ok [2] }] 1
    (by decide) (by decide) [[0, 1], [0, 2]] rfl DefaultHashFunc concatHash rfl rfl
    [0, 0, 1, 0, 2] rfl

/-! ## C3: the on-demand proof against the recorded proofs, generally -/

/-- C3 (amended): in both tree-retained modes and under either
parallelism flag, the on-demand `Proof` method returns exactly — same
`Path` integer, same ordered sibling sequence — the proof the
batch-doubling recording procedure produces for the leaf index the leaf
map resolves the block's digest to, i.e. the *last* leaf with that
digest: in `ModeProofGenAndTreeBuild` the eagerly recorded proof at that
index, and in `ModeTreeBuild` the proof the streamed recording
(`ModeProofGen` over the same blocks) records at that index.  For blocks
with pairwise distinct digests that index is the block's own leaf, but
with duplicate digests it can be a different leaf than the block's
original position (see the counterexample), so "identical to the proof
of that leaf" holds only up to the map's index choice. -/
theorem C3_proof_method_agrees {cfg0 : Config} {blocks : List DataBlock} {numCPU : Nat}
    (h2 : 2 ≤ blocks.length) (hcpu : 1 ≤ numCPU)
    {leaves : List Bytes}
    (hlg : leafGen blocks (resolveConfig cfg0 numCPU) = .ok leaves)
    {hf : TypeHashFunc} {cf : TypeConcatFunc}
    (hhf : (resolveConfig cfg0 numCPU).HashFunc = some hf)
    (hcf : (resolveConfig cfg0 numCPU).concatFunc = some cf)
    {root : Bytes}
    (hroot : specRoot hf cf leaves (bitsLen (blocks.length - 1)) = .ok root) :
    (∃ m, New (some { cfg0 with Mode := ModeProofGenAndTreeBuild }) blocks numCPU
        = (some m, none) ∧
      ∀ db leaf idx, leafFromBlock db m.config = .ok leaf →
        mapLookup m.leafMap leaf = some idx →
        idx < leaves.length ∧ leaves.getD idx [] = leaf ∧
        ∃ p, m.Proof db = .ok p ∧ m.Proofs[idx]? = some p) ∧
    (∃ m1 m0,
      New (some { cfg0 with Mode := ModeTreeBuild }) blocks numCPU = (some m1, none) ∧
      New (some { cfg0 with Mode := ModeProofGen }) blocks numCPU = (some m0, none) ∧
      ∀ db leaf idx, leafFromBlock db m1.config = .ok leaf →
        mapLookup m1.leafMap leaf = some idx →
        idx < leaves.length ∧ leaves.getD idx [] = leaf ∧
        ∃ p, m1.Proof db = .ok p ∧ m0.Proofs[idx]? = some p) := by
  obtain ⟨hllen, _⟩ := leafGen_ok hlg
  constructor
  · -- the eager tree-retained mode: method result vs the tree's own proofs
    obtain ⟨m, hNew, hcfg, hlv, hnl, hdep, hrt, hmapg, hnsl, hnspt, hplen, hppt⟩ :=
      @New_mode2_any { cfg0 with Mode := ModeProofGenAndTreeBuild } blocks numCPU h2 hcpu
        rfl leaves
        (by rw [resolveConfig_mode_set, leafGen_mode]; exact hlg) hf cf
        (by rw [resolveConfig_mode_set]; exact hhf)
        (by rw [resolveConfig_mode_set]; exact hcf) root hroot
    have hmhf : m.hashF = hf := by
      rw [MerkleTree.hashF, hcfg, resolveConfig_mode_set]
      show (resolveConfig cfg0 numCPU).HashFunc.getD DefaultHashFunc = hf
      rw [hhf]; rfl
    have hmcf : m.concatF = cf := by
      rw [MerkleTree.concatF, hcfg, resolveConfig_mode_set]
      show (resolveConfig cfg0 numCPU).concatFunc.getD concatHash = cf
      rw [hcf]; rfl
    refine ⟨m, hNew, ?_⟩
    intro db leaf idx hdb hlook
    rw [hmapg] at hlook
    obtain ⟨hidx, hval⟩ := mapLookup_sound hlook
    have hPf := Proof_spec hlv
      (Or.inr (by rw [hcfg, resolveConfig_Mode])) hmapg
      (by
        intro s hs
        rw [hdep] at hs
        rw [hnspt s hs, hmhf, hmcf])
      hdb hlook
    refine ⟨hidx, hval, specProofK hf cf leaves (bitsLen (blocks.length - 1)) idx, ?_, ?_⟩
    · rw [hPf, hmhf, hmcf, hdep]
    · exact hppt idx (by omega)
  · -- the pure tree-building mode: method result vs the streamed recording
    obtain ⟨m1, hNew1, hcfg1, hlv1, hnl1, hdep1, hrt1, hmapg1, _, hnsl1, hnspt1⟩ :=
      @New_mode1_any { cfg0 with Mode := ModeTreeBuild } blocks numCPU h2 hcpu rfl leaves
        (by rw [resolveConfig_mode_set, leafGen_mode]; exact hlg) hf cf
        (by rw [resolveConfig_mode_set]; exact hhf)
        (by rw [resolveConfig_mode_set]; exact hcf) root hroot
    obtain ⟨m0, hNew0, hcfg0, hlv0, hnl0, hdep0, hrt0, _, _, hplen0, hppt0⟩ :=
      @New_mode0_any { cfg0 with Mode := ModeProofGen } blocks numCPU h2 hcpu rfl leaves
        (by rw [resolveConfig_mode_set, leafGen_mode]; exact hlg) hf cf
        (by rw [resolveConfig_mode_set]; exact hhf)
        (by rw [resolveConfig_mode_set]; exact hcf) root hroot
    have hmhf1 : m1.hashF = hf := by
      rw [MerkleTree.hashF, hcfg1, resolveConfig_mode_set]
      show (resolveConfig cfg0 numCPU).HashFunc.getD DefaultHashFunc = hf
      rw [hhf]; rfl
    have hmcf1 : m1.concatF = cf := by
      rw [MerkleTree.concatF, hcfg1, resolveConfig_mode_set]
      show (resolveConfig cfg0 numCPU).concatFunc.getD concatHash = cf
      rw [hcf]; rfl
    refine ⟨m1, m0, hNew1, hNew0, ?_⟩
    intro db leaf idx hdb hlook
    rw [hmapg1] at hlook
    obtain ⟨hidx, hval⟩ := mapLookup_sound hlook
    have hPf := Proof_spec hlv1
      (Or.inl (by rw [hcfg1, resolveConfig_Mode])) hmapg1
      (by
        intro s hs
        rw [hdep1] at hs
        rw [hnspt1 s hs, hmhf1, hmcf1])
      hdb hlook
    refine ⟨hidx, hval, specProofK hf cf leaves (bitsLen (blocks.length - 1)) idx, ?_, ?_⟩
    · rw [hPf, hmhf1, hmcf1, hdep1]
    · exact hppt0 idx (by omega)

/-- C3 witness: distinct blocks, every lookup hits the block's own leaf
and the method agrees with the recorded proofs in both retained modes. -/
theorem C3_proof_method_agrees_witness :
    (∃ m, New (some { ({} : Config) with Mode := ModeProofGenAndTreeBuild })
        [{ serialize := .ok [1] }, { serialize := .ok [2] }] 1 = (some m, none) ∧
      ∀ db leaf idx, leafFromBlock db m.config = .ok leaf →
        mapLookup m.leafMap leaf = some idx →
        idx < ([[0, 1], [0, 2]] : List Bytes).length ∧
        ([[0, 1], [0, 2]] : List Bytes).getD idx [] = leaf ∧
        ∃ p, m.Proof db = .ok p ∧ m.Proofs[idx]? = some p) ∧
    (∃ m1 m0,
      New (some { ({} : Config) with Mode := ModeTreeBuild })
        [{ serialize := .ok [1] }, { serialize := .ok [2] }] 1 = (some m1, none) ∧
      New (some { ({} : Config) with Mode := ModeProofGen })
        [{ serialize := .ok [1] }, { serialize := .ok [2] }] 1 = (some m0, none) ∧
      ∀ db leaf idx, leafFromBlock db m1.config = .ok leaf →
        mapLookup m1.leafMap leaf = some idx →
        idx < ([[0, 1], [0, 2]] : List Bytes).length ∧
        ([[0, 1], [0, 2]] : List Bytes).getD idx [] = leaf ∧
        ∃ p, m1.Proof db = .ok p ∧ m0.Proofs[idx]? = some p) :=
  @C3_proof_method_agrees {} [{ serialize := .ok [1] }, { serialize := .ok [2] }] 1
    (by decide) (by decide) [[0, 1], [0, 2]] rfl DefaultHashFunc concatHash rfl rfl
    [0, 0, 1, 0, 2] rfl

/-! ## C8: the shape of the on-demand proof walk -/

/-- The walk of `(*MerkleTree).Proof` over any tree whose retained node
matrix holds the specification levels. -/
lemma proof_walk_of_nodes {m : MerkleTree} {leaves : List Bytes}
    {hf : TypeHashFunc} {cf : TypeConcatFunc}
    (hlv : m.Leaves = leaves)
    (hmode : m.config.Mode = ModeTreeBuild ∨ m.config.Mode = ModeProofGenAndTreeBuild)
    (hmapg : m.leafMap = mapGen leaves)
    (hH : m.config.HashFunc = some hf) (hC : m.config.concatFunc = some cf)
    (hnspt : ∀ s, s < m.Depth → m.nodes.getD s [] = okLvl hf cf leaves s)
    (hd32 : m.Depth ≤ 32) :
    ∀ db leaf idx, leafFromBlock db m.config = .ok leaf →
      mapLookup m.leafMap leaf = some idx →
      ∃ p, m.Proof db = .ok p ∧ p.Siblings.length = m.Depth ∧
        ∀ i, i < m.Depth →
          ((idx >>> i) % 2 = 1 →
            p.Siblings.getD i [] = (m.nodes.getD i []).getD ((idx >>> i) - 1) [] ∧
            p.Path / 2 ^ i % 2 = 0) ∧
          ((idx >>> i) % 2 = 0 →
            p.Siblings.getD i [] = (m.nodes.getD i []).getD ((idx >>> i) + 1) [] ∧
            p.Path / 2 ^ i % 2 = 1) := by
  have hmhf : m.hashF = hf := by rw [MerkleTree.hashF, hH]; rfl
  have hmcf : m.concatF = cf := by rw [MerkleTree.concatF, hC]; rfl
  intro db leaf idx hdb hlook
  rw [hmapg] at hlook
  have hPf := Proof_spec hlv hmode hmapg
    (by
      intro s hs
      rw [hmhf, hmcf]
      exact hnspt s hs)
    hdb hlook
  refine ⟨specProofK m.hashF m.concatF leaves m.Depth idx, hPf,
    specProofK_sib_length _ _ _ _ _, ?_⟩
  intro i hi
  have hsib : (specProofK m.hashF m.concatF leaves m.Depth idx).Siblings.getD i []
      = (okLvl m.hashF m.concatF leaves i).getD (sibPos (idx >>> i)) [] := by
    rw [specProofK_sib_getD hi]
    rfl
  have hnodesi : m.nodes.getD i [] = okLvl m.hashF m.concatF leaves i := by
    rw [hmhf, hmcf]
    exact hnspt i hi
  have hpathbit := specPath_bit (k := idx) (d := m.Depth) hd32 (s := i) hi
  have hdivbit : idx / 2 ^ i = idx >>> i := (Nat.shiftRight_eq_div_pow idx i).symm
  rw [hdivbit] at hpathbit
  constructor
  · intro ho
    constructor
    · rw [hsib, hnodesi]
      simp only [sibPos, ho]
      simp
    · show specPath idx m.Depth / 2 ^ i % 2 = 0
      rw [hpathbit, if_pos ho]
  · intro he
    constructor
    · rw [hsib, hnodesi]
      simp only [sibPos, he]
      rw [if_neg (by omega)]
    · show specPath idx m.Depth / 2 ^ i % 2 = 1
      rw [hpathbit, if_neg (by omega)]

/-- C8: in both tree-retained modes and under either parallelism flag,
the walk of the `Proof` method from a looked-up leaf position: at every
retained level `i`, an odd position takes the preceding node as sibling
and leaves path bit `i` clear, an even position takes the following node
and sets path bit `i`; the position for the next level is the current
position halved (`idx >>> i` below). -/
theorem C8_proof_walk {cfg0 : Config} {blocks : List DataBlock} {numCPU : Nat}
    (h2 : 2 ≤ blocks.length) (hcpu : 1 ≤ numCPU)
    (hmode : cfg0.Mode = ModeTreeBuild ∨ cfg0.Mode = ModeProofGenAndTreeBuild)
    (hn32 : blocks.length ≤ 2 ^ 32)
    {leaves : List Bytes}
    (hlg : leafGen blocks (resolveConfig cfg0 numCPU) = .ok leaves)
    {hf : TypeHashFunc} {cf : TypeConcatFunc}
    (hhf : (resolveConfig cfg0 numCPU).HashFunc = some hf)
    (hcf : (resolveConfig cfg0 numCPU).concatFunc = some cf)
    {root : Bytes}
    (hroot : specRoot hf cf leaves (bitsLen (blocks.length - 1)) = .ok root) :
    ∃ m, New (some cfg0) blocks numCPU = (some m, none) ∧
      ∀ db leaf idx, leafFromBlock db m.config = .ok leaf →
        mapLookup m.leafMap leaf = some idx →
        ∃ p, m.Proof db = .ok p ∧ p.Siblings.length = m.Depth ∧
          ∀ i, i < m.Depth →
            ((idx >>> i) % 2 = 1 →
              p.Siblings.getD i [] = (m.nodes.getD i []).getD ((idx >>> i) - 1) [] ∧
              p.Path / 2 ^ i % 2 = 0) ∧
            ((idx >>> i) % 2 = 0 →
              p.Siblings.getD i [] = (m.nodes.getD i []).getD ((idx >>> i) + 1) [] ∧
              p.Path / 2 ^ i % 2 = 1) := by
  have hd32 : bitsLen (blocks.length - 1) ≤ 32 := bitsLen_depth_min hn32
  rcases hmode with hm | hm
  · obtain ⟨m, hNew, hcfg, hlv, hnl, hdep, hrt, hmapg, _, hnsl, hnspt⟩ :=
      New_mode1_any h2 hcpu hm hlg hhf hcf hroot
    refine ⟨m, hNew, ?_⟩
    exact proof_walk_of_nodes hlv
      (Or.inl (by rw [hcfg, resolveConfig_Mode]; exact hm)) hmapg
      (by rw [hcfg]; exact hhf) (by rw [hcfg]; exact hcf)
      (by
        intro s hs
        rw [hdep] at hs
        exact hnspt s hs)
      (by rw [hdep]; exact hd32)
  · obtain ⟨m, hNew, hcfg, hlv, hnl, hdep, hrt, hmapg, hnsl, hnspt, _, _⟩ :=
      New_mode2_any h2 hcpu hm hlg hhf hcf hroot
    refine ⟨m, hNew, ?_⟩
    exact proof_walk_of_nodes hlv
      (Or.inr (by rw [hcfg, resolveConfig_Mode]; exact hm)) hmapg
      (by rw [hcfg]; exact hhf) (by rw [hcfg]; exact hcf)
      (by
        intro s hs
        rw [hdep] at hs
        exact hnspt s hs)
      (by rw [hdep]; exact hd32)

/-- C8 witness: the walk properties at a concrete two-block tree. -/
theorem C8_proof_walk_witness :
    ∃ m, New (some ({ Mode := ModeTreeBuild } : Config))
        [{ serialize := .ok [1] }, { serialize := .ok [2] }] 1 = (some m, none) ∧
      ∀ db leaf idx, leafFromBlock db m.config = .ok leaf →
        mapLookup m.leafMap leaf = some idx →
        ∃ p, m.Proof db = .ok p ∧ p.Siblings.length = m.Depth ∧
          ∀ i, i < m.Depth →
            ((idx >>> i) % 2 = 1 →
              p.Siblings.getD i [] = (m.nodes.getD i []).getD ((idx >>> i) - 1) [] ∧
              p.Path / 2 ^ i % 2 = 0) ∧
            ((idx >>> i) % 2 = 0 →
              p.Siblings.getD i [] = (m.nodes.getD i []).getD ((idx >>> i) + 1) [] ∧
              p.Path / 2 ^ i % 2 = 1) :=
  @C8_proof_walk { Mode := ModeTreeBuild }
    [{ serialize := .ok [1] }, { serialize := .ok [2] }] 1 (by decide) (by decide)
    (Or.inl rfl) (by decide)
    [[0, 1], [0, 2]] rfl DefaultHashFunc concatHash rfl rfl [0, 0, 1, 0, 2] rfl

/-! ## C1: construct-then-verify round trips -/

/-- C1 (amended): for every tree of at least two blocks, in any mode
that yields proofs and under either parallelism flag, each original
block verifies to `true` against the tree's root — whether the proof
came from the streamed proof-only path (`ModeProofGen`), the eager
tree-retained path (`ModeProofGenAndTreeBuild`) or the on-demand lookup
(`ModeTreeBuild` plus the `Proof` method) — when verification runs under
the tree's *resolved* configuration (the `Verify` method).  Under
literally "the same configuration" the caller passed to `New` the round
trip can fail: package-level `Verify` never consults `SortSiblingPairs`
and defaults a nil concatenation function to the unsorted concatenation,
so with `SortSiblingPairs` set and `concatFunc` nil the recorded
(sorted-pair) proofs verify to `false` (see the counterexample). -/
theorem C1_construct_and_verify {cfg0 : Config} {blocks : List DataBlock} {numCPU : Nat}
    (h2 : 2 ≤ blocks.length) (hcpu : 1 ≤ numCPU)
    (hn32 : blocks.length ≤ 2 ^ 32)
    {leaves : List Bytes}
    (hlg : leafGen blocks (resolveConfig cfg0 numCPU) = .ok leaves)
    {hf : TypeHashFunc} {cf : TypeConcatFunc}
    (hhf : (resolveConfig cfg0 numCPU).HashFunc = some hf)
    (hcf : (resolveConfig cfg0 numCPU).concatFunc = some cf)
    {root : Bytes}
    (hroot : specRoot hf cf leaves (bitsLen (blocks.length - 1)) = .ok root) :
    (∃ m, New (some { cfg0 with Mode := ModeProofGen }) blocks numCPU = (some m, none) ∧
      ∀ k, k < blocks.length → ∃ p, m.Proofs[k]? = some p ∧
        m.Verify (some (blocks.getD k defaultBlock)) (some p) = .ok true) ∧
    (∃ m, New (some { cfg0 with Mode := ModeProofGenAndTreeBuild }) blocks numCPU
        = (some m, none) ∧
      ∀ k, k < blocks.length → ∃ p, m.Proofs[k]? = some p ∧
        m.Verify (some (blocks.getD k defaultBlock)) (some p) = .ok true) ∧
    (∃ m, New (some { cfg0 with Mode := ModeTreeBuild }) blocks numCPU = (some m, none) ∧
      ∀ db leaf idx, leafFromBlock db m.config = .ok leaf →
        mapLookup m.leafMap leaf = some idx →
        ∃ p, m.Proof db = .ok p ∧ m.Verify (some db) (some p) = .ok true) := by
  obtain ⟨hllen, hlpt⟩ := leafGen_ok hlg
  have hd1 : 1 ≤ bitsLen (blocks.length - 1) := bitsLen_depth_pos h2
  have hd32 : bitsLen (blocks.length - 1) ≤ 32 := bitsLen_depth_min hn32
  have hnd : leaves.length ≤ 2 ^ bitsLen (blocks.length - 1) := by
    have := bitsLen_depth_ge (n := blocks.length) (by omega)
    omega
  refine ⟨?_, ?_, ?_⟩
  · -- streamed path
    obtain ⟨m, hNew, hcfg, hlv, hnl, hdep, hrt, _, _, hplen, hppt⟩ :=
      @New_mode0_any { cfg0 with Mode := ModeProofGen } blocks numCPU h2 hcpu rfl leaves
        (by rw [resolveConfig_mode_set, leafGen_mode]; exact hlg) hf cf
        (by rw [resolveConfig_mode_set]; exact hhf)
        (by rw [resolveConfig_mode_set]; exact hcf) root hroot
    have hH : m.config.HashFunc = some hf := by
      rw [hcfg, resolveConfig_mode_set]; exact hhf
    have hC : m.config.concatFunc = some cf := by
      rw [hcfg, resolveConfig_mode_set]; exact hcf
    refine ⟨m, hNew, ?_⟩
    intro k hk
    refine ⟨specProofK hf cf leaves (bitsLen (blocks.length - 1)) k, hppt k hk, ?_⟩
    rw [MerkleTree.Verify, hrt]
    apply verify_specProof (by omega) hnd hd32 hd1 hroot hH hC
    have hmode0 : m.config = { resolveConfig cfg0 numCPU with Mode := ModeProofGen } := by
      rw [hcfg, resolveConfig_mode_set]
    rw [hmode0, leafFromBlock_mode]
    exact hlpt k hk
  · -- eager tree-retained path
    obtain ⟨m, hNew, hcfg, hlv, hnl, hdep, hrt, _, _, _, hplen, hppt⟩ :=
      @New_mode2_any { cfg0 with Mode := ModeProofGenAndTreeBuild } blocks numCPU h2 hcpu
        rfl leaves
        (by rw [resolveConfig_mode_set, leafGen_mode]; exact hlg) hf cf
        (by rw [resolveConfig_mode_set]; exact hhf)
        (by rw [resolveConfig_mode_set]; exact hcf) root hroot
    have hH : m.config.HashFunc = some hf := by
      rw [hcfg, resolveConfig_mode_set]; exact hhf
    have hC : m.config.concatFunc = some cf := by
      rw [hcfg, resolveConfig_mode_set]; exact hcf
    refine ⟨m, hNew, ?_⟩
    intro k hk
    refine ⟨specProofK hf cf leaves (bitsLen (blocks.length - 1)) k, hppt k hk, ?_⟩
    rw [MerkleTree.Verify, hrt]
    apply verify_specProof (by omega) hnd hd32 hd1 hroot hH hC
    have hmode2 : m.config
        = { resolveConfig cfg0 numCPU with Mode := ModeProofGenAndTreeBuild } := by
      rw [hcfg, resolveConfig_mode_set]
    rw [hmode2, leafFromBlock_mode]
    exact hlpt k hk
  · -- on-demand path
    obtain ⟨m, hNew, hcfg, hlv, hnl, hdep, hrt, hmapg, _, hnsl, hnspt⟩ :=
      @New_mode1_any { cfg0 with Mode := ModeTreeBuild } blocks numCPU h2 hcpu rfl leaves
        (by rw [resolveConfig_mode_set, leafGen_mode]; exact hlg) hf cf
        (by rw [resolveConfig_mode_set]; exact hhf)
        (by rw [resolveConfig_mode_set]; exact hcf) root hroot
    have hH : m.config.HashFunc = some hf := by
      rw [hcfg, resolveConfig_mode_set]; exact hhf
    have hC : m.config.concatFunc = some cf := by
      rw [hcfg, resolveConfig_mode_set]; exact hcf
    have hmhf : m.hashF = hf := by
      rw [MerkleTree.hashF, hH]; rfl
    have hmcf : m.concatF = cf := by
      rw [MerkleTree.concatF, hC]; rfl
    refine ⟨m, hNew, ?_⟩
    intro db leaf idx hdb hlook
    rw [hmapg] at hlook
    obtain ⟨hidx, hval⟩ := mapLookup_sound hlook
    have hPf := Proof_spec hlv
      (Or.inl (by rw [hcfg, resolveConfig_Mode])) hmapg
      (by
        intro s hs
        rw [hdep] at hs
        rw [hnspt s hs, hmhf, hmcf])
      hdb hlook
    refine ⟨specProofK m.hashF m.concatF leaves m.Depth idx, hPf, ?_⟩
    rw [MerkleTree.Verify, hrt, hmhf, hmcf, hdep]
    apply verify_specProof (by omega) hnd hd32 hd1 hroot hH hC
    rw [hval]
    exact hdb

/-- C1 witness: both construction modes and the on-demand path verify at
a concrete two-block input. -/
theorem C1_construct_and_verify_witness :
    (∃ m, New (some { ({} : Config) with Mode := ModeProofGen })
        [{ serialize := .ok [1] }, { serialize := .ok [2] }] 1 = (some m, none) ∧
      ∀ k, k < 2 → ∃ p, m.Proofs[k]? = some p ∧
        m.Verify (some ([{ serialize := .ok [1] }, { serialize := .ok [2] }].getD k
          defaultBlock)) (some p) = .ok true) ∧
    (∃ m, New (some { ({} : Config) with Mode := ModeProofGenAndTreeBuild })
        [{ serialize := .ok [1] }, { serialize := .ok [2] }] 1 = (some m, none) ∧
      ∀ k, k < 2 → ∃ p, m.Proofs[k]? = some p ∧
        m.Verify (some ([{ serialize := .ok [1] }, { serialize := .ok [2] }].getD k
          defaultBlock)) (some p) = .ok true) ∧
    (∃ m, New (some { ({} : Config) with Mode := ModeTreeBuild })
        [{ serialize := .ok [1] }, { serialize := .ok [2] }] 1 = (some m, none) ∧
      ∀ db leaf idx, leafFromBlock db m.config = .ok leaf →
        mapLookup m.leafMap leaf = some idx →
        ∃ p, m.Proof db = .ok p ∧ m.Verify (some db) (some p) = .ok true) :=
  @C1_construct_and_verify {} [{ serialize := .ok [1] }, { serialize := .ok [2] }] 1
    (by decide) (by decide) (by decide) [[0, 1], [0, 2]] rfl DefaultHashFunc concatHash
    rfl rfl [0, 0, 1, 0, 2] rfl

end merkletree
